import Mathlib

/-!
# cronkit: five-field cron expressions and the next-occurrence search

A shallow embedding of `cronkit.go` (`parseField`, `Parse`, `fieldSet.has`,
`Expression.Next`) together with the parts of Go's standard library the code
calls (`strconv.Atoi`, `strings.Split`, `strings.Contains`, `strings.Fields`,
and the UTC calendar of package `time`).

Conventions of the embedding:

* a Go `string` is the list of its characters (`List Char`);
* a Go `int` is a 64-bit two's-complement integer: values are `Int`s, and the
  loop counters of `parseField` wrap around with `wrap64`;
* a `map[int]bool` that only ever stores `true` is the list of its keys;
* a loop that may run forever takes a fuel argument and yields `none` when the
  fuel runs out before the loop exits;
* a `time.Time` in UTC is the number of nanoseconds elapsed since Go's zero
  time, 0001-01-01T00:00:00Z, as an unbounded integer (the 64-bit second
  counter of package `time` is not modelled).
-/

namespace Cronkit

/-! ## Package `time` (UTC, proleptic Gregorian calendar)

An instant (a `time.Time` in UTC) is an `Int`: the nanoseconds since
0001-01-01T00:00:00Z. The methods of `time.Time` live in the namespace `Time`. -/

namespace time

/-- Go's `time.Minute`, a duration in nanoseconds. -/
def Minute : Int := 60000000000

/-- Go's `time.Hour`, a duration in nanoseconds. -/
def Hour : Int := 3600000000000

/-- Nanoseconds in a day. -/
def nsPerDay : Int := 86400000000000

/-- Go's `isLeap`. -/
def isLeap (year : Int) : Bool :=
  year % 4 == 0 && (year % 100 != 0 || year % 400 == 0)

/-- Go's `daysBefore` table: `daysBefore m` is the number of days in a non-leap
year before month `m + 1` starts (`m` from 0 to 12). -/
def daysBefore (m : Int) : Int :=
  if m ≤ 0 then 0
  else if m = 1 then 31
  else if m = 2 then 59
  else if m = 3 then 90
  else if m = 4 then 120
  else if m = 5 then 151
  else if m = 6 then 181
  else if m = 7 then 212
  else if m = 8 then 243
  else if m = 9 then 273
  else if m = 10 then 304
  else if m = 11 then 334
  else 365

/-- Go's `daysSinceEpoch`, taken from 1 January of year 1: the number of days
from 0001-01-01 to 1 January of `year`. -/
def daysSinceEpoch (year : Int) : Int :=
  let y := year - 1
  let n400 := y / 400
  let y1 := y - 400 * n400
  let n100 := y1 / 100
  let y2 := y1 - 100 * n100
  let n4 := y2 / 4
  let y3 := y2 - 4 * n4
  146097 * n400 + 36524 * n100 + 1461 * n4 + 365 * y3

/-- Go's `time.Date(year, month, day, hour, min, 0, 0, time.UTC)`: the month,
minute and hour are normalised (overflowing into the year, the hour and the
day), and the day is an offset from the first of the month. -/
def Date (year month day hour min : Int) : Int :=
  let m := month - 1
  let year := year + m / 12
  let month := m % 12 + 1
  let hour := hour + min / 60
  let min := min % 60
  let day := day + hour / 24
  let hour := hour % 24
  let d := daysSinceEpoch year + daysBefore (month - 1)
    + (if isLeap year && decide (3 ≤ month) then 1 else 0) + (day - 1)
  d * nsPerDay + hour * Hour + min * Minute

end time

namespace Time

/-- Whole days elapsed since 0001-01-01 (rounded down). -/
def absDays (t : Int) : Int := t / time.nsPerDay

/-- The year of a day count and the day within that year (from 0), by cutting
off 400-year, 100-year, 4-year and 1-year cycles as Go's `absDate` does. -/
def yearDay (d : Int) : Int × Int :=
  let n400 := d / 146097
  let d0 := d % 146097
  let c := d0 / 36524
  let n100 := c - c / 4
  let d1 := d0 - 36524 * n100
  let n4 := d1 / 1461
  let d2 := d1 - 1461 * n4
  let k := d2 / 365
  let n1 := k - k / 4
  (400 * n400 + 100 * n100 + 4 * n4 + n1 + 1, d2 - 365 * n1)

/-- Go's `Time.Year`. -/
def Year (t : Int) : Int := (yearDay (absDays t)).1

/-- Go's `Time.YearDay`, counted from 0. -/
def yday (t : Int) : Int := (yearDay (absDays t)).2

/-- The month (1 to 12) and the day of the month (from 1) of day `day` of a
non-leap year, as the table lookup at the end of Go's `absDate` computes them:
the month is first estimated as if every month had 31 days. -/
def monthDayCore (day : Int) : Int × Int :=
  let month := day / 31
  let e := time.daysBefore (month + 1)
  if e ≤ day then (month + 2, day - e + 1)
  else (month + 1, day - time.daysBefore month + 1)

/-- The month and the day of the month of day `yd` (from 0) of a year, as the
second half of Go's `absDate`: in a leap year 29 February is day 59, and later
days are shifted back by one before the table lookup. -/
def monthDay (leap : Bool) (yd : Int) : Int × Int :=
  if leap && decide (yd = 59) then (2, 29)
  else monthDayCore (if leap && decide (59 < yd) then yd - 1 else yd)

/-- Go's `Time.Month` (January = 1). -/
def Month (t : Int) : Int := (monthDay (time.isLeap (Year t)) (yday t)).1

/-- Go's `Time.Day`. -/
def Day (t : Int) : Int := (monthDay (time.isLeap (Year t)) (yday t)).2

/-- Go's `Time.Hour`. -/
def Hour (t : Int) : Int := t % time.nsPerDay / time.Hour

/-- Go's `Time.Minute`. -/
def Minute (t : Int) : Int := t % time.Hour / time.Minute

/-- Go's `Time.Weekday` (Sunday = 0); 0001-01-01 was a Monday. -/
def Weekday (t : Int) : Int := (absDays t + 1) % 7

/-- Go's `Time.Truncate(d)` for a positive `d`: round down to a multiple of `d`
since the zero time. -/
def Truncate (t : Int) (d : Int) : Int := t - t % d

/-- Go's `Time.Add`. -/
def Add (t : Int) (d : Int) : Int := t + d

/-- Go's `Time.AddDate`: the date fields are shifted and the result is
renormalised by `time.Date`; the seconds and nanoseconds are carried over. -/
def AddDate (t : Int) (years months days : Int) : Int :=
  time.Date (Year t + years) (Month t + months) (Day t + days) (Hour t) (Minute t)
    + t % time.Minute

end Time


/-! ## Packages `strings` and `strconv` -/

namespace unicode

/-- Go's `unicode.IsSpace`: the characters with the White Space property. -/
def IsSpace (c : Char) : Bool :=
  c == '\t' || c == '\n' || c == '\x0b' || c == '\x0c' || c == '\r' || c == ' '
    || c == '\u0085' || c == '\u00a0' || c == '\u1680'
    || ('\u2000' ≤ c && c ≤ '\u200a')
    || c == '\u2028' || c == '\u2029' || c == '\u202f' || c == '\u205f' || c == '\u3000'

end unicode

namespace strings

/-- Go's `strings.Contains(s, sep)` for a one-character `sep`. -/
def Contains (s : List Char) (sep : Char) : Bool := s.contains sep

/-- Go's `strings.Split(s, sep)` for a one-character `sep`: the pieces between
consecutive separators, one more than there are separators. -/
def Split : List Char → Char → List (List Char)
  | [], _ => [[]]
  | c :: cs, sep =>
    if c = sep then [] :: Split cs sep
    else
      match Split cs sep with
      | [] => [[c]]
      | p :: ps => (c :: p) :: ps

/-- Go's `strings.Fields`: the maximal runs of non-space characters. -/
def Fields : List Char → List (List Char)
  | [] => []
  | c :: cs =>
    if unicode.IsSpace c then Fields cs
    else
      match cs with
      | [] => [[c]]
      | d :: _ =>
        if unicode.IsSpace d then [c] :: Fields cs
        else
          match Fields cs with
          | [] => [[c]]
          | f :: fs => (c :: f) :: fs

end strings

namespace strconv

/-- The two causes of a `*strconv.NumError`. -/
inductive NumError where
  | ErrSyntax
  | ErrRange
  deriving DecidableEq

/-- Largest `uint64`. -/
def maxUint64 : Nat := 18446744073709551615

/-- Largest `int` (64 bits). -/
def maxInt : Int := 9223372036854775807

/-- Smallest `int` (64 bits). -/
def minInt : Int := -9223372036854775808

/-- Is the byte an ASCII decimal digit. -/
def isDigit (c : Char) : Bool := '0' ≤ c && c ≤ '9'

/-- The value of an ASCII decimal digit. -/
def digitVal (c : Char) : Nat := c.toNat - 48

/-- The digit loop of Go's `strconv.ParseUint(s, 10, 64)` with accumulator `n`:
a non-digit is a syntax error (value 0), an overflow of `uint64` is a range
error (value `maxUint64`), whichever comes first. The cutoff
`1844674407370955162` is `maxUint64 / 10 + 1`, from which `n * 10` overflows. -/
def parseUintLoop : List Char → Nat → Nat × Option NumError
  | [], n => (n, none)
  | c :: cs, n =>
    if !isDigit c then (0, some .ErrSyntax)
    else if 1844674407370955162 ≤ n then (maxUint64, some .ErrRange)
    else if maxUint64 < n * 10 + digitVal c then (maxUint64, some .ErrRange)
    else parseUintLoop cs (n * 10 + digitVal c)

/-- Go's `strconv.ParseUint(s, 10, 64)`. -/
def ParseUint (s : List Char) : Nat × Option NumError :=
  if s = [] then (0, some .ErrSyntax) else parseUintLoop s 0

/-- Go's `strconv.ParseInt(s, 10, 0)` on a 64-bit platform: an optional sign,
then `ParseUint`; a syntax error gives 0, a value out of the `int` range gives
the nearest bound together with a range error. -/
def ParseInt (s : List Char) : Int × Option NumError :=
  match s with
  | [] => (0, some .ErrSyntax)
  | c :: cs =>
    let neg := c == '-'
    let r := ParseUint (if c == '+' || c == '-' then cs else s)
    if r.2 = some .ErrSyntax then (0, some .ErrSyntax)
    else if !neg && decide (9223372036854775808 ≤ r.1) then (maxInt, some .ErrRange)
    else if neg && decide (9223372036854775808 < r.1) then (minInt, some .ErrRange)
    else (if neg then -(r.1 : Int) else (r.1 : Int), none)

/-- Go's `strconv.Atoi`: the value and the error, if any. Its fast path for short
strings computes the same result as `ParseInt(s, 10, 0)`. -/
def Atoi (s : List Char) : Int × Option NumError := ParseInt s

end strconv

/-! ## cronkit.go -/

/-- The errors `parseField` and `Parse` build with `fmt.Errorf`, one constructor
per format string, holding the arguments of the format. -/
inductive ParseError where
  /-- Format `"invalid cron: expected 5 fields, got %d"`. -/
  | fieldCount (n : Nat)
  /-- Format `"invalid step: %q"`. -/
  | invalidStep (part : List Char)
  /-- Format `"bad step %q"`. -/
  | badStep (stepStr : List Char)
  /-- Format `"bad range %q"`. -/
  | badRange (s : List Char)
  /-- Format `"invalid number %q"`. -/
  | invalidNumber (part : List Char)
  /-- Format `"value %d out of range [%d-%d]"`. -/
  | outOfRange (v lo hi : Int)
  /-- Formats `"minute: %v"` to `"weekday: %v"`, wrapping the error of a field. -/
  | inField (name : String) (err : ParseError)
  deriving DecidableEq

/-- The Go struct `fieldSet`; `vals` is `none` for a nil map, and otherwise lists
the keys stored with value `true`. -/
structure fieldSet where
  all : Bool
  vals : Option (List Int)
  deriving DecidableEq

/-- The zero value `fieldSet{}`. -/
def fieldSet.zero : fieldSet := ⟨false, none⟩

/-- The method `fieldSet.has`; indexing a nil map gives `false`. -/
def fieldSet.has (f : fieldSet) (v : Int) : Bool :=
  if f.all then true
  else
    match f.vals with
    | none => false
    | some m => m.contains v

/-- An `int` after an arithmetic operation: the result wraps around modulo
`2 ^ 64` into the range from `-2 ^ 63` to `2 ^ 63 - 1`. -/
def wrap64 (x : Int) : Int :=
  (x + 9223372036854775808) % 18446744073709551616 - 9223372036854775808

/-- The loop `for i := start; i <= end; i += step { vals[i] = true }` started
at `i`, with `stop` for `end`; `none` when the fuel runs out before the loop
exits. -/
def stepLoop (stop step : Int) : Nat → Int → List Int → Option (List Int)
  | 0, i, vals => if i ≤ stop then none else some vals
  | fuel + 1, i, vals =>
    if i ≤ stop then stepLoop stop step fuel (wrap64 (i + step)) (vals.insert i)
    else some vals

/-- The bounds `start, end` of a step term, from its base: `lo, hi` for `*`, the
two sides of a range, or a number and `hi`; the errors of `strconv.Atoi` are
discarded as in the source. -/
def stepBounds (base : List Char) (lo hi : Int) : Except ParseError (Int × Int) :=
  if base ≠ ['*'] then
    if strings.Contains base '-' then
      match strings.Split base '-' with
      | [r0, r1] =>
        if r0 = [] || r1 = [] then .error (.badRange base)
        else .ok ((strconv.Atoi r0).1, (strconv.Atoi r1).1)
      | _ => .error (.badRange base)
    else .ok ((strconv.Atoi base).1, hi)
  else .ok (lo, hi)

/-- One iteration of the loop over the comma-separated parts in `parseField`:
the map after the part has been added, or the error returned. -/
def parsePart (fuel : Nat) (part : List Char) (lo hi : Int) (vals : List Int) :
    Option (Except ParseError (List Int)) :=
  if strings.Contains part '/' then
    match strings.Split part '/' with
    | [base, stepStr] =>
      let r := strconv.Atoi stepStr
      if r.2 ≠ none || decide (r.1 ≤ 0) then some (.error (.badStep stepStr))
      else
        match stepBounds base lo hi with
        | .error err => some (.error err)
        | .ok (start, stop) => (stepLoop stop r.1 fuel start vals).map .ok
    | _ => some (.error (.invalidStep part))
  else if strings.Contains part '-' then
    match strings.Split part '-' with
    | [r0, r1] =>
      if r0 = [] || r1 = [] then some (.error (.badRange part))
      else (stepLoop (strconv.Atoi r1).1 1 fuel (strconv.Atoi r0).1 vals).map .ok
    | _ => some (.error (.badRange part))
  else
    let r := strconv.Atoi part
    if r.2 ≠ none then some (.error (.invalidNumber part))
    else if r.1 < lo || r.1 > hi then some (.error (.outOfRange r.1 lo hi))
    else some (.ok (vals.insert r.1))

/-- The loop `for _, part := range strings.Split(s, ",")` of `parseField`. -/
def parseParts (fuel : Nat) (lo hi : Int) :
    List (List Char) → List Int → Option (Except ParseError (List Int))
  | [], vals => some (.ok vals)
  | part :: rest, vals =>
    match parsePart fuel part lo hi vals with
    | none => none
    | some (.error err) => some (.error err)
    | some (.ok vals1) => parseParts fuel lo hi rest vals1

/-- The function `parseField`: the pair of results `(fieldSet, error)`, or
`none` when a loop runs out of fuel. -/
def parseField (fuel : Nat) (s : List Char) (lo hi : Int) :
    Option (fieldSet × Option ParseError) :=
  if s = ['*'] then some (⟨true, none⟩, none)
  else
    match parseParts fuel lo hi (strings.Split s ',') [] with
    | none => none
    | some (.error err) => some (fieldSet.zero, some err)
    | some (.ok vals) => some (⟨false, some vals⟩, none)

/-- The Go struct `Expression`. -/
structure Expression where
  minutes : fieldSet
  hours : fieldSet
  days : fieldSet
  months : fieldSet
  weekdays : fieldSet
  deriving DecidableEq

/-- The zero value `Expression{}`. -/
def Expression.zero : Expression :=
  ⟨fieldSet.zero, fieldSet.zero, fieldSet.zero, fieldSet.zero, fieldSet.zero⟩

/-- The function `Parse`: the pair of results `(Expression, error)`, or `none`
when a loop of `parseField` runs out of fuel. Each field is assigned before its
error is tested, as in the source. -/
def Parse (fuel : Nat) (expr : List Char) : Option (Expression × Option ParseError) :=
  match strings.Fields expr with
  | [p0, p1, p2, p3, p4] =>
    let e := Expression.zero
    match parseField fuel p0 0 59 with
    | none => none
    | some (f, some err) => some ({ e with minutes := f }, some (.inField "minute" err))
    | some (f, none) =>
      let e := { e with minutes := f }
      match parseField fuel p1 0 23 with
      | none => none
      | some (f, some err) => some ({ e with hours := f }, some (.inField "hour" err))
      | some (f, none) =>
        let e := { e with hours := f }
        match parseField fuel p2 1 31 with
        | none => none
        | some (f, some err) => some ({ e with days := f }, some (.inField "day" err))
        | some (f, none) =>
          let e := { e with days := f }
          match parseField fuel p3 1 12 with
          | none => none
          | some (f, some err) => some ({ e with months := f }, some (.inField "month" err))
          | some (f, none) =>
            let e := { e with months := f }
            match parseField fuel p4 0 6 with
            | none => none
            | some (f, some err) =>
              some ({ e with weekdays := f }, some (.inField "weekday" err))
            | some (f, none) => some ({ e with weekdays := f }, none)
  | parts => some (Expression.zero, some (.fieldCount parts.length))

/-- One pass through the body of the `for` loop of `Next` at candidate `t`:
`some t1` when the body ends in `continue` with the candidate moved to `t1`,
`none` when it reaches `return t`. -/
def Expression.advance (e : Expression) (t : Int) : Option Int :=
  if !e.months.has (Time.Month t) then
    some (time.Date (Time.Year t) (Time.Month t + 1) 1 0 0)
  else if !(e.days.has (Time.Day t) || e.weekdays.has (Time.Weekday t)) then
    some (Time.AddDate (time.Date (Time.Year t) (Time.Month t) (Time.Day t) 0 0) 0 0 1)
  else if !e.hours.has (Time.Hour t) then
    some (time.Date (Time.Year t) (Time.Month t) (Time.Day t) (Time.Hour t + 1) 0)
  else if !e.minutes.has (Time.Minute t) then
    some (Time.Add t time.Minute)
  else none

/-- The `for` loop of `Next` from candidate `t`: `none` when the fuel runs out
before the loop returns. -/
def Expression.nextLoop (e : Expression) : Nat → Int → Option Int
  | 0, t =>
    match e.advance t with
    | none => some t
    | some _ => none
  | fuel + 1, t =>
    match e.advance t with
    | none => some t
    | some t1 => e.nextLoop fuel t1

/-- The method `Expression.Next`, for times in UTC. -/
def Expression.Next (e : Expression) (fuel : Nat) (after : Int) : Option Int :=
  e.nextLoop fuel (Time.Add (Time.Truncate after time.Minute) time.Minute)

/-- The message of an error built with `fmt.Errorf`, as `err.Error()` returns it.
The rendering of a text by the verb `%q` (a quoted Go string literal) is the
parameter `quote`; `%d` is the decimal rendering and `%v` of an error is its
message. -/
def ParseError.message (quote : List Char → String) : ParseError → String
  | .fieldCount n => "invalid cron: expected 5 fields, got " ++ toString n
  | .invalidStep part => "invalid step: " ++ quote part
  | .badStep stepStr => "bad step " ++ quote stepStr
  | .badRange s => "bad range " ++ quote s
  | .invalidNumber part => "invalid number " ++ quote part
  | .outOfRange v lo hi =>
    "value " ++ toString v ++ " out of range [" ++ toString lo ++ "-" ++ toString hi ++ "]"
  | .inField name err => name ++ ": " ++ err.message quote


/-! ## Sample expressions -/

/-- The universal predicate, as `parseField` returns it for `*`. -/
def fieldSet.star : fieldSet := ⟨true, none⟩

/-- The explicit predicate with the given keys. -/
def fieldSet.ofList (m : List Int) : fieldSet := ⟨false, some m⟩

/-- What `Parse` returns for `*/5 * * * *`. -/
def everyFiveMinutes : Expression :=
  ⟨.ofList [55, 50, 45, 40, 35, 30, 25, 20, 15, 10, 5, 0], .star, .star, .star, .star⟩

/-- What `Parse` returns for `0 * * * *`. -/
def everyHour : Expression := ⟨.ofList [0], .star, .star, .star, .star⟩

/-- What `Parse` returns for `* * 15 * 1`. -/
def fifteenthOrMonday : Expression := ⟨.star, .star, .ofList [15], .star, .ofList [1]⟩

/-- What `Parse` returns for `0 0 * * 1`. -/
def mondayMidnight : Expression := ⟨.ofList [0], .ofList [0], .star, .star, .ofList [1]⟩

/-- What `Parse` returns for `0 0 1 * *`. -/
def firstOfMonth : Expression := ⟨.ofList [0], .ofList [0], .ofList [1], .star, .star⟩

/-- What `Parse` returns for `*/15 9-17 * * 1-5`. -/
def workingHours : Expression :=
  ⟨.ofList [45, 30, 15, 0], .ofList [17, 16, 15, 14, 13, 12, 11, 10, 9], .star, .star,
    .ofList [5, 4, 3, 2, 1]⟩

/-- What `Parse` returns for `5-3 * * * *` and for `70/5 * * * *`: the minute
predicate is explicit and empty. -/
def neverMinute : Expression := ⟨.ofList [], .star, .star, .star, .star⟩

/-- What `Parse` returns for `0 0 31 2 *`. -/
def thirtyFirstOfFebruary : Expression :=
  ⟨.ofList [0], .ofList [0], .ofList [31], .ofList [2], .star⟩


/-! ## Definitions used to state the properties -/

namespace time

/-- Day of the year (from 0) on which month `m` starts; `m = 13` gives the length
of the year. -/
def monthOffset (leap : Bool) (m : Int) : Int :=
  daysBefore (m - 1) + (if leap && decide (3 ≤ m) then 1 else 0)

end time

namespace Time

/-- Day number on which the month after the month of `t` starts. -/
def nextMonthDay (t : Int) : Int :=
  time.daysSinceEpoch (Year t) + time.monthOffset (time.isLeap (Year t)) (Month t + 1)

end Time

/-- The schedule matches the instant `u`: the month, hour and minute predicates
hold, and the day-of-month predicate or the day-of-week predicate holds. -/
def Expression.matchesAt (e : Expression) (u : Int) : Bool :=
  e.months.has (Time.Month u) && (e.days.has (Time.Day u) || e.weekdays.has (Time.Weekday u))
    && e.hours.has (Time.Hour u) && e.minutes.has (Time.Minute u)

/-- A numeral: a non-empty text of ASCII decimal digits. -/
def isNumeral (s : List Char) : Bool := !s.isEmpty && s.all strconv.isDigit

/-- The number a text of decimal digits denotes, continuing from `n`. -/
def digitsVal (n : Nat) (s : List Char) : Nat :=
  s.foldl (fun n c => n * 10 + strconv.digitVal c) n

/-- The number a numeral denotes. -/
def numeralVal (s : List Char) : Nat := digitsVal 0 s

/-- A decimal integer: a numeral with an optional sign in front. -/
def isDecimalInt (s : List Char) : Bool :=
  match s with
  | [] => false
  | c :: cs => if c = '+' ∨ c = '-' then isNumeral cs else isNumeral (c :: cs)

/-- The integer a decimal integer denotes. -/
def decimalVal (s : List Char) : Int :=
  match s with
  | [] => 0
  | c :: cs =>
    if c = '-' then -(numeralVal cs : Int)
    else if c = '+' then (numeralVal cs : Int)
    else (numeralVal (c :: cs) : Int)

/-- Go's `strings.Join(terms, ",")`: the field text that lists the terms. -/
def joinComma : List (List Char) → List Char
  | [] => []
  | [t] => t
  | t :: rest => t ++ ',' :: joinComma rest

/-- The bounds a term resolves to lie within `lo .. hi`, and the counter of its
loop cannot overflow: for a step term the bounds `start, end` taken from its base
and the step, for a range term its two sides. Nothing is asked of a plain value,
which `parseField` checks itself, nor of a term `parseField` rejects. -/
def termWithin (lo hi : Int) (part : List Char) : Bool :=
  if strings.Contains part '/' then
    match strings.Split part '/' with
    | [base, stepStr] =>
      match stepBounds base lo hi with
      | .ok (start, stop) =>
        decide (lo ≤ start) && decide (stop ≤ hi)
          && decide (stop + (strconv.Atoi stepStr).1 ≤ strconv.maxInt)
      | .error _ => true
    | _ => true
  else if strings.Contains part '-' then
    match strings.Split part '-' with
    | [r0, r1] => decide (lo ≤ (strconv.Atoi r0).1) && decide ((strconv.Atoi r1).1 ≤ hi)
    | _ => true
  else true


/-! ## The calendar: days, years and months -/

namespace time

theorem daysSinceEpoch_closed (y : Int) :
    daysSinceEpoch y = 365 * (y - 1) + (y - 1) / 4 - (y - 1) / 100 + (y - 1) / 400 := by
  unfold daysSinceEpoch
  simp only []
  omega

theorem isLeap_iff (y : Int) :
    isLeap y = true ↔ (y % 4 = 0 ∧ (y % 100 ≠ 0 ∨ y % 400 = 0)) := by
  simp [isLeap]

theorem daysSinceEpoch_succ (y : Int) :
    daysSinceEpoch (y + 1) = daysSinceEpoch y + (if isLeap y then 366 else 365) := by
  rw [daysSinceEpoch_closed, daysSinceEpoch_closed]
  by_cases h : isLeap y = true
  · rw [if_pos h]; rw [isLeap_iff] at h; omega
  · rw [if_neg h]; rw [isLeap_iff] at h; omega

theorem daysSinceEpoch_mono {a b : Int} (h : a ≤ b) :
    daysSinceEpoch a ≤ daysSinceEpoch b := by
  rw [daysSinceEpoch_closed, daysSinceEpoch_closed]
  omega

/-- The year assembled from cycle counts: its first day and its leap status. -/
theorem year_of_cycles (n400 n100 n4 n1 : Int) (a1 : 0 ≤ n100 ∧ n100 ≤ 3)
    (a2 : 0 ≤ n4 ∧ n4 ≤ 24) (a3 : 0 ≤ n1 ∧ n1 ≤ 3) :
    daysSinceEpoch (400 * n400 + 100 * n100 + 4 * n4 + n1 + 1)
        = 146097 * n400 + 36524 * n100 + 1461 * n4 + 365 * n1 ∧
      (isLeap (400 * n400 + 100 * n100 + 4 * n4 + n1 + 1) = true ↔
        (n1 = 3 ∧ (n4 ≠ 24 ∨ n100 = 3))) := by
  constructor
  · rw [daysSinceEpoch_closed]; omega
  · rw [isLeap_iff]; omega

theorem daysBefore_table :
    daysBefore 0 = 0 ∧ daysBefore 1 = 31 ∧ daysBefore 2 = 59 ∧
    daysBefore 3 = 90 ∧ daysBefore 4 = 120 ∧ daysBefore 5 = 151 ∧
    daysBefore 6 = 181 ∧ daysBefore 7 = 212 ∧ daysBefore 8 = 243 ∧
    daysBefore 9 = 273 ∧ daysBefore 10 = 304 ∧ daysBefore 11 = 334 ∧
    daysBefore 12 = 365 := by
  refine ⟨?_, ?_, ?_, ?_, ?_, ?_, ?_, ?_, ?_, ?_, ?_, ?_, ?_⟩ <;> rfl

/-- The offsets of the thirteen month starts, in both kinds of year. -/
theorem monthOffset_cases (leap : Bool) (m : Int) (h1 : 1 ≤ m) (h2 : m ≤ 13) :
    (m = 1 ∧ monthOffset leap m = 0) ∨ (m = 2 ∧ monthOffset leap m = 31) ∨
    (3 ≤ m ∧ monthOffset leap m = daysBefore (m - 1) + (if leap then 1 else 0) ∧
      59 ≤ daysBefore (m - 1) ∧ 28 * (m - 1) ≤ daysBefore (m - 1) ∧
      daysBefore (m - 1) ≤ 31 * (m - 1)) := by
  obtain ⟨t0, t1, t2, t3, t4, t5, t6, t7, t8, t9, t10, t11, t12⟩ := daysBefore_table
  unfold monthOffset
  interval_cases m <;> cases leap <;>
    norm_num only [t0, t1, t2, t3, t4, t5, t6, t7, t8, t9, t10, t11, t12] <;> simp

theorem monthOffset_lt_succ (leap : Bool) (m : Int) (h1 : 1 ≤ m) (h2 : m ≤ 12) :
    monthOffset leap m < monthOffset leap (m + 1) := by
  obtain ⟨t0, t1, t2, t3, t4, t5, t6, t7, t8, t9, t10, t11, t12⟩ := daysBefore_table
  unfold monthOffset
  interval_cases m <;> cases leap <;>
    norm_num only [t0, t1, t2, t3, t4, t5, t6, t7, t8, t9, t10, t11, t12] <;> simp

theorem monthOffset_mono_aux (leap : Bool) (a : Int) (h1 : 1 ≤ a) (k : Nat) :
    a + k ≤ 13 → monthOffset leap a ≤ monthOffset leap (a + k) := by
  induction k with
  | zero => intro _; simp
  | succ n ih =>
    intro h
    have h3 := monthOffset_lt_succ leap (a + n) (by omega) (by omega)
    have h4 := ih (by omega)
    have e : a + ((n + 1 : Nat) : Int) = a + n + 1 := by push_cast; ring
    rw [e]
    omega

theorem monthOffset_mono (leap : Bool) {a b : Int} (h1 : 1 ≤ a) (hab : a ≤ b) (h2 : b ≤ 13) :
    monthOffset leap a ≤ monthOffset leap b := by
  have h := monthOffset_mono_aux leap a h1 (b - a).toNat
  have e : a + ((b - a).toNat : Int) = b := by omega
  rw [e] at h
  exact h h2

theorem monthOffset_one (leap : Bool) : monthOffset leap 1 = 0 := by
  cases leap <;> rfl

theorem monthOffset_thirteen (leap : Bool) :
    monthOffset leap 13 = if leap then 366 else 365 := by
  cases leap <;> rfl

end time

namespace Time

/-- Arithmetic core of `yearDay`: the cycle counts of a day number. -/
theorem cycles_spec (d n400 n100 n4 n1 : Int)
    (h100 : n100 = d % 146097 / 36524 - d % 146097 / 36524 / 4)
    (h400 : n400 = d / 146097)
    (h4 : n4 = (d % 146097 - 36524 * n100) / 1461)
    (h1 : n1 = (d % 146097 - 36524 * n100 - 1461 * n4) / 365
      - (d % 146097 - 36524 * n100 - 1461 * n4) / 365 / 4) :
    (0 ≤ n100 ∧ n100 ≤ 3) ∧ (0 ≤ n4 ∧ n4 ≤ 24) ∧ (0 ≤ n1 ∧ n1 ≤ 3) ∧
    0 ≤ d - (146097 * n400 + 36524 * n100 + 1461 * n4 + 365 * n1) ∧
    d - (146097 * n400 + 36524 * n100 + 1461 * n4 + 365 * n1) <
      (if n1 = 3 ∧ (n4 ≠ 24 ∨ n100 = 3) then 366 else 365) := by
  have a1 : 0 ≤ n100 ∧ n100 ≤ 3 := by omega
  have a2 : 0 ≤ n4 ∧ n4 ≤ 24 := by omega
  have a3 : 0 ≤ n1 ∧ n1 ≤ 3 := by omega
  refine ⟨a1, a2, a3, by omega, ?_⟩
  split_ifs with h <;> omega

/-- The year of a day number starts on or before it, and the day of the year is
the distance from that start, within the length of the year. -/
theorem yearDay_spec (d : Int) :
    time.daysSinceEpoch (yearDay d).1 + (yearDay d).2 = d ∧ 0 ≤ (yearDay d).2 ∧
      (yearDay d).2 < (if time.isLeap (yearDay d).1 then 366 else 365) := by
  obtain ⟨a1, a2, a3, lo, hi⟩ := cycles_spec d _ _ _ _ rfl rfl rfl rfl
  obtain ⟨e1, e2⟩ := time.year_of_cycles (d / 146097) _ _ _ a1 a2 a3
  unfold yearDay
  simp only []
  rw [e1]
  refine ⟨by omega, by omega, ?_⟩
  split_ifs with hl
  · rw [if_pos (e2.mp hl)] at hi
    omega
  · rw [if_neg (fun h => hl (e2.mpr h))] at hi
    omega

/-- The year of a day number is the only year whose days include it. -/
theorem yearDay_unique (d y : Int) (h1 : time.daysSinceEpoch y ≤ d)
    (h2 : d < time.daysSinceEpoch (y + 1)) : (yearDay d).1 = y := by
  obtain ⟨e, lo, hi⟩ := yearDay_spec d
  have hs := time.daysSinceEpoch_succ (yearDay d).1
  rcases lt_trichotomy (yearDay d).1 y with h | h | h
  · have := time.daysSinceEpoch_mono (show (yearDay d).1 + 1 ≤ y by omega)
    omega
  · exact h
  · have := time.daysSinceEpoch_mono (show y + 1 ≤ (yearDay d).1 by omega)
    omega

theorem monthDayCore_spec (day : Int) (h0 : 0 ≤ day) (h1 : day < 365) :
    1 ≤ (monthDayCore day).1 ∧ (monthDayCore day).1 ≤ 12 ∧ 1 ≤ (monthDayCore day).2 ∧
      time.daysBefore ((monthDayCore day).1 - 1) + (monthDayCore day).2 - 1 = day ∧
      day < time.daysBefore (monthDayCore day).1 := by
  have hq : 0 ≤ day / 31 ∧ day / 31 ≤ 11 := by omega
  obtain ⟨q, hqe⟩ : ∃ q, q = day / 31 := ⟨_, rfl⟩
  obtain ⟨t0, t1, t2, t3, t4, t5, t6, t7, t8, t9, t10, t11, t12⟩ := time.daysBefore_table
  unfold monthDayCore
  simp only []
  rw [← hqe]
  rw [← hqe] at hq
  obtain ⟨hq0, hq1⟩ := hq
  interval_cases q <;> norm_num only [t0, t1, t2, t3, t4, t5, t6, t7, t8, t9, t10, t11, t12] <;>
    split_ifs <;> refine ⟨?_, ?_, ?_, ?_, ?_⟩ <;>
    norm_num only [t0, t1, t2, t3, t4, t5, t6, t7, t8, t9, t10, t11, t12] <;> omega

/-- The month of a day of the year starts on or before it, the next month starts
after it, and the day of the month is the distance from the start, plus one. -/
theorem monthDay_spec (leap : Bool) (yd : Int) (h0 : 0 ≤ yd)
    (h1 : yd < if leap then 366 else 365) :
    1 ≤ (monthDay leap yd).1 ∧ (monthDay leap yd).1 ≤ 12 ∧ 1 ≤ (monthDay leap yd).2 ∧
      time.monthOffset leap (monthDay leap yd).1 + (monthDay leap yd).2 - 1 = yd ∧
      yd < time.monthOffset leap ((monthDay leap yd).1 + 1) := by
  obtain ⟨t0, t1, t2, t3, t4, t5, t6, t7, t8, t9, t10, t11, t12⟩ := time.daysBefore_table
  cases leap
  · have hm : monthDay false yd = monthDayCore yd := by simp [monthDay]
    rw [hm]
    obtain ⟨c1, c2, c3, c4, c5⟩ := monthDayCore_spec yd h0 (by simpa using h1)
    refine ⟨c1, c2, c3, ?_, ?_⟩
    · simpa [time.monthOffset] using c4
    · simpa [time.monthOffset] using c5
  · simp only [if_true] at h1
    by_cases h59 : yd = 59
    · subst h59
      have hm : monthDay true 59 = (2, 29) := by simp [monthDay]
      rw [hm]
      refine ⟨by norm_num, by norm_num, by norm_num, ?_, ?_⟩
      · norm_num [time.monthOffset, t1]
      · norm_num [time.monthOffset, t2]
    · by_cases hgt : 59 < yd
      · have hm : monthDay true yd = monthDayCore (yd - 1) := by simp [monthDay, h59, hgt]
        rw [hm]
        obtain ⟨c1, c2, c3, c4, c5⟩ := monthDayCore_spec (yd - 1) (by omega) (by omega)
        have h3 : 3 ≤ (monthDayCore (yd - 1)).1 := by
          by_contra hc
          have hle : (monthDayCore (yd - 1)).1 = 1 ∨ (monthDayCore (yd - 1)).1 = 2 := by omega
          rcases hle with hle | hle <;> rw [hle] at c5 <;> omega
        refine ⟨c1, c2, c3, ?_, ?_⟩
        · have : (3 : Int) ≤ (monthDayCore (yd - 1)).1 := h3
          simp only [time.monthOffset, Bool.true_and, decide_eq_true_eq, if_pos this]
          omega
        · have : (3 : Int) ≤ (monthDayCore (yd - 1)).1 + 1 := by omega
          simp only [time.monthOffset, Bool.true_and, decide_eq_true_eq, if_pos this]
          have e : (monthDayCore (yd - 1)).1 + 1 - 1 = (monthDayCore (yd - 1)).1 := by omega
          rw [e]
          omega
      · have hm : monthDay true yd = monthDayCore yd := by simp [monthDay, h59, hgt]
        rw [hm]
        obtain ⟨c1, c2, c3, c4, c5⟩ := monthDayCore_spec yd h0 (by omega)
        have hle : (monthDayCore yd).1 = 1 ∨ (monthDayCore yd).1 = 2 := by
          rcases time.monthOffset_cases false (monthDayCore yd).1 c1 (by omega) with h | h | h
          · exact Or.inl h.1
          · exact Or.inr h.1
          · exfalso
            have := h.2.2.1
            omega
        rcases hle with hle | hle <;> rw [hle] at c4 c5 ⊢ <;>
          refine ⟨by norm_num, by norm_num, c3, ?_, ?_⟩ <;>
          norm_num [time.monthOffset, t0, t1, t2] at c4 c5 ⊢ <;> omega

end Time

/-! ## The calendar: instants -/

namespace Time

/-- The date of an instant determines its day number: the month starts on or
before the day, the next month after it. -/
theorem civil_spec (t : Int) :
    1 ≤ Month t ∧ Month t ≤ 12 ∧ 1 ≤ Day t ∧
      time.daysSinceEpoch (Year t) + time.monthOffset (time.isLeap (Year t)) (Month t)
        + Day t - 1 = absDays t ∧
      absDays t < nextMonthDay t := by
  obtain ⟨e, lo, hi⟩ := yearDay_spec (absDays t)
  obtain ⟨c1, c2, c3, c4, c5⟩ := monthDay_spec (time.isLeap (Year t)) (yday t) lo hi
  refine ⟨c1, c2, c3, ?_, ?_⟩
  · have : time.daysSinceEpoch (Year t) + yday t = absDays t := e
    have : time.monthOffset (time.isLeap (Year t)) (Month t) + Day t - 1 = yday t := c4
    omega
  · have : time.daysSinceEpoch (Year t) + yday t = absDays t := e
    have : yday t < time.monthOffset (time.isLeap (Year t)) (Month t + 1) := c5
    unfold nextMonthDay
    omega

/-- The next month starts no later than the next year. -/
theorem nextMonthDay_le (t : Int) :
    nextMonthDay t ≤ time.daysSinceEpoch (Year t + 1) := by
  obtain ⟨c1, c2, _, _, _⟩ := civil_spec t
  have h := time.monthOffset_mono (time.isLeap (Year t)) (show 1 ≤ Month t + 1 by omega)
    (show Month t + 1 ≤ 13 by omega) (le_refl _)
  rw [time.monthOffset_thirteen] at h
  rw [time.daysSinceEpoch_succ]
  unfold nextMonthDay
  omega

/-- Every day from the day of `t` up to the start of the next month lies in the
year and the month of `t`. -/
theorem month_const (t u : Int) (h1 : absDays t ≤ absDays u)
    (h2 : absDays u < nextMonthDay t) : Year u = Year t ∧ Month u = Month t := by
  obtain ⟨c1, c2, c3, c4, c5⟩ := civil_spec t
  have hle := nextMonthDay_le t
  have h0 : 0 ≤ time.monthOffset (time.isLeap (Year t)) (Month t) := by
    have := time.monthOffset_mono (time.isLeap (Year t)) (le_refl 1) c1 (by omega)
    rw [time.monthOffset_one] at this
    exact this
  have hy : Year u = Year t := yearDay_unique (absDays u) (Year t) (by omega) (by omega)
  refine ⟨hy, ?_⟩
  obtain ⟨d1, d2, d3, d4, d5⟩ := civil_spec u
  rw [hy] at d4
  unfold nextMonthDay at d5 h2
  rw [hy] at d5
  rcases lt_trichotomy (Month u) (Month t) with h | h | h
  · have := time.monthOffset_mono (time.isLeap (Year t)) (show 1 ≤ Month u + 1 by omega)
      (show Month u + 1 ≤ Month t by omega) (by omega)
    omega
  · exact h
  · have := time.monthOffset_mono (time.isLeap (Year t)) (show 1 ≤ Month t + 1 by omega)
      (show Month t + 1 ≤ Month u by omega) (by omega)
    omega

/-- The instants of one day share their date and weekday. -/
theorem day_const (t u : Int) (h : absDays u = absDays t) :
    Year u = Year t ∧ Month u = Month t ∧ Day u = Day t ∧ Weekday u = Weekday t := by
  simp only [Year, Month, Day, Weekday, yday, h, and_self]

end Time

namespace time

/-- The instant `time.Date` builds, as a day number and a time of day. -/
theorem Date_eq (year month day hour min : Int) :
    Date year month day hour min
      = (daysSinceEpoch (year + (month - 1) / 12)
          + monthOffset (isLeap (year + (month - 1) / 12)) ((month - 1) % 12 + 1)
          + day - 1) * nsPerDay + hour * Hour + min * Minute := by
  unfold Date monthOffset nsPerDay Hour Minute
  simp only []
  split_ifs <;> omega

/-- The date of `t` with the day shifted by `k` and another time of day. -/
theorem Date_of_time (t : Int) (k hour min : Int) :
    Date (Time.Year t) (Time.Month t) (Time.Day t + k) hour min
      = (Time.absDays t + k) * nsPerDay + hour * Hour + min * Minute := by
  obtain ⟨c1, c2, c3, c4, c5⟩ := Time.civil_spec t
  rw [Date_eq]
  have e1 : (Time.Month t - 1) / 12 = 0 := by omega
  have e2 : (Time.Month t - 1) % 12 + 1 = Time.Month t := by omega
  rw [e1, e2, add_zero]
  have : daysSinceEpoch (Time.Year t) + monthOffset (isLeap (Time.Year t)) (Time.Month t)
      + (Time.Day t + k) - 1 = Time.absDays t + k := by omega
  rw [this]

/-- The first instant of the month after the month of `t`. -/
theorem Date_next_month (t : Int) :
    Date (Time.Year t) (Time.Month t + 1) 1 0 0 = Time.nextMonthDay t * nsPerDay := by
  obtain ⟨c1, c2, c3, c4, c5⟩ := Time.civil_spec t
  rw [Date_eq]
  unfold Time.nextMonthDay
  by_cases h : Time.Month t = 12
  · have e1 : (Time.Month t + 1 - 1) / 12 = 1 := by omega
    have e2 : (Time.Month t + 1 - 1) % 12 + 1 = 1 := by omega
    rw [e1, e2, monthOffset_one, h, daysSinceEpoch_succ]
    have : monthOffset (isLeap (Time.Year t)) (12 + 1)
        = if isLeap (Time.Year t) then 366 else 365 := monthOffset_thirteen _
    rw [this]
    unfold nsPerDay Hour Minute
    omega
  · have e1 : (Time.Month t + 1 - 1) / 12 = 0 := by omega
    have e2 : (Time.Month t + 1 - 1) % 12 + 1 = Time.Month t + 1 := by omega
    rw [e1, e2, add_zero]
    unfold nsPerDay Hour Minute
    omega

end time

/-- The date and clock fields of an instant give the instant back through
`time.Date`, up to its seconds and nanoseconds. -/
theorem Date_fields_roundtrip (t : Int) :
    time.Date (Time.Year t) (Time.Month t) (Time.Day t) (Time.Hour t) (Time.Minute t)
      + t % time.Minute = t := by
  have h := time.Date_of_time t 0 (Time.Hour t) (Time.Minute t)
  simp only [add_zero] at h
  rw [h]
  unfold Time.absDays Time.Hour Time.Minute time.nsPerDay time.Hour time.Minute
  omega

/-- Two fixed points of the calendar: the Unix epoch is 62135596800 seconds after
the zero time and fell on a Thursday; 29 February 2024 was a Thursday too. -/
theorem calendar_anchors :
    time.Date 1970 1 1 0 0 = 62135596800 * 1000000000 ∧
    Time.Weekday (time.Date 1970 1 1 0 0) = 4 ∧
    Time.Year (time.Date 2024 2 29 23 59) = 2024 ∧
    Time.Month (time.Date 2024 2 29 23 59) = 2 ∧
    Time.Day (time.Date 2024 2 29 23 59) = 29 ∧
    Time.Hour (time.Date 2024 2 29 23 59) = 23 ∧
    Time.Minute (time.Date 2024 2 29 23 59) = 59 ∧
    Time.Weekday (time.Date 2024 2 29 23 59) = 4 := by
  decide

/-! ## The search loop of `Next` -/

/-- The body of the loop returns exactly at the instants the schedule matches. -/
theorem advance_eq_none (e : Expression) (t : Int) :
    e.advance t = none ↔ e.matchesAt t = true := by
  unfold Expression.advance Expression.matchesAt
  cases e.months.has (Time.Month t) <;> cases e.days.has (Time.Day t) <;>
    cases e.weekdays.has (Time.Weekday t) <;> cases e.hours.has (Time.Hour t) <;>
    cases e.minutes.has (Time.Minute t) <;> simp

theorem matchesAt_false_of_month (e : Expression) (u : Int)
    (h : e.months.has (Time.Month u) = false) : e.matchesAt u = false := by
  simp [Expression.matchesAt, h]

theorem matchesAt_false_of_day (e : Expression) (u : Int)
    (h : (e.days.has (Time.Day u) || e.weekdays.has (Time.Weekday u)) = false) :
    e.matchesAt u = false := by
  simp only [Bool.or_eq_false_iff] at h
  simp [Expression.matchesAt, h.1, h.2]

theorem matchesAt_false_of_hour (e : Expression) (u : Int)
    (h : e.hours.has (Time.Hour u) = false) : e.matchesAt u = false := by
  simp [Expression.matchesAt, h]

theorem matchesAt_false_of_minute (e : Expression) (u : Int)
    (h : e.minutes.has (Time.Minute u) = false) : e.matchesAt u = false := by
  simp [Expression.matchesAt, h]

/-- Jump to the next day: the instant `AddDate(0, 0, 1)` gives from midnight. -/
theorem AddDate_midnight (t : Int) :
    Time.AddDate (time.Date (Time.Year t) (Time.Month t) (Time.Day t) 0 0) 0 0 1
      = (Time.absDays t + 1) * time.nsPerDay := by
  have hs : time.Date (Time.Year t) (Time.Month t) (Time.Day t) 0 0
      = Time.absDays t * time.nsPerDay := by
    have := time.Date_of_time t 0 0 0
    simp only [add_zero, zero_mul] at this
    exact this
  rw [hs]
  unfold Time.AddDate
  simp only [add_zero]
  rw [time.Date_of_time]
  unfold Time.absDays Time.Hour Time.Minute time.nsPerDay time.Hour time.Minute
  omega

/-- A pass of the loop body that continues moves the candidate forward to a
whole minute, and skips no instant the schedule matches. -/
theorem advance_some (e : Expression) (t t1 : Int) (ht : t % time.Minute = 0)
    (h : e.advance t = some t1) :
    t < t1 ∧ t1 % time.Minute = 0 ∧ ∀ u, t ≤ u → u < t1 → e.matchesAt u = false := by
  unfold Expression.advance at h
  split_ifs at h with hm hd hh hmin
  · -- the month does not match
    simp only [Option.some.injEq] at h
    rw [time.Date_next_month] at h
    obtain ⟨c1, c2, c3, c4, c5⟩ := Time.civil_spec t
    subst h
    refine ⟨?_, ?_, ?_⟩
    · unfold Time.absDays time.nsPerDay at *
      omega
    · unfold time.nsPerDay time.Minute
      omega
    · intro u h1 h2
      have a1 : Time.absDays t ≤ Time.absDays u := by
        unfold Time.absDays time.nsPerDay
        omega
      have a2 : Time.absDays u < Time.nextMonthDay t := by
        unfold Time.absDays time.nsPerDay at *
        omega
      have := (Time.month_const t u a1 a2).2
      apply matchesAt_false_of_month
      rw [this]
      simpa using hm
  · -- neither day predicate holds
    simp only [Option.some.injEq] at h
    rw [AddDate_midnight] at h
    subst h
    refine ⟨?_, ?_, ?_⟩
    · unfold Time.absDays time.nsPerDay
      omega
    · unfold Time.absDays time.nsPerDay time.Minute
      omega
    · intro u h1 h2
      have a : Time.absDays u = Time.absDays t := by
        unfold Time.absDays time.nsPerDay at *
        omega
      obtain ⟨_, _, e3, e4⟩ := Time.day_const t u a
      apply matchesAt_false_of_day
      rw [e3, e4]
      simpa using hd
  · -- the hour does not match
    simp only [Option.some.injEq] at h
    have hd0 := time.Date_of_time t 0 (Time.Hour t + 1) 0
    simp only [add_zero, zero_mul] at hd0
    rw [hd0] at h
    subst h
    refine ⟨?_, ?_, ?_⟩
    · unfold Time.absDays Time.Hour time.nsPerDay time.Hour
      omega
    · unfold Time.absDays Time.Hour time.nsPerDay time.Hour time.Minute
      omega
    · intro u h1 h2
      have a : Time.Hour u = Time.Hour t := by
        unfold Time.absDays Time.Hour time.nsPerDay time.Hour at *
        omega
      apply matchesAt_false_of_hour
      rw [a]
      simpa using hh
  · -- the minute does not match
    simp only [Option.some.injEq] at h
    subst h
    refine ⟨?_, ?_, ?_⟩
    · unfold Time.Add time.Minute
      omega
    · unfold Time.Add time.Minute at *
      omega
    · intro u h1 h2
      have a : Time.Minute u = Time.Minute t := by
        unfold Time.Add Time.Minute time.Hour time.Minute at *
        omega
      apply matchesAt_false_of_minute
      rw [a]
      simpa using hmin

/-- What the loop returns from a whole-minute candidate: the first instant from
the candidate on that the schedule matches, itself a whole minute. -/
theorem nextLoop_spec (e : Expression) (fuel : Nat) :
    ∀ t r : Int, t % time.Minute = 0 → e.nextLoop fuel t = some r →
      t ≤ r ∧ r % time.Minute = 0 ∧ e.matchesAt r = true ∧
        ∀ u, t ≤ u → u < r → e.matchesAt u = false := by
  induction fuel with
  | zero =>
    intro t r ht h
    unfold Expression.nextLoop at h
    cases ha : e.advance t with
    | none =>
      rw [ha] at h
      simp only [Option.some.injEq] at h
      subst h
      exact ⟨le_refl _, ht, (advance_eq_none e t).mp ha, fun u h1 h2 => by omega⟩
    | some t1 =>
      rw [ha] at h
      simp at h
  | succ n ih =>
    intro t r ht h
    unfold Expression.nextLoop at h
    cases ha : e.advance t with
    | none =>
      rw [ha] at h
      simp only [Option.some.injEq] at h
      subst h
      exact ⟨le_refl _, ht, (advance_eq_none e t).mp ha, fun u h1 h2 => by omega⟩
    | some t1 =>
      rw [ha] at h
      simp only at h
      obtain ⟨b1, b2, b3⟩ := advance_some e t t1 ht ha
      obtain ⟨c1, c2, c3, c4⟩ := ih t1 r b2 h
      refine ⟨by omega, c2, c3, ?_⟩
      intro u h1 h2
      by_cases hu : u < t1
      · exact b3 u h1 hu
      · exact c4 u (by omega) h2

/-- More fuel does not change what the loop returns. -/
theorem nextLoop_mono (e : Expression) (fuel : Nat) :
    ∀ (t r : Int) (k : Nat), e.nextLoop fuel t = some r → e.nextLoop (fuel + k) t = some r := by
  induction fuel with
  | zero =>
    intro t r k h
    unfold Expression.nextLoop at h
    cases ha : e.advance t with
    | none =>
      rw [ha] at h
      simp only [Option.some.injEq] at h
      subst h
      cases k <;> simp [Expression.nextLoop, ha]
    | some t1 =>
      rw [ha] at h
      simp at h
  | succ n ih =>
    intro t r k h
    unfold Expression.nextLoop at h
    have e1 : n + 1 + k = (n + k) + 1 := by omega
    rw [e1]
    unfold Expression.nextLoop
    cases ha : e.advance t with
    | none =>
      rw [ha] at h
      simpa using h
    | some t1 =>
      rw [ha] at h
      simp only at h ⊢
      exact ih t1 r k h

/-- What `Next` returns: an instant after `after`, on a whole minute, that the
schedule matches, with no whole minute in between that the schedule matches. -/
theorem Next_spec (e : Expression) (fuel : Nat) (after r : Int)
    (h : e.Next fuel after = some r) :
    after < r ∧ r % time.Minute = 0 ∧ e.matchesAt r = true ∧
      ∀ u, after < u → u < r → u % time.Minute = 0 → e.matchesAt u = false := by
  unfold Expression.Next at h
  have h0 : (Time.Add (Time.Truncate after time.Minute) time.Minute) % time.Minute = 0 := by
    unfold Time.Add Time.Truncate time.Minute
    omega
  obtain ⟨c1, c2, c3, c4⟩ := nextLoop_spec e fuel _ r h0 h
  refine ⟨?_, c2, c3, ?_⟩
  · unfold Time.Add Time.Truncate time.Minute at c1
    omega
  · intro u h1 h2 h3
    apply c4 u _ h2
    unfold Time.Add Time.Truncate time.Minute at *
    omega

/-! ## Claims about `Next` -/

/-- C1: whenever `Next` returns `r` for reference time `t`, `r` is strictly later
than `t` and lies on a whole minute (no seconds, no nanoseconds); hence `Next`
applied to its own result, when it returns, gives a strictly later instant. This
holds for every `Expression`, in particular for those `Parse` returns. -/
theorem Next_strictly_later_whole_minute (e : Expression) (fuel : Nat) (t r : Int)
    (h : e.Next fuel t = some r) :
    t < r ∧ r % time.Minute = 0 ∧
      ∀ (fuel2 : Nat) (r2 : Int), e.Next fuel2 r = some r2 → r < r2 := by
  obtain ⟨h1, h2, _, _⟩ := Next_spec e fuel t r h
  exact ⟨h1, h2, fun fuel2 r2 h3 => (Next_spec e fuel2 r r2 h3).1⟩

/-- Witness of C1 at `*/5 * * * *` and 2025-10-26T10:07:00Z. -/
theorem Next_strictly_later_whole_minute_witness :
    Parse 12 "*/5 * * * *".toList = some (everyFiveMinutes, none) ∧
    time.Date 2025 10 26 10 7 < time.Date 2025 10 26 10 10 ∧
      time.Date 2025 10 26 10 10 % time.Minute = 0 ∧
      ∀ (fuel2 : Nat) (r2 : Int),
        everyFiveMinutes.Next fuel2 (time.Date 2025 10 26 10 10) = some r2 →
          time.Date 2025 10 26 10 10 < r2 :=
  ⟨by decide, Next_strictly_later_whole_minute everyFiveMinutes 3
    (time.Date 2025 10 26 10 7) (time.Date 2025 10 26 10 10) (by decide)⟩

/-- C2: whenever `Next` returns `r`, `r` matches all five fields: its month, hour
and minute satisfy their predicates, and its day of the month satisfies the
day-of-month predicate or its weekday (0 = Sunday) the day-of-week predicate. -/
theorem Next_result_matches_fields (e : Expression) (fuel : Nat) (t r : Int)
    (h : e.Next fuel t = some r) :
    e.months.has (Time.Month r) = true ∧ e.hours.has (Time.Hour r) = true ∧
      e.minutes.has (Time.Minute r) = true ∧
      (e.days.has (Time.Day r) = true ∨ e.weekdays.has (Time.Weekday r) = true) := by
  obtain ⟨_, _, h3, _⟩ := Next_spec e fuel t r h
  simp only [Expression.matchesAt, Bool.and_eq_true, Bool.or_eq_true] at h3
  exact ⟨h3.1.1.1, h3.1.2, h3.2, h3.1.1.2⟩

/-- Witness of C2 at `* * 15 * 1` and 2025-10-14T10:00:00Z (a Tuesday): the result
is midnight of the 15th. -/
theorem Next_result_matches_fields_witness :
    Parse 12 "* * 15 * 1".toList = some (fifteenthOrMonday, none) ∧
    fifteenthOrMonday.months.has (Time.Month (time.Date 2025 10 15 0 0)) = true ∧
      fifteenthOrMonday.hours.has (Time.Hour (time.Date 2025 10 15 0 0)) = true ∧
      fifteenthOrMonday.minutes.has (Time.Minute (time.Date 2025 10 15 0 0)) = true ∧
      (fifteenthOrMonday.days.has (Time.Day (time.Date 2025 10 15 0 0)) = true ∨
        fifteenthOrMonday.weekdays.has (Time.Weekday (time.Date 2025 10 15 0 0)) = true) :=
  ⟨by decide, Next_result_matches_fields fifteenthOrMonday 2
    (time.Date 2025 10 14 10 0) (time.Date 2025 10 15 0 0) (by decide)⟩

/-- C3: `Next` returns the earliest match: when it returns `r` for reference time
`t`, `r` is a whole minute after `t` that the schedule matches, and the schedule
matches no whole-minute instant strictly between `t` and `r`.
With enough fuel, `*/5 * * * *` at 2025-10-26T10:07:00Z gives 2025-10-26T10:10:00Z
and `0 * * * *` at 2025-10-26T10:30:00Z gives 2025-10-26T11:00:00Z. -/
theorem Next_earliest_match :
    (∀ (e : Expression) (fuel : Nat) (t r : Int), e.Next fuel t = some r →
      (t < r ∧ r % time.Minute = 0 ∧ e.matchesAt r = true) ∧
      ∀ m : Int, t < m → m < r → m % time.Minute = 0 → e.matchesAt m = false) ∧
    (Parse 12 "*/5 * * * *".toList = some (everyFiveMinutes, none) ∧
      ∀ k : Nat, everyFiveMinutes.Next (3 + k) (time.Date 2025 10 26 10 7)
        = some (time.Date 2025 10 26 10 10)) ∧
    (Parse 1 "0 * * * *".toList = some (everyHour, none) ∧
      ∀ k : Nat, everyHour.Next (29 + k) (time.Date 2025 10 26 10 30)
        = some (time.Date 2025 10 26 11 0)) := by
  refine ⟨fun e fuel t r h => ?_, ⟨by decide, ?_⟩, ⟨by decide, ?_⟩⟩
  · obtain ⟨h1, h2, h3, h4⟩ := Next_spec e fuel t r h
    exact ⟨⟨h1, h2, h3⟩, h4⟩
  · intro k
    exact nextLoop_mono _ 3 _ _ k (by decide)
  · intro k
    exact nextLoop_mono _ 29 _ _ k (by decide)

/-- Witness of C3: between 10:07 and the result 10:10 of `*/5 * * * *`, the whole
minute 10:08 is not matched. -/
theorem Next_earliest_match_witness :
    everyFiveMinutes.matchesAt (time.Date 2025 10 26 10 8) = false :=
  (Next_earliest_match.1 everyFiveMinutes 3 (time.Date 2025 10 26 10 7)
    (time.Date 2025 10 26 10 10) (by decide)).2 (time.Date 2025 10 26 10 8)
    (by decide) (by decide) (by decide)

theorem has_of_all (f : fieldSet) (h : f.all = true) (v : Int) : f.has v = true := by
  simp [fieldSet.has, h]

/-- Counterexample to C4: for `0 0 * * 1` (day-of-month `*`, day-of-week Monday)
`Next` at Monday 2025-10-27T00:00Z returns Tuesday 2025-10-28T00:00Z, and for
`0 0 1 * *` (day-of-week `*`, day-of-month 1) `Next` at 2025-01-15T00:00Z returns
2025-01-16T00:00Z: the day of the result does not satisfy the restricted field. -/
theorem restricted_day_field_not_enforced :
    (Parse 1 "0 0 * * 1".toList = some (mondayMidnight, none) ∧
      mondayMidnight.days.all = true ∧ mondayMidnight.weekdays.all = false ∧
      mondayMidnight.Next 100 (time.Date 2025 10 27 0 0) = some (time.Date 2025 10 28 0 0) ∧
      Time.Weekday (time.Date 2025 10 28 0 0) = 2 ∧
      mondayMidnight.weekdays.has (Time.Weekday (time.Date 2025 10 28 0 0)) = false) ∧
    (Parse 1 "0 0 1 * *".toList = some (firstOfMonth, none) ∧
      firstOfMonth.weekdays.all = true ∧ firstOfMonth.days.all = false ∧
      firstOfMonth.Next 100 (time.Date 2025 1 15 0 0) = some (time.Date 2025 1 16 0 0) ∧
      Time.Day (time.Date 2025 1 16 0 0) = 16 ∧
      firstOfMonth.days.has (Time.Day (time.Date 2025 1 16 0 0)) = false) := by
  decide

/-- C4, amended: when the day-of-month field or the day-of-week field is the
universal marker, the day check passes on every day, so the other day field
restricts nothing: what `Next` returns is the earliest whole minute after `t`
whose month, hour and minute match. For `0 0 * * 1` at 2025-10-26T00:00Z this is
2025-10-27T00:00Z, and for `0 0 1 * *` at 2025-01-31T10:00Z it is
2025-02-01T00:00Z, the results the tests expect. -/
theorem Next_with_universal_day_field :
    (∀ (e : Expression) (fuel : Nat) (t r : Int),
      e.days.all = true ∨ e.weekdays.all = true → e.Next fuel t = some r →
        (t < r ∧ r % time.Minute = 0 ∧ e.months.has (Time.Month r) = true ∧
          e.hours.has (Time.Hour r) = true ∧ e.minutes.has (Time.Minute r) = true) ∧
        ∀ m : Int, t < m → m < r → m % time.Minute = 0 →
          ¬ (e.months.has (Time.Month m) = true ∧ e.hours.has (Time.Hour m) = true ∧
            e.minutes.has (Time.Minute m) = true)) ∧
    (∀ k : Nat, mondayMidnight.Next (100 + k) (time.Date 2025 10 26 0 0)
      = some (time.Date 2025 10 27 0 0)) ∧
    (∀ k : Nat, firstOfMonth.Next (100 + k) (time.Date 2025 1 31 10 0)
      = some (time.Date 2025 2 1 0 0)) := by
  refine ⟨?_, fun k => nextLoop_mono _ 100 _ _ k (by decide),
    fun k => nextLoop_mono _ 100 _ _ k (by decide)⟩
  intro e fuel t r hall h
  obtain ⟨h1, h2, h3, h4⟩ := Next_spec e fuel t r h
  have hday : ∀ u, (e.days.has (Time.Day u) || e.weekdays.has (Time.Weekday u)) = true := by
    intro u
    rcases hall with ha | ha
    · simp [has_of_all _ ha]
    · simp [has_of_all _ ha]
  simp only [Expression.matchesAt, Bool.and_eq_true, hday, and_true] at h3
  refine ⟨⟨h1, h2, h3.1.1, h3.1.2, h3.2⟩, ?_⟩
  intro m a1 a2 a3 hm
  have := h4 m a1 a2 a3
  simp [Expression.matchesAt, hday, hm.1, hm.2.1, hm.2.2] at this

/-- Witness of the amended C4 at `0 0 * * 1` and Monday 2025-10-27T00:00Z: the
result, Tuesday 2025-10-28T00:00Z, matches the month, hour and minute fields. -/
theorem Next_with_universal_day_field_witness :
    (time.Date 2025 10 27 0 0 < time.Date 2025 10 28 0 0 ∧
      time.Date 2025 10 28 0 0 % time.Minute = 0 ∧
      mondayMidnight.months.has (Time.Month (time.Date 2025 10 28 0 0)) = true ∧
      mondayMidnight.hours.has (Time.Hour (time.Date 2025 10 28 0 0)) = true ∧
      mondayMidnight.minutes.has (Time.Minute (time.Date 2025 10 28 0 0)) = true) ∧
    ¬ (mondayMidnight.months.has (Time.Month (time.Date 2025 10 27 12 0)) = true ∧
      mondayMidnight.hours.has (Time.Hour (time.Date 2025 10 27 12 0)) = true ∧
      mondayMidnight.minutes.has (Time.Minute (time.Date 2025 10 27 12 0)) = true) :=
  have h := Next_with_universal_day_field.1 mondayMidnight 100 (time.Date 2025 10 27 0 0)
    (time.Date 2025 10 28 0 0) (Or.inl (by decide)) (by decide)
  ⟨h.1, h.2 (time.Date 2025 10 27 12 0) (by decide) (by decide) (by decide)⟩

/-! ## `strconv.Atoi` -/

namespace strconv

theorem digitsVal_le (s : List Char) : ∀ n : Nat, n ≤ digitsVal n s := by
  induction s with
  | nil => intro n; exact le_refl _
  | cons c cs ih =>
    intro n
    have := ih (n * 10 + digitVal c)
    simp only [digitsVal, List.foldl_cons] at this ⊢
    omega

theorem digitsVal_cons (n : Nat) (c : Char) (cs : List Char) :
    digitsVal n (c :: cs) = digitsVal (n * 10 + digitVal c) cs := rfl

/-- The digit loop returns without error exactly on digits whose value fits. -/
theorem parseUintLoop_ok (cs : List Char) :
    ∀ (n v : Nat), n ≤ maxUint64 →
      (parseUintLoop cs n = (v, none) ↔
        (cs.all isDigit = true ∧ digitsVal n cs = v ∧ v ≤ maxUint64)) := by
  induction cs with
  | nil =>
    intro n v hn
    simp only [parseUintLoop, digitsVal, List.foldl_nil, List.all_nil, true_and, Prod.mk.injEq,
      and_true]
    constructor
    · intro h; subst h; exact ⟨rfl, hn⟩
    · intro h; exact h.1
  | cons c cs ih =>
    intro n v hn
    rw [digitsVal_cons]
    have hge := digitsVal_le cs (n * 10 + digitVal c)
    unfold parseUintLoop
    by_cases hd : isDigit c = true
    · simp only [hd, Bool.not_true, Bool.false_eq_true, if_false, List.all_cons, Bool.true_and]
      by_cases h1 : 1844674407370955162 ≤ n
      · simp only [h1, if_true, Prod.mk.injEq, reduceCtorEq, and_false, false_iff]
        intro h
        unfold maxUint64 at h
        omega
      · simp only [h1, if_false]
        by_cases h2 : maxUint64 < n * 10 + digitVal c
        · simp only [h2, if_true, Prod.mk.injEq, reduceCtorEq, and_false, false_iff]
          intro h
          omega
        · simp only [h2, if_false]
          exact ih _ v (by omega)
    · simp only [Bool.not_eq_true] at hd
      simp [hd]

/-- On digits whose value does not fit, the digit loop reports a range error. -/
theorem parseUintLoop_range (cs : List Char) :
    ∀ n : Nat, n ≤ maxUint64 → cs.all isDigit = true → maxUint64 < digitsVal n cs →
      parseUintLoop cs n = (maxUint64, some .ErrRange) := by
  induction cs with
  | nil =>
    intro n hn _ h
    simp only [digitsVal, List.foldl_nil] at h
    omega
  | cons c cs ih =>
    intro n hn hall h
    rw [digitsVal_cons] at h
    simp only [List.all_cons, Bool.and_eq_true] at hall
    unfold parseUintLoop
    simp only [hall.1, Bool.not_true, Bool.false_eq_true, if_false]
    by_cases h1 : 1844674407370955162 ≤ n
    · simp only [h1, if_true]
    · simp only [h1, if_false]
      by_cases h2 : maxUint64 < n * 10 + digitVal c
      · simp only [h2, if_true]
      · simp only [h2, if_false]
        exact ih _ (by omega) hall.2 h

/-- An error of the digit loop comes with value 0 (syntax) or `maxUint64` (range). -/
theorem parseUintLoop_err (cs : List Char) :
    ∀ (n v : Nat) (err : NumError), parseUintLoop cs n = (v, some err) →
      (err = .ErrSyntax ∧ v = 0) ∨ (err = .ErrRange ∧ v = maxUint64) := by
  induction cs with
  | nil => intro n v err h; simp [parseUintLoop] at h
  | cons c cs ih =>
    intro n v err h
    unfold parseUintLoop at h
    split_ifs at h with h0 h1 h2
    · simp only [Prod.mk.injEq, Option.some.injEq] at h
      exact Or.inl ⟨h.2.symm, h.1.symm⟩
    · simp only [Prod.mk.injEq, Option.some.injEq] at h
      exact Or.inr ⟨h.2.symm, h.1.symm⟩
    · simp only [Prod.mk.injEq, Option.some.injEq] at h
      exact Or.inr ⟨h.2.symm, h.1.symm⟩
    · exact ih _ v err h

theorem ParseUint_ok (s : List Char) (v : Nat) :
    ParseUint s = (v, none) ↔ (isNumeral s = true ∧ numeralVal s = v ∧ v ≤ maxUint64) := by
  unfold ParseUint isNumeral numeralVal
  by_cases hs : s = []
  · subst hs; simp
  · simp only [hs, if_false]
    rw [parseUintLoop_ok s 0 v (by unfold maxUint64; omega)]
    simp [hs]

theorem ParseUint_err (s : List Char) (v : Nat) (err : NumError)
    (h : ParseUint s = (v, some err)) :
    (err = .ErrSyntax ∧ v = 0) ∨ (err = .ErrRange ∧ v = maxUint64) := by
  unfold ParseUint at h
  split_ifs at h with hs
  · simp only [Prod.mk.injEq, Option.some.injEq] at h
    exact Or.inl ⟨h.2.symm, h.1.symm⟩
  · exact parseUintLoop_err s 0 v err h

theorem isNumeral_head {c : Char} {cs : List Char} (h : isNumeral (c :: cs) = true) :
    isDigit c = true := by
  simp only [isNumeral, List.isEmpty_cons, Bool.not_false, List.all_cons, Bool.true_and,
    Bool.and_eq_true] at h
  exact h.1

theorem isDigit_plus : isDigit '+' = false := by decide

theorem isDigit_minus : isDigit '-' = false := by decide

/-- The function `Atoi` returns without error exactly on the decimal integers that
fit an `int`, and then returns the integer denoted. -/
theorem Atoi_ok (s : List Char) (v : Int) :
    Atoi s = (v, none) ↔
      (isDecimalInt s = true ∧ decimalVal s = v ∧ minInt ≤ v ∧ v ≤ maxInt) := by
  unfold Atoi ParseInt
  cases s with
  | nil => simp [isDecimalInt]
  | cons c cs =>
    simp only []
    by_cases hm : c = '-'
    · subst hm
      have e1 : isDecimalInt ('-' :: cs) = isNumeral cs := by simp [isDecimalInt]
      have e2 : decimalVal ('-' :: cs) = -(numeralVal cs : Int) := by simp [decimalVal]
      rw [e1, e2]
      simp only [beq_self_eq_true, Bool.or_true, if_true, Bool.not_true, Bool.false_and,
        Bool.false_eq_true, if_false, Bool.true_and, decide_eq_true_eq]
      rcases hr : ParseUint cs with ⟨u, _ | err⟩
      · have hk := (ParseUint_ok cs u).mp hr
        simp only [reduceCtorEq, if_false]
        split_ifs with h1
        · simp only [Prod.mk.injEq, reduceCtorEq, and_false, false_iff]
          intro h
          unfold minInt at h
          omega
        · simp only [Prod.mk.injEq, and_true]
          constructor
          · intro h
            refine ⟨hk.1, ?_, ?_, ?_⟩
            · rw [hk.2.1]; exact h
            · unfold minInt; omega
            · unfold maxInt; omega
          · intro h
            rw [hk.2.1] at h
            exact h.2.1
      · have hk : ¬ (isNumeral cs = true ∧ numeralVal cs ≤ maxUint64) := by
          intro hc
          have := (ParseUint_ok cs (numeralVal cs)).mpr ⟨hc.1, rfl, hc.2⟩
          rw [hr] at this
          simp at this
        rcases ParseUint_err cs u err hr with ⟨he, hu⟩ | ⟨he, hu⟩
        · subst he
          simp only [if_true, Prod.mk.injEq, reduceCtorEq, and_false, false_iff]
          intro h
          have hn := h.1
          by_cases hle : numeralVal cs ≤ maxUint64
          · exact hk ⟨hn, hle⟩
          · unfold minInt at h; unfold maxUint64 at hle; omega
        · subst he
          subst hu
          simp only [Option.some.injEq, reduceCtorEq, if_false]
          have : (9223372036854775808 : Nat) < maxUint64 := by unfold maxUint64; omega
          simp only [this, if_true, Prod.mk.injEq, reduceCtorEq, and_false, false_iff]
          intro h
          by_cases hle : numeralVal cs ≤ maxUint64
          · exact hk ⟨h.1, hle⟩
          · unfold minInt at h; unfold maxUint64 at hle; omega
    · have hbm : (c == '-') = false := by simpa using hm
      simp only [hbm, Bool.or_false, Bool.not_false, Bool.true_and, Bool.false_and,
        Bool.false_eq_true, if_false, decide_eq_true_eq]
      by_cases hp : c = '+'
      · subst hp
        have e1 : isDecimalInt ('+' :: cs) = isNumeral cs := by simp [isDecimalInt]
        have e2 : decimalVal ('+' :: cs) = (numeralVal cs : Int) := by simp [decimalVal]
        rw [e1, e2]
        simp only [beq_self_eq_true, if_true]
        rcases hr : ParseUint cs with ⟨u, _ | err⟩
        · have hk := (ParseUint_ok cs u).mp hr
          simp only [reduceCtorEq, if_false]
          split_ifs with h1
          · simp only [Prod.mk.injEq, reduceCtorEq, and_false, false_iff]
            intro h
            unfold maxInt at h
            omega
          · simp only [Prod.mk.injEq, and_true]
            constructor
            · intro h
              refine ⟨hk.1, ?_, ?_, ?_⟩
              · rw [hk.2.1]; exact h
              · unfold minInt; omega
              · unfold maxInt; omega
            · intro h
              rw [hk.2.1] at h
              exact h.2.1
        · have hk : ¬ (isNumeral cs = true ∧ numeralVal cs ≤ maxUint64) := by
            intro hc
            have := (ParseUint_ok cs (numeralVal cs)).mpr ⟨hc.1, rfl, hc.2⟩
            rw [hr] at this
            simp at this
          rcases ParseUint_err cs u err hr with ⟨he, hu⟩ | ⟨he, hu⟩
          · subst he
            simp only [if_true, Prod.mk.injEq, reduceCtorEq, and_false, false_iff]
            intro h
            by_cases hle : numeralVal cs ≤ maxUint64
            · exact hk ⟨h.1, hle⟩
            · unfold maxInt at h; unfold maxUint64 at hle; omega
          · subst he
            subst hu
            simp only [Option.some.injEq, reduceCtorEq, if_false]
            have : (9223372036854775808 : Nat) ≤ maxUint64 := by unfold maxUint64; omega
            simp only [this, if_true, Prod.mk.injEq, reduceCtorEq, and_false, false_iff]
            intro h
            by_cases hle : numeralVal cs ≤ maxUint64
            · exact hk ⟨h.1, hle⟩
            · unfold maxInt at h; unfold maxUint64 at hle; omega
      · have hbp : (c == '+') = false := by simpa using hp
        have e1 : isDecimalInt (c :: cs) = isNumeral (c :: cs) := by simp [isDecimalInt, hp, hm]
        have e2 : decimalVal (c :: cs) = (numeralVal (c :: cs) : Int) := by
          simp [decimalVal, hp, hm]
        rw [e1, e2]
        simp only [hbp, Bool.false_eq_true, if_false]
        rcases hr : ParseUint (c :: cs) with ⟨u, _ | err⟩
        · have hk := (ParseUint_ok (c :: cs) u).mp hr
          simp only [reduceCtorEq, if_false]
          split_ifs with h1
          · simp only [Prod.mk.injEq, reduceCtorEq, and_false, false_iff]
            intro h
            unfold maxInt at h
            omega
          · simp only [Prod.mk.injEq, and_true]
            constructor
            · intro h
              refine ⟨hk.1, ?_, ?_, ?_⟩
              · rw [hk.2.1]; exact h
              · unfold minInt; omega
              · unfold maxInt; omega
            · intro h
              rw [hk.2.1] at h
              exact h.2.1
        · have hk : ¬ (isNumeral (c :: cs) = true ∧ numeralVal (c :: cs) ≤ maxUint64) := by
            intro hc
            have := (ParseUint_ok (c :: cs) (numeralVal (c :: cs))).mpr ⟨hc.1, rfl, hc.2⟩
            rw [hr] at this
            simp at this
          rcases ParseUint_err (c :: cs) u err hr with ⟨he, hu⟩ | ⟨he, hu⟩
          · subst he
            simp only [if_true, Prod.mk.injEq, reduceCtorEq, and_false, false_iff]
            intro h
            by_cases hle : numeralVal (c :: cs) ≤ maxUint64
            · exact hk ⟨h.1, hle⟩
            · unfold maxInt at h; unfold maxUint64 at hle; omega
          · subst he
            subst hu
            simp only [Option.some.injEq, reduceCtorEq, if_false]
            have : (9223372036854775808 : Nat) ≤ maxUint64 := by unfold maxUint64; omega
            simp only [this, if_true, Prod.mk.injEq, reduceCtorEq, and_false, false_iff]
            intro h
            by_cases hle : numeralVal (c :: cs) ≤ maxUint64
            · exact hk ⟨h.1, hle⟩
            · unfold maxInt at h; unfold maxUint64 at hle; omega

end strconv

namespace strconv

theorem isNumeral_ne_nil {s : List Char} (h : isNumeral s = true) : s ≠ [] := by
  intro hs; subst hs; simp [isNumeral] at h

theorem isNumeral_all {s : List Char} (h : isNumeral s = true) :
    ∀ c ∈ s, isDigit c = true := by
  simp only [isNumeral, Bool.and_eq_true, List.all_eq_true] at h
  exact h.2

/-- A numeral is a decimal integer, denoting its value. -/
theorem numeral_decimal {s : List Char} (h : isNumeral s = true) :
    isDecimalInt s = true ∧ decimalVal s = (numeralVal s : Int) := by
  cases s with
  | nil => simp [isNumeral] at h
  | cons c cs =>
    have hd := isNumeral_head h
    have hp : c ≠ '+' := by intro hc; subst hc; simp [isDigit_plus] at hd
    have hm : c ≠ '-' := by intro hc; subst hc; simp [isDigit_minus] at hd
    simp [isDecimalInt, decimalVal, hp, hm, h]

/-- On a numeral that fits an `int`, `Atoi` returns its value. -/
theorem Atoi_numeral {s : List Char} (h : isNumeral s = true)
    (hv : (numeralVal s : Int) ≤ maxInt) : Atoi s = ((numeralVal s : Int), none) := by
  obtain ⟨h1, h2⟩ := numeral_decimal h
  exact (Atoi_ok s _).mpr ⟨h1, h2, by unfold minInt; omega, hv⟩

/-- On a numeral that does not fit an `int`, `Atoi` returns the largest `int`
and a range error. -/
theorem Atoi_numeral_big {s : List Char} (h : isNumeral s = true)
    (hv : maxInt < (numeralVal s : Int)) : Atoi s = (maxInt, some .ErrRange) := by
  cases s with
  | nil => simp [isNumeral] at h
  | cons c cs =>
    have hd := isNumeral_head h
    have hp : (c == '+') = false := by
      have : c ≠ '+' := by intro hc; subst hc; simp [isDigit_plus] at hd
      simpa using this
    have hm : (c == '-') = false := by
      have : c ≠ '-' := by intro hc; subst hc; simp [isDigit_minus] at hd
      simpa using this
    have hall : (c :: cs).all isDigit = true := by
      simp only [isNumeral, Bool.and_eq_true] at h
      exact h.2
    unfold Atoi ParseInt
    simp only [hp, hm, Bool.or_false, Bool.false_eq_true, if_false, Bool.not_false,
      Bool.true_and, Bool.false_and, decide_eq_true_eq]
    have hu : ParseUint (c :: cs) = parseUintLoop (c :: cs) 0 := by simp [ParseUint]
    rw [hu]
    by_cases hle : numeralVal (c :: cs) ≤ maxUint64
    · have := (parseUintLoop_ok (c :: cs) 0 (numeralVal (c :: cs))
        (by unfold maxUint64; omega)).mpr ⟨hall, rfl, hle⟩
      rw [this]
      have h2 : 9223372036854775808 ≤ numeralVal (c :: cs) := by unfold maxInt at hv; omega
      simp [h2]
    · have := parseUintLoop_range (c :: cs) 0 (by unfold maxUint64; omega) hall
        (by unfold numeralVal at hle; omega)
      rw [this]
      simp [maxUint64]

/-- The value `Atoi` returns on a numeral, whether it fits or not. -/
theorem Atoi_numeral_val {s : List Char} (h : isNumeral s = true) :
    (Atoi s).1 = min (numeralVal s : Int) maxInt := by
  by_cases hv : (numeralVal s : Int) ≤ maxInt
  · rw [Atoi_numeral h hv, min_eq_left hv]
  · rw [Atoi_numeral_big h (by omega), min_eq_right (by omega)]

end strconv

/-! ## `strings.Split` and `strings.Contains` -/

namespace strings

theorem Contains_iff (s : List Char) (c : Char) : Contains s c = true ↔ c ∈ s := by
  simp [Contains]

theorem Contains_eq_false (s : List Char) (c : Char) : Contains s c = false ↔ c ∉ s := by
  rw [← Contains_iff]; simp

theorem Split_ne_nil (s : List Char) (sep : Char) : Split s sep ≠ [] := by
  cases s with
  | nil => simp [Split]
  | cons c cs =>
    unfold Split
    split_ifs
    · simp
    · split <;> simp

/-- A text without the separator is its own single piece. -/
theorem Split_of_not_mem (s : List Char) (sep : Char) (h : sep ∉ s) : Split s sep = [s] := by
  induction s with
  | nil => rfl
  | cons c cs ih =>
    simp only [List.mem_cons, not_or] at h
    have hc : c ≠ sep := fun e => h.1 e.symm
    unfold Split
    rw [if_neg hc, ih h.2]

/-- The first piece ends at the first separator. -/
theorem Split_append (a b : List Char) (sep : Char) (h : sep ∉ a) :
    Split (a ++ sep :: b) sep = a :: Split b sep := by
  induction a with
  | nil => simp [Split]
  | cons c cs ih =>
    simp only [List.mem_cons, not_or] at h
    have hc : c ≠ sep := fun e => h.1 e.symm
    simp only [List.cons_append]
    rw [Split, if_neg hc, ih h.2]

/-- There is one more piece than there are separators. -/
theorem Split_length (s : List Char) (sep : Char) :
    (Split s sep).length = s.count sep + 1 := by
  induction s with
  | nil => rfl
  | cons c cs ih =>
    unfold Split
    by_cases hc : c = sep
    · subst hc
      simp [ih]
    · rw [if_neg hc]
      have hne := Split_ne_nil cs sep
      cases hsp : Split cs sep with
      | nil => exact absurd hsp hne
      | cons p ps =>
        rw [hsp] at ih
        simp only [List.length_cons] at ih ⊢
        rw [List.count_cons_of_ne (fun e => hc e.symm)]
        omega

end strings

/-! ## The loops of `parseField` -/

theorem has_explicit (m : List Int) (v : Int) :
    (fieldSet.mk false (some m)).has v = true ↔ v ∈ m := by
  simp [fieldSet.has]

theorem wrap64_le (x : Int) : wrap64 x ≤ strconv.maxInt := by
  unfold wrap64 strconv.maxInt
  omega

theorem wrap64_of_fits (x : Int) (h1 : strconv.minInt ≤ x) (h2 : x ≤ strconv.maxInt) :
    wrap64 x = x := by
  unfold wrap64
  unfold strconv.minInt at h1
  unfold strconv.maxInt at h2
  omega

/-- Membership in an arithmetic progression, one step further. -/
theorem progression_step (i v step : Int) (hs : 0 < step) :
    (i ≤ v ∧ (v - i) % step = 0) ↔
      (v = i ∨ (i + step ≤ v ∧ (v - (i + step)) % step = 0)) := by
  constructor
  · rintro ⟨h1, h2⟩
    by_cases hv : v = i
    · exact Or.inl hv
    · right
      have hd : step ∣ v - i := Int.dvd_of_emod_eq_zero h2
      have hpos : 0 < v - i := by omega
      have hle : step ≤ v - i := Int.le_of_dvd hpos hd
      refine ⟨by omega, ?_⟩
      obtain ⟨k, hk⟩ := hd
      apply Int.emod_eq_zero_of_dvd
      exact ⟨k - 1, by linear_combination hk⟩
  · rintro (h | ⟨h1, h2⟩)
    · subst h
      simp
    · refine ⟨by omega, ?_⟩
      obtain ⟨k, hk⟩ := Int.dvd_of_emod_eq_zero h2
      apply Int.emod_eq_zero_of_dvd
      exact ⟨k + 1, by linear_combination hk⟩

/-- When the counter cannot overflow, the loop exits within the fuel and has
added exactly the values `i, i + step, ...` up to `stop`. -/
theorem stepLoop_spec (stop step : Int) (hs : 0 < step)
    (hov : stop + step ≤ strconv.maxInt) (fuel : Nat) :
    ∀ (i : Int) (vals : List Int), strconv.minInt ≤ i → (stop - i + 1).toNat ≤ fuel →
      ∃ vals1, stepLoop stop step fuel i vals = some vals1 ∧
        ∀ v, v ∈ vals1 ↔ (v ∈ vals ∨ (i ≤ v ∧ v ≤ stop ∧ (v - i) % step = 0)) := by
  induction fuel with
  | zero =>
    intro i vals hi hf
    have hgt : ¬ i ≤ stop := by omega
    refine ⟨vals, by simp [stepLoop, hgt], ?_⟩
    intro v
    constructor
    · intro h; exact Or.inl h
    · rintro (h | h)
      · exact h
      · omega
  | succ n ih =>
    intro i vals hi hf
    by_cases hle : i ≤ stop
    · have hw : wrap64 (i + step) = i + step :=
        wrap64_of_fits _ (by omega) (by omega)
      obtain ⟨vals1, h1, h2⟩ := ih (i + step) (vals.insert i) (by omega) (by omega)
      refine ⟨vals1, by simp [stepLoop, hle, hw, h1], ?_⟩
      intro v
      rw [h2, List.mem_insert_iff]
      have hp := progression_step i v step hs
      constructor
      · rintro ((h | h) | ⟨a, b, c⟩)
        · exact Or.inr ⟨by omega, by omega, by subst h; simp⟩
        · exact Or.inl h
        · have := hp.mpr (Or.inr ⟨a, c⟩)
          exact Or.inr ⟨this.1, b, this.2⟩
      · rintro (h | ⟨a, b, c⟩)
        · exact Or.inl (Or.inr h)
        · rcases hp.mp ⟨a, c⟩ with h | ⟨h3, h4⟩
          · exact Or.inl (Or.inl h)
          · exact Or.inr ⟨h3, b, h4⟩
    · refine ⟨vals, by simp [stepLoop, hle], ?_⟩
      intro v
      constructor
      · intro h; exact Or.inl h
      · rintro (h | h)
        · exact h
        · omega

/-- With the largest `int` as the upper bound the loop never exits: its test
`i <= end` holds for every value of the counter. -/
theorem stepLoop_never_exits (step : Int) (fuel : Nat) :
    ∀ (i : Int) (vals : List Int), i ≤ strconv.maxInt →
      stepLoop strconv.maxInt step fuel i vals = none := by
  induction fuel with
  | zero => intro i vals h; simp [stepLoop, h]
  | succ n ih =>
    intro i vals h
    simp only [stepLoop, h, if_true]
    exact ih _ _ (wrap64_le _)

/-- More fuel does not change what the loop returns. -/
theorem stepLoop_mono (stop step : Int) (fuel : Nat) :
    ∀ (i : Int) (vals r : List Int) (k : Nat), stepLoop stop step fuel i vals = some r →
      stepLoop stop step (fuel + k) i vals = some r := by
  induction fuel with
  | zero =>
    intro i vals r k h
    by_cases hle : i ≤ stop
    · simp [stepLoop, hle] at h
    · cases k with
      | zero => exact h
      | succ m =>
        simp only [stepLoop, hle, if_false] at h
        simp only [Nat.zero_add, stepLoop, hle, if_false]
        exact h
  | succ n ih =>
    intro i vals r k h
    have e1 : n + 1 + k = (n + k) + 1 := by omega
    rw [e1]
    by_cases hle : i ≤ stop
    · simp only [stepLoop, hle, if_true] at h ⊢
      exact ih _ _ r k h
    · simp only [stepLoop, hle, if_false] at h ⊢
      exact h

theorem parsePart_mono (fuel : Nat) (part : List Char) (lo hi : Int) (vals : List Int)
    (r : Except ParseError (List Int)) (k : Nat)
    (h : parsePart fuel part lo hi vals = some r) :
    parsePart (fuel + k) part lo hi vals = some r := by
  unfold parsePart at h ⊢
  split_ifs at h ⊢ with h1 h2
  · split at h
    · simp only [] at h ⊢
      split_ifs at h ⊢ with h3
      · exact h
      · split at h
        · exact h
        · rename_i start stop hb
          simp only [Option.map_eq_some'] at h ⊢
          obtain ⟨a, ha, hr⟩ := h
          exact ⟨a, stepLoop_mono _ _ fuel _ _ a k ha, hr⟩
    · exact h
  · split at h
    · split_ifs at h ⊢ with h3
      · exact h
      · simp only [Option.map_eq_some'] at h ⊢
        obtain ⟨a, ha, hr⟩ := h
        exact ⟨a, stepLoop_mono _ _ fuel _ _ a k ha, hr⟩
    · exact h
  · exact h

theorem parseParts_mono (fuel : Nat) (lo hi : Int) (k : Nat) (parts : List (List Char)) :
    ∀ (vals : List Int) (r : Except ParseError (List Int)),
      parseParts fuel lo hi parts vals = some r →
        parseParts (fuel + k) lo hi parts vals = some r := by
  induction parts with
  | nil => intro vals r h; exact h
  | cons p ps ih =>
    intro vals r h
    unfold parseParts at h ⊢
    rcases hp : parsePart fuel p lo hi vals with _ | (err | vals1)
    · rw [hp] at h; simp at h
    · rw [hp] at h
      rw [parsePart_mono fuel p lo hi vals _ k hp]
      exact h
    · rw [hp] at h
      rw [parsePart_mono fuel p lo hi vals _ k hp]
      exact ih vals1 r h

/-- More fuel does not change what `parseField` returns. -/
theorem parseField_mono (fuel : Nat) (s : List Char) (lo hi : Int)
    (r : fieldSet × Option ParseError) (k : Nat) (h : parseField fuel s lo hi = some r) :
    parseField (fuel + k) s lo hi = some r := by
  unfold parseField at h ⊢
  split_ifs at h ⊢ with h1
  · exact h
  · rcases hp : parseParts fuel lo hi (strings.Split s ',') [] with _ | (err | vals1)
    · rw [hp] at h; simp at h
    · rw [hp] at h
      rw [parseParts_mono fuel lo hi k _ _ _ hp]
      exact h
    · rw [hp] at h
      rw [parseParts_mono fuel lo hi k _ _ _ hp]
      exact h

/-! ## `Parse` -/

/-- More fuel does not change what `Parse` returns. -/
theorem Parse_mono (fuel : Nat) (s : List Char) (r : Expression × Option ParseError) (k : Nat)
    (h : Parse fuel s = some r) : Parse (fuel + k) s = some r := by
  unfold Parse at h ⊢
  split at h
  · rename_i p0 p1 p2 p3 p4 hf
    simp only [] at h ⊢
    rcases h0 : parseField fuel p0 0 59 with _ | ⟨f0, _ | e0⟩
    · rw [h0] at h; simp at h
    · rw [h0] at h
      rw [parseField_mono fuel p0 0 59 _ k h0]
      simp only [] at h ⊢
      rcases h1 : parseField fuel p1 0 23 with _ | ⟨f1, _ | e1⟩
      · rw [h1] at h; simp at h
      · rw [h1] at h
        rw [parseField_mono fuel p1 0 23 _ k h1]
        simp only [] at h ⊢
        rcases h2 : parseField fuel p2 1 31 with _ | ⟨f2, _ | e2⟩
        · rw [h2] at h; simp at h
        · rw [h2] at h
          rw [parseField_mono fuel p2 1 31 _ k h2]
          simp only [] at h ⊢
          rcases h3 : parseField fuel p3 1 12 with _ | ⟨f3, _ | e3⟩
          · rw [h3] at h; simp at h
          · rw [h3] at h
            rw [parseField_mono fuel p3 1 12 _ k h3]
            simp only [] at h ⊢
            rcases h4 : parseField fuel p4 0 6 with _ | ⟨f4, _ | e4⟩
            · rw [h4] at h; simp at h
            · rw [h4] at h
              rw [parseField_mono fuel p4 0 6 _ k h4]
              exact h
            · rw [h4] at h
              rw [parseField_mono fuel p4 0 6 _ k h4]
              exact h
          · rw [h3] at h
            rw [parseField_mono fuel p3 1 12 _ k h3]
            exact h
        · rw [h2] at h
          rw [parseField_mono fuel p2 1 31 _ k h2]
          exact h
      · rw [h1] at h
        rw [parseField_mono fuel p1 0 23 _ k h1]
        exact h
    · rw [h0] at h
      rw [parseField_mono fuel p0 0 59 _ k h0]
      exact h
  · exact h

/-- The result of `Parse` on a text with five fields `p0 ... p4`, each accepted. -/
theorem Parse_of_fields (fuel : Nat) (s p0 p1 p2 p3 p4 : List Char) (e : Expression)
    (hf : strings.Fields s = [p0, p1, p2, p3, p4])
    (h0 : parseField fuel p0 0 59 = some (e.minutes, none))
    (h1 : parseField fuel p1 0 23 = some (e.hours, none))
    (h2 : parseField fuel p2 1 31 = some (e.days, none))
    (h3 : parseField fuel p3 1 12 = some (e.months, none))
    (h4 : parseField fuel p4 0 6 = some (e.weekdays, none)) :
    Parse fuel s = some (e, none) := by
  unfold Parse
  rw [hf]
  simp only [h0, h1, h2, h3, h4]

/-- A successful `Parse` had five fields, each accepted with the predicate the
expression holds. -/
theorem fields_of_Parse (fuel : Nat) (s : List Char) (e : Expression)
    (h : Parse fuel s = some (e, none)) :
    ∃ p0 p1 p2 p3 p4, strings.Fields s = [p0, p1, p2, p3, p4] ∧
      parseField fuel p0 0 59 = some (e.minutes, none) ∧
      parseField fuel p1 0 23 = some (e.hours, none) ∧
      parseField fuel p2 1 31 = some (e.days, none) ∧
      parseField fuel p3 1 12 = some (e.months, none) ∧
      parseField fuel p4 0 6 = some (e.weekdays, none) := by
  unfold Parse at h
  split at h
  · rename_i p0 p1 p2 p3 p4 hf
    refine ⟨p0, p1, p2, p3, p4, hf, ?_⟩
    simp only [] at h
    rcases h0 : parseField fuel p0 0 59 with _ | ⟨f0, _ | e0⟩
    · rw [h0] at h; simp at h
    · rw [h0] at h
      simp only [] at h
      rcases h1 : parseField fuel p1 0 23 with _ | ⟨f1, _ | e1⟩
      · rw [h1] at h; simp at h
      · rw [h1] at h
        simp only [] at h
        rcases h2 : parseField fuel p2 1 31 with _ | ⟨f2, _ | e2⟩
        · rw [h2] at h; simp at h
        · rw [h2] at h
          simp only [] at h
          rcases h3 : parseField fuel p3 1 12 with _ | ⟨f3, _ | e3⟩
          · rw [h3] at h; simp at h
          · rw [h3] at h
            simp only [] at h
            rcases h4 : parseField fuel p4 0 6 with _ | ⟨f4, _ | e4⟩
            · rw [h4] at h; simp at h
            · rw [h4] at h
              simp only [Option.some.injEq, Prod.mk.injEq, and_true] at h
              subst h
              exact ⟨rfl, rfl, rfl, rfl, rfl⟩
            · rw [h4] at h; simp at h
          · rw [h3] at h; simp at h
        · rw [h2] at h; simp at h
      · rw [h1] at h; simp at h
    · rw [h0] at h; simp at h
  · simp at h

/-- A text that does not split into five fields is rejected with the field
count, whatever the fuel. -/
theorem Parse_field_count (fuel : Nat) (s : List Char)
    (h : (strings.Fields s).length ≠ 5) :
    Parse fuel s = some (Expression.zero, some (.fieldCount (strings.Fields s).length)) := by
  unfold Parse
  split
  · rename_i p0 p1 p2 p3 p4 hf
    rw [hf] at h
    simp at h
  · rfl

/-! ## Claims about `Parse` and `parseField` -/

/-- C5: `Parse` succeeds with expression `e` if and only if the text splits on
white space into exactly five fields and `parseField` accepts each of them against
its own range, in the order minute 0-59, hour 0-23, day of month 1-31, month 1-12,
day of week 0-6, the five predicates of `e` being the five results; a text whose
field count is not five is rejected, as is `* * * *`. -/
theorem Parse_succeeds_iff (fuel : Nat) (s : List Char) :
    (∀ e : Expression, Parse fuel s = some (e, none) ↔
      ∃ p0 p1 p2 p3 p4, strings.Fields s = [p0, p1, p2, p3, p4] ∧
        parseField fuel p0 0 59 = some (e.minutes, none) ∧
        parseField fuel p1 0 23 = some (e.hours, none) ∧
        parseField fuel p2 1 31 = some (e.days, none) ∧
        parseField fuel p3 1 12 = some (e.months, none) ∧
        parseField fuel p4 0 6 = some (e.weekdays, none)) ∧
    ((strings.Fields s).length ≠ 5 →
      Parse fuel s = some (Expression.zero, some (.fieldCount (strings.Fields s).length))) ∧
    Parse fuel "* * * *".toList = some (Expression.zero, some (.fieldCount 4)) := by
  refine ⟨fun e => ⟨fields_of_Parse fuel s e, ?_⟩, Parse_field_count fuel s, ?_⟩
  · rintro ⟨p0, p1, p2, p3, p4, hf, h0, h1, h2, h3, h4⟩
    exact Parse_of_fields fuel s p0 p1 p2 p3 p4 e hf h0 h1 h2 h3 h4
  · exact Parse_field_count fuel "* * * *".toList (by decide)

/-- Witness of C5: `*/15 9-17 * * 1-5` has five accepted fields and is parsed,
and the three fields of `1 2 3` are rejected with their count. -/
theorem Parse_succeeds_iff_witness :
    Parse 60 "*/15 9-17 * * 1-5".toList = some (workingHours, none) ∧
    Parse 60 "1 2 3".toList = some (Expression.zero, some (.fieldCount 3)) :=
  ⟨((Parse_succeeds_iff 60 "*/15 9-17 * * 1-5".toList).1 workingHours).mpr
      ⟨"*/15".toList, "9-17".toList, "*".toList, "*".toList, "1-5".toList,
        by decide, by decide, by decide, by decide, by decide, by decide⟩,
    (Parse_succeeds_iff 60 "1 2 3".toList).2.1 (by decide)⟩

/-! ## `parseField` on one term -/

theorem numeral_not_mem {s : List Char} (h : isNumeral s = true) (c : Char)
    (hc : strconv.isDigit c = false) : c ∉ s := by
  intro hm
  have := strconv.isNumeral_all h c hm
  rw [hc] at this
  exact Bool.false_ne_true this

theorem numeral_ne_star {s : List Char} (h : isNumeral s = true) : s ≠ ['*'] := by
  intro hs
  have := numeral_not_mem h '*' (by decide)
  rw [hs] at this
  simp at this

/-- A field text of a single term, other than `*`, is parsed as that term. -/
theorem parseField_single (fuel : Nat) (s : List Char) (lo hi : Int) (h1 : s ≠ ['*'])
    (h2 : ',' ∉ s) :
    parseField fuel s lo hi =
      match parsePart fuel s lo hi [] with
      | none => none
      | some (.error err) => some (fieldSet.zero, some err)
      | some (.ok vals) => some (⟨false, some vals⟩, none) := by
  unfold parseField
  rw [if_neg h1, strings.Split_of_not_mem s ',' h2]
  unfold parseParts
  rcases parsePart fuel s lo hi [] with _ | (err | vals) <;> simp [parseParts]

/-- A plain numeral: rejected when it does not fit an `int` or lies outside
`lo .. hi`, otherwise added to the map. -/
theorem parsePart_numeral (fuel : Nat) (part : List Char) (lo hi : Int) (vals : List Int)
    (h : isNumeral part = true) :
    parsePart fuel part lo hi vals =
      if strconv.maxInt < (numeralVal part : Int) then some (.error (.invalidNumber part))
      else if (numeralVal part : Int) < lo ∨ hi < (numeralVal part : Int) then
        some (.error (.outOfRange (numeralVal part) lo hi))
      else some (.ok (vals.insert (numeralVal part : Int))) := by
  have c1 : strings.Contains part '/' = false :=
    (strings.Contains_eq_false _ _).mpr (numeral_not_mem h '/' (by decide))
  have c2 : strings.Contains part '-' = false :=
    (strings.Contains_eq_false _ _).mpr (numeral_not_mem h '-' (by decide))
  unfold parsePart
  simp only [c1, c2, Bool.false_eq_true, if_false]
  by_cases hv : strconv.maxInt < (numeralVal part : Int)
  · rw [strconv.Atoi_numeral_big h hv]
    simp [hv]
  · rw [strconv.Atoi_numeral h (by omega)]
    simp only [hv, if_false, ne_eq, not_true_eq_false, Bool.or_eq_true, decide_eq_true_eq,
      gt_iff_lt]

/-- A range term with numerals on both sides runs the loop between the values
`Atoi` returns for them. -/
theorem parsePart_range (fuel : Nat) (a b : List Char) (lo hi : Int) (vals : List Int)
    (ha : isNumeral a = true) (hb : isNumeral b = true) :
    parsePart fuel (a ++ '-' :: b) lo hi vals =
      (stepLoop (strconv.Atoi b).1 1 fuel (strconv.Atoi a).1 vals).map .ok := by
  have c1 : strings.Contains (a ++ '-' :: b) '/' = false := by
    rw [strings.Contains_eq_false]
    simp only [List.mem_append, List.mem_cons, not_or]
    exact ⟨numeral_not_mem ha '/' (by decide), by decide, numeral_not_mem hb '/' (by decide)⟩
  have c2 : strings.Contains (a ++ '-' :: b) '-' = true := by
    rw [strings.Contains_iff]
    simp
  have c3 : strings.Split (a ++ '-' :: b) '-' = [a, b] := by
    rw [strings.Split_append a b '-' (numeral_not_mem ha '-' (by decide)),
      strings.Split_of_not_mem b '-' (numeral_not_mem hb '-' (by decide))]
  unfold parsePart
  simp only [c1, c2, c3, Bool.false_eq_true, if_false, if_true]
  have n1 := strconv.isNumeral_ne_nil ha
  have n2 := strconv.isNumeral_ne_nil hb
  simp [n1, n2]

/-- A term with exactly one `/`: the step is checked first, then the bounds are
taken from the base and the loop runs. -/
theorem parsePart_step (fuel : Nat) (base stepStr : List Char) (lo hi : Int)
    (vals : List Int) (h1 : '/' ∉ base) (h2 : '/' ∉ stepStr) :
    parsePart fuel (base ++ '/' :: stepStr) lo hi vals =
      if (strconv.Atoi stepStr).2 ≠ none || decide ((strconv.Atoi stepStr).1 ≤ 0) then
        some (.error (.badStep stepStr))
      else
        match stepBounds base lo hi with
        | .error err => some (.error err)
        | .ok (start, stop) =>
          (stepLoop stop (strconv.Atoi stepStr).1 fuel start vals).map .ok := by
  have c1 : strings.Contains (base ++ '/' :: stepStr) '/' = true := by
    rw [strings.Contains_iff]
    simp
  have c3 : strings.Split (base ++ '/' :: stepStr) '/' = [base, stepStr] := by
    rw [strings.Split_append base stepStr '/' h1, strings.Split_of_not_mem stepStr '/' h2]
  unfold parsePart
  simp only [c1, c3, if_true]

theorem stepBounds_star (lo hi : Int) : stepBounds ['*'] lo hi = .ok (lo, hi) := by
  simp [stepBounds]

theorem stepBounds_numeral (n : List Char) (lo hi : Int) (h : isNumeral n = true) :
    stepBounds n lo hi = .ok ((strconv.Atoi n).1, hi) := by
  have c2 : strings.Contains n '-' = false :=
    (strings.Contains_eq_false _ _).mpr (numeral_not_mem h '-' (by decide))
  unfold stepBounds
  simp [numeral_ne_star h, c2]

theorem stepBounds_range (a b : List Char) (lo hi : Int) (ha : isNumeral a = true)
    (hb : isNumeral b = true) :
    stepBounds (a ++ '-' :: b) lo hi = .ok ((strconv.Atoi a).1, (strconv.Atoi b).1) := by
  have c2 : strings.Contains (a ++ '-' :: b) '-' = true := by
    rw [strings.Contains_iff]
    simp
  have c3 : strings.Split (a ++ '-' :: b) '-' = [a, b] := by
    rw [strings.Split_append a b '-' (numeral_not_mem ha '-' (by decide)),
      strings.Split_of_not_mem b '-' (numeral_not_mem hb '-' (by decide))]
  have hne : a ++ '-' :: b ≠ ['*'] := by
    intro he
    have : '-' ∈ a ++ '-' :: b := by simp
    rw [he] at this
    simp at this
  have n1 := strconv.isNumeral_ne_nil ha
  have n2 := strconv.isNumeral_ne_nil hb
  unfold stepBounds
  simp [hne, c2, c3, n1, n2]

/-- A step term whose step is a positive numeral that fits an `int`, over bounds
that keep the counter from overflowing: the field is accepted and holds the
progression from `start` by the step up to `stop`. -/
theorem step_term_core (fuel : Nat) (base stepStr : List Char) (lo hi start stop : Int)
    (hb1 : '/' ∉ base) (hb2 : ',' ∉ base) (hstep : isNumeral stepStr = true)
    (hpos : 0 < numeralVal stepStr) (hfit : (numeralVal stepStr : Int) ≤ strconv.maxInt)
    (hbounds : stepBounds base lo hi = .ok (start, stop))
    (hmin : strconv.minInt ≤ start)
    (hov : stop + (numeralVal stepStr : Int) ≤ strconv.maxInt)
    (hf : (stop - start + 1).toNat ≤ fuel) :
    ∃ f, parseField fuel (base ++ '/' :: stepStr) lo hi = some (f, none) ∧
      ∀ v, f.has v = true ↔
        (start ≤ v ∧ v ≤ stop ∧ (v - start) % (numeralVal stepStr : Int) = 0) := by
  have hne : base ++ '/' :: stepStr ≠ ['*'] := by
    intro he
    have : '/' ∈ base ++ '/' :: stepStr := by simp
    rw [he] at this
    simp at this
  have hcomma : ',' ∉ base ++ '/' :: stepStr := by
    simp only [List.mem_append, List.mem_cons, not_or]
    exact ⟨hb2, by decide, numeral_not_mem hstep ',' (by decide)⟩
  obtain ⟨vals1, h1, h2⟩ := stepLoop_spec stop (numeralVal stepStr : Int) (by omega) hov fuel
    start [] hmin hf
  refine ⟨⟨false, some vals1⟩, ?_, ?_⟩
  · rw [parseField_single fuel _ lo hi hne hcomma,
      parsePart_step fuel base stepStr lo hi [] hb1 (numeral_not_mem hstep '/' (by decide)),
      strconv.Atoi_numeral hstep hfit, hbounds]
    have : ¬ ((numeralVal stepStr : Int) ≤ 0) := by omega
    simp [this, h1]
  · intro v
    rw [has_explicit, h2]
    simp

/-- C6: a step term `BASE/STEP` whose step is a positive numeral, with no overflow
of the 64-bit `int` (the step fits an `int` and the upper bound plus the step
does too), is accepted once the fuel covers the loop, and the predicate accepts
exactly the `v` with `start ≤ v ≤ end` and `(v - start) mod STEP = 0`, where
`start, end` are `lo, hi` for the base `*`, `N, hi` for a numeral `N`, and `A, B`
for a range `A-B`. In particular `1-4/2` over 0..5 accepts exactly 1 and 3, and
`*/2` over 0..5 exactly 0, 2 and 4. -/
theorem step_term_semantics :
    (∀ (stepStr : List Char) (lo hi : Int) (fuel : Nat),
      isNumeral stepStr = true → 0 < numeralVal stepStr →
      (numeralVal stepStr : Int) ≤ strconv.maxInt → strconv.minInt ≤ lo →
      hi + (numeralVal stepStr : Int) ≤ strconv.maxInt → (hi - lo + 1).toNat ≤ fuel →
      ∃ f, parseField fuel ('*' :: '/' :: stepStr) lo hi = some (f, none) ∧
        ∀ v, f.has v = true ↔
          (lo ≤ v ∧ v ≤ hi ∧ (v - lo) % (numeralVal stepStr : Int) = 0)) ∧
    (∀ (n stepStr : List Char) (lo hi : Int) (fuel : Nat),
      isNumeral n = true → isNumeral stepStr = true → 0 < numeralVal stepStr →
      (numeralVal stepStr : Int) ≤ strconv.maxInt →
      hi + (numeralVal stepStr : Int) ≤ strconv.maxInt →
      (hi - (numeralVal n : Int) + 1).toNat ≤ fuel →
      ∃ f, parseField fuel (n ++ '/' :: stepStr) lo hi = some (f, none) ∧
        ∀ v, f.has v = true ↔
          ((numeralVal n : Int) ≤ v ∧ v ≤ hi ∧
            (v - (numeralVal n : Int)) % (numeralVal stepStr : Int) = 0)) ∧
    (∀ (a b stepStr : List Char) (lo hi : Int) (fuel : Nat),
      isNumeral a = true → isNumeral b = true → isNumeral stepStr = true →
      0 < numeralVal stepStr → (numeralVal stepStr : Int) ≤ strconv.maxInt →
      (numeralVal b : Int) + (numeralVal stepStr : Int) ≤ strconv.maxInt →
      ((numeralVal b : Int) - (numeralVal a : Int) + 1).toNat ≤ fuel →
      ∃ f, parseField fuel ((a ++ '-' :: b) ++ '/' :: stepStr) lo hi = some (f, none) ∧
        ∀ v, f.has v = true ↔
          ((numeralVal a : Int) ≤ v ∧ v ≤ (numeralVal b : Int) ∧
            (v - (numeralVal a : Int)) % (numeralVal stepStr : Int) = 0)) ∧
    (∀ k : Nat, ∃ f, parseField (2 + k) "1-4/2".toList 0 5 = some (f, none) ∧
      ∀ v, f.has v = true ↔ (v = 1 ∨ v = 3)) ∧
    (∀ k : Nat, ∃ f, parseField (3 + k) "*/2".toList 0 5 = some (f, none) ∧
      ∀ v, f.has v = true ↔ (v = 0 ∨ v = 2 ∨ v = 4)) := by
  refine ⟨?_, ?_, ?_, ?_, ?_⟩
  · intro stepStr lo hi fuel hs hpos hfit hlo hov hf
    exact step_term_core fuel ['*'] stepStr lo hi lo hi (by decide) (by decide) hs hpos hfit
      (stepBounds_star lo hi) hlo hov hf
  · intro n stepStr lo hi fuel hn hs hpos hfit hov hf
    have hval := strconv.Atoi_numeral_val hn
    have hmin : strconv.minInt ≤ (strconv.Atoi n).1 := by
      rw [hval]
      unfold strconv.minInt strconv.maxInt
      omega
    obtain ⟨f, h1, h2⟩ := step_term_core fuel n stepStr lo hi (strconv.Atoi n).1 hi
      (numeral_not_mem hn '/' (by decide)) (numeral_not_mem hn ',' (by decide)) hs hpos hfit
      (stepBounds_numeral n lo hi hn) hmin hov (by rw [hval]; omega)
    refine ⟨f, h1, fun v => ?_⟩
    rw [h2, hval]
    by_cases hbig : (numeralVal n : Int) ≤ strconv.maxInt
    · rw [min_eq_left hbig]
    · rw [min_eq_right (by omega)]
      constructor
      · intro h; omega
      · intro h; omega
  · intro a b stepStr lo hi fuel ha hb hs hpos hfit hov hf
    have hva := strconv.Atoi_numeral_val ha
    have hvb := strconv.Atoi_numeral hb (show (numeralVal b : Int) ≤ strconv.maxInt by omega)
    have hmin : strconv.minInt ≤ (strconv.Atoi a).1 := by
      rw [hva]
      unfold strconv.minInt strconv.maxInt
      omega
    have hb1 : '/' ∉ a ++ '-' :: b := by
      simp only [List.mem_append, List.mem_cons, not_or]
      exact ⟨numeral_not_mem ha '/' (by decide), by decide, numeral_not_mem hb '/' (by decide)⟩
    have hb2 : ',' ∉ a ++ '-' :: b := by
      simp only [List.mem_append, List.mem_cons, not_or]
      exact ⟨numeral_not_mem ha ',' (by decide), by decide, numeral_not_mem hb ',' (by decide)⟩
    have hbd := stepBounds_range a b lo hi ha hb
    rw [hvb] at hbd
    obtain ⟨f, h1, h2⟩ := step_term_core fuel (a ++ '-' :: b) stepStr lo hi
      (strconv.Atoi a).1 (numeralVal b : Int) hb1 hb2 hs hpos hfit hbd hmin hov
      (by rw [hva]; omega)
    refine ⟨f, h1, fun v => ?_⟩
    rw [h2, hva]
    by_cases hbig : (numeralVal a : Int) ≤ strconv.maxInt
    · rw [min_eq_left hbig]
    · rw [min_eq_right (by omega)]
      constructor
      · intro h; omega
      · intro h; omega
  · intro k
    refine ⟨⟨false, some [3, 1]⟩, parseField_mono 2 _ 0 5 _ k (by decide), fun v => ?_⟩
    rw [has_explicit]
    simp only [List.mem_cons, List.mem_singleton, List.not_mem_nil, or_false]
    exact or_comm
  · intro k
    refine ⟨⟨false, some [4, 2, 0]⟩, parseField_mono 3 _ 0 5 _ k (by decide), fun v => ?_⟩
    rw [has_explicit]
    simp only [List.mem_cons, List.mem_singleton, List.not_mem_nil, or_false]
    constructor
    · rintro (h | h | h)
      · exact Or.inr (Or.inr h)
      · exact Or.inr (Or.inl h)
      · exact Or.inl h
    · rintro (h | h | h)
      · exact Or.inr (Or.inr h)
      · exact Or.inr (Or.inl h)
      · exact Or.inl h

/-- Witness of C6: the three forms of the base at `*/15` over 0..59, `5/20` over
0..59 and `10-40/10` over 0..59. -/
theorem step_term_semantics_witness :
    (∃ f, parseField 60 "*/15".toList 0 59 = some (f, none) ∧
      ∀ v, f.has v = true ↔
        (0 ≤ v ∧ v ≤ 59 ∧ (v - 0) % (numeralVal "15".toList : Int) = 0)) ∧
    (∃ f, parseField 60 "5/20".toList 0 59 = some (f, none) ∧
      ∀ v, f.has v = true ↔
        ((numeralVal "5".toList : Int) ≤ v ∧ v ≤ 59 ∧
          (v - (numeralVal "5".toList : Int)) % (numeralVal "20".toList : Int) = 0)) ∧
    (∃ f, parseField 60 "10-40/10".toList 0 59 = some (f, none) ∧
      ∀ v, f.has v = true ↔
        ((numeralVal "10".toList : Int) ≤ v ∧ v ≤ (numeralVal "40".toList : Int) ∧
          (v - (numeralVal "10".toList : Int)) % (numeralVal "10".toList : Int) = 0)) :=
  ⟨step_term_semantics.1 "15".toList 0 59 60 (by decide) (by decide) (by decide) (by decide)
      (by decide) (by decide),
    step_term_semantics.2.1 "5".toList "20".toList 0 59 60 (by decide) (by decide) (by decide)
      (by decide) (by decide) (by decide),
    step_term_semantics.2.2.1 "10".toList "40".toList "10".toList 0 59 60 (by decide) (by decide)
      (by decide) (by decide) (by decide) (by decide) (by decide)⟩

/-! ## Malformed terms -/

/-- The terms after a prefix are parsed once the prefix has been, from the map it
left; an error or an endless loop in the prefix is the result of the whole. -/
theorem parseParts_append (fuel : Nat) (lo hi : Int) (pre rest : List (List Char)) :
    ∀ vals : List Int, parseParts fuel lo hi (pre ++ rest) vals =
      match parseParts fuel lo hi pre vals with
      | none => none
      | some (.error err) => some (.error err)
      | some (.ok vals1) => parseParts fuel lo hi rest vals1 := by
  induction pre with
  | nil => intro vals; simp [parseParts]
  | cons p ps ih =>
    intro vals
    simp only [List.cons_append]
    rw [parseParts, parseParts]
    rcases parsePart fuel p lo hi vals with _ | (err | vals1)
    · rfl
    · rfl
    · exact ih vals1

/-- A term with two or more `/` is an invalid step. -/
theorem parsePart_many_slashes (fuel : Nat) (part : List Char) (lo hi : Int)
    (vals : List Int) (h : 2 ≤ part.count '/') :
    parsePart fuel part lo hi vals = some (.error (.invalidStep part)) := by
  have c1 : strings.Contains part '/' = true := by
    rw [strings.Contains_iff]
    exact List.count_pos_iff.mp (by omega)
  have hl := strings.Split_length part '/'
  unfold parsePart
  rw [if_pos c1]
  split
  · rename_i base stepStr heq
    rw [heq] at hl
    simp only [List.length_cons, List.length_nil] at hl
    omega
  · rfl

/-- A term with one `/` whose step part is not a decimal integer greater than
zero is a bad step, whatever the base is. -/
theorem parsePart_bad_step (fuel : Nat) (base stepStr : List Char) (lo hi : Int)
    (vals : List Int) (h1 : '/' ∉ base) (h2 : '/' ∉ stepStr)
    (hbad : ¬ (isDecimalInt stepStr = true ∧ 0 < decimalVal stepStr)) :
    parsePart fuel (base ++ '/' :: stepStr) lo hi vals = some (.error (.badStep stepStr)) := by
  rw [parsePart_step fuel base stepStr lo hi vals h1 h2]
  have hc : ((strconv.Atoi stepStr).2 ≠ none || decide ((strconv.Atoi stepStr).1 ≤ 0))
      = true := by
    by_contra hn
    simp only [ne_eq, Bool.or_eq_true, decide_eq_true_eq, not_or, not_not, not_le,
      decide_not, Bool.not_eq_true', decide_eq_false_iff_not] at hn
    have hat : strconv.Atoi stepStr = ((strconv.Atoi stepStr).1, none) := by
      rw [← hn.1]
    have := (strconv.Atoi_ok stepStr _).mp hat
    exact hbad ⟨this.1, by rw [this.2.1]; exact hn.2⟩
  rw [if_pos hc]

/-- A malformed step term: more than one `/`, or one `/` followed by a step part
that is not a decimal integer greater than zero. -/
theorem parsePart_malformed_step (fuel : Nat) (part : List Char) (lo hi : Int)
    (vals : List Int)
    (hbad : 2 ≤ part.count '/' ∨ ∃ base stepStr, part = base ++ '/' :: stepStr ∧
      '/' ∉ base ∧ '/' ∉ stepStr ∧
      ¬ (isDecimalInt stepStr = true ∧ 0 < decimalVal stepStr)) :
    ∃ err, parsePart fuel part lo hi vals = some (.error err) := by
  rcases hbad with h | ⟨base, stepStr, hp, h1, h2, h3⟩
  · exact ⟨_, parsePart_many_slashes fuel part lo hi vals h⟩
  · subst hp
    exact ⟨_, parsePart_bad_step fuel base stepStr lo hi vals h1 h2 h3⟩

/-- What the loop over the terms returns when a term in the middle is rejected. -/
theorem parseParts_rejected_term (fuel : Nat) (lo hi : Int) (pre post : List (List Char))
    (part : List Char)
    (hrej : ∀ vals, ∃ err, parsePart fuel part lo hi vals = some (.error err)) :
    (∀ vals, parseParts fuel lo hi (pre ++ part :: post) [] ≠ some (.ok vals)) ∧
    (parseParts fuel lo hi pre [] ≠ none →
      ∃ err, parseParts fuel lo hi (pre ++ part :: post) [] = some (.error err)) := by
  rw [parseParts_append]
  rcases hpre : parseParts fuel lo hi pre [] with _ | (err | vals1)
  · simp
  · simp
  · obtain ⟨err, he⟩ := hrej vals1
    simp [parseParts, he]

/-- A term without `/` that has a `-` but does not split around `-` into exactly
two non-empty pieces is a bad range. -/
theorem parsePart_bad_range (fuel : Nat) (part : List Char) (lo hi : Int) (vals : List Int)
    (h1 : '/' ∉ part) (h2 : '-' ∈ part)
    (h3 : ∀ r0 r1, strings.Split part '-' = [r0, r1] → r0 = [] ∨ r1 = []) :
    parsePart fuel part lo hi vals = some (.error (.badRange part)) := by
  have c1 : strings.Contains part '/' = false := (strings.Contains_eq_false _ _).mpr h1
  have c2 : strings.Contains part '-' = true := (strings.Contains_iff _ _).mpr h2
  unfold parsePart
  simp only [c1, c2, Bool.false_eq_true, if_false, if_true]
  split
  · rename_i r0 r1 heq
    rcases h3 r0 r1 heq with h | h <;> simp [h]
  · rfl

/-- What `parseField` returns at fuel 0 it returns at every fuel. -/
theorem parseField_of_zero (fuel : Nat) (s : List Char) (lo hi : Int)
    (r : fieldSet × Option ParseError) (h : parseField 0 s lo hi = some r) :
    parseField fuel s lo hi = some r := by
  have := parseField_mono 0 s lo hi r fuel h
  rwa [Nat.zero_add] at this

/-- What `Parse` returns at fuel 0 it returns at every fuel. -/
theorem Parse_of_zero (fuel : Nat) (s : List Char) (r : Expression × Option ParseError)
    (h : Parse 0 s = some r) : Parse fuel s = some r := by
  have := Parse_mono 0 s r fuel h
  rwa [Nat.zero_add] at this

/-! ## Signed decimal integers as field texts -/

/-- A decimal integer consists of digits and at most a sign. -/
theorem decimal_not_mem {s : List Char} (h : isDecimalInt s = true) (c : Char)
    (hc : strconv.isDigit c = false) (hp : c ≠ '+') (hm : c ≠ '-') : c ∉ s := by
  cases s with
  | nil => simp
  | cons a as =>
    simp only [isDecimalInt] at h
    by_cases hs : a = '+' ∨ a = '-'
    · rw [if_pos hs] at h
      intro hmem
      rcases List.mem_cons.mp hmem with e | e
      · rcases hs with hs | hs
        · exact hp (e.trans hs)
        · exact hm (e.trans hs)
      · exact numeral_not_mem h c hc e
    · rw [if_neg hs] at h
      exact numeral_not_mem h c hc

/-- A decimal integer with a `-` in it is a `-` followed by a numeral. -/
theorem decimal_minus {s : List Char} (h : isDecimalInt s = true) (hm : '-' ∈ s) :
    ∃ cs, s = '-' :: cs ∧ isNumeral cs = true := by
  cases s with
  | nil => simp at hm
  | cons a as =>
    simp only [isDecimalInt] at h
    by_cases hs : a = '+' ∨ a = '-'
    · rw [if_pos hs] at h
      rcases hs with hs | hs
      · subst hs
        rcases List.mem_cons.mp hm with e | e
        · exact absurd e (by decide)
        · exact absurd e (numeral_not_mem h '-' (by decide))
      · subst hs
        exact ⟨as, rfl, h⟩
    · rw [if_neg hs] at h
      exact absurd hm (numeral_not_mem h '-' (by decide))

/-- A decimal integer without a `-` in it denotes a natural number. -/
theorem decimal_nonneg {s : List Char} (h : isDecimalInt s = true) (hm : '-' ∉ s) :
    0 ≤ decimalVal s := by
  cases s with
  | nil => simp [isDecimalInt] at h
  | cons a as =>
    have ha : a ≠ '-' := fun e => hm (by rw [e]; exact List.mem_cons_self _ _)
    unfold decimalVal
    simp only [ha, if_false]
    split_ifs <;> exact Int.ofNat_nonneg _

/-- A plain decimal integer without a `-`: rejected when it does not fit an `int`
or lies outside `lo .. hi`, otherwise added to the map. -/
theorem parsePart_decimal (fuel : Nat) (part : List Char) (lo hi : Int) (vals : List Int)
    (h : isDecimalInt part = true) (hm : '-' ∉ part) :
    parsePart fuel part lo hi vals =
      if strconv.maxInt < decimalVal part then some (.error (.invalidNumber part))
      else if decimalVal part < lo ∨ hi < decimalVal part then
        some (.error (.outOfRange (decimalVal part) lo hi))
      else some (.ok (vals.insert (decimalVal part))) := by
  have c1 : strings.Contains part '/' = false :=
    (strings.Contains_eq_false _ _).mpr
      (decimal_not_mem h '/' (by decide) (by decide) (by decide))
  have c2 : strings.Contains part '-' = false := (strings.Contains_eq_false _ _).mpr hm
  unfold parsePart
  simp only [c1, c2, Bool.false_eq_true, if_false]
  by_cases hv : strconv.maxInt < decimalVal part
  · have herr : (strconv.Atoi part).2 ≠ none := by
      intro hn
      have := (strconv.Atoi_ok part (strconv.Atoi part).1).mp (Prod.ext rfl hn)
      omega
    simp [hv, herr]
  · have h0 := decimal_nonneg h hm
    have hok : strconv.Atoi part = (decimalVal part, none) :=
      (strconv.Atoi_ok part (decimalVal part)).mpr
        ⟨h, rfl, by unfold strconv.minInt; omega, by omega⟩
    rw [hok]
    simp only [hv, if_false, ne_eq, not_true_eq_false, Bool.or_eq_true, decide_eq_true_eq,
      gt_iff_lt]

/-- A decimal integer written with a `-` is read as a range with no lower bound. -/
theorem parsePart_negative (fuel : Nat) (part : List Char) (lo hi : Int) (vals : List Int)
    (h : isDecimalInt part = true) (hm : '-' ∈ part) :
    parsePart fuel part lo hi vals = some (.error (.badRange part)) := by
  refine parsePart_bad_range fuel part lo hi vals
    (decimal_not_mem h '/' (by decide) (by decide) (by decide)) hm ?_
  obtain ⟨cs, hs, hn⟩ := decimal_minus h hm
  subst hs
  intro r0 r1 hsplit
  have e : strings.Split ('-' :: cs) '-' = [[], cs] := by
    have := strings.Split_append [] cs '-' (by simp)
    rw [strings.Split_of_not_mem cs '-' (numeral_not_mem hn '-' (by decide))] at this
    simpa using this
  rw [e] at hsplit
  simp only [List.cons.injEq, and_true] at hsplit
  exact Or.inl hsplit.1.symm

/-- Counterexample to C7: the field text `0-9223372036854775807,*/0` contains the
term `*/0`, whose step is zero, but `parseField` never returns on it: the loop of
the first term, a range up to the largest `int`, never exits, so the malformed
term is not reached and no error is returned. -/
theorem malformed_step_not_reached :
    strings.Split "0-9223372036854775807,*/0".toList ','
      = ["0-9223372036854775807".toList, "*/0".toList] ∧
    ∀ fuel : Nat, parseField fuel "0-9223372036854775807,*/0".toList 0 59 = none := by
  refine ⟨by decide, fun fuel => ?_⟩
  have hs : strings.Split "0-9223372036854775807,*/0".toList ','
      = ["0-9223372036854775807".toList, "*/0".toList] := by decide
  have hne : "0-9223372036854775807,*/0".toList ≠ ['*'] := by decide
  have hp : parsePart fuel "0-9223372036854775807".toList 0 59 [] = none := by
    have := parsePart_range fuel "0".toList "9223372036854775807".toList 0 59 []
      (by decide) (by decide)
    have e1 : strconv.Atoi "9223372036854775807".toList = (strconv.maxInt, none) := by decide
    have e0 : strconv.Atoi "0".toList = (0, none) := by decide
    rw [e1, e0] at this
    simp only [] at this
    rw [stepLoop_never_exits 1 fuel 0 [] (by decide)] at this
    exact this
  unfold parseField
  rw [if_neg hne, hs, parseParts, hp]

/-- C7, amended: a field text one of whose comma-separated terms is a malformed
step term (more than one `/`, or one `/` followed by a step part that is empty,
not a decimal integer, zero or negative, whatever the base part) is never
accepted, and `parseField` returns an error for it whenever the terms before the
malformed one are processed to completion, in particular when it is the first
term. The examples of the claim are rejected: the steps `0` (after `*` and after
`1-5`), empty, `-1` and `a` after `*`, and the two steps of `*/10/2`. -/
theorem malformed_step_rejected :
    (∀ (s : List Char) (lo hi : Int) (pre post : List (List Char)) (part : List Char),
      strings.Split s ',' = pre ++ part :: post →
      (2 ≤ part.count '/' ∨ ∃ base stepStr, part = base ++ '/' :: stepStr ∧
        '/' ∉ base ∧ '/' ∉ stepStr ∧
        ¬ (isDecimalInt stepStr = true ∧ 0 < decimalVal stepStr)) →
      (∀ fuel f, parseField fuel s lo hi ≠ some (f, none)) ∧
      (∀ fuel, parseParts fuel lo hi pre [] ≠ none →
        ∃ err, parseField fuel s lo hi = some (fieldSet.zero, some err)) ∧
      (pre = [] →
        ∀ fuel, ∃ err, parseField fuel s lo hi = some (fieldSet.zero, some err))) ∧
    (∀ fuel : Nat,
      parseField fuel "*/0".toList 0 59 = some (fieldSet.zero, some (.badStep "0".toList)) ∧
      parseField fuel "1-5/0".toList 0 59 = some (fieldSet.zero, some (.badStep "0".toList)) ∧
      parseField fuel "*/".toList 0 59 = some (fieldSet.zero, some (.badStep [])) ∧
      parseField fuel "*/-1".toList 0 59 = some (fieldSet.zero, some (.badStep "-1".toList)) ∧
      parseField fuel "*/a".toList 0 59 = some (fieldSet.zero, some (.badStep "a".toList)) ∧
      parseField fuel "*/10/2".toList 0 59
        = some (fieldSet.zero, some (.invalidStep "*/10/2".toList))) := by
  constructor
  · intro s lo hi pre post part hsplit hbad
    have hne : s ≠ ['*'] := by
      intro hs
      subst hs
      have h1 : strings.Split ['*'] ',' = [['*']] := by decide
      rw [h1] at hsplit
      have hmem : part ∈ [['*']] := by rw [hsplit]; simp
      simp only [List.mem_singleton] at hmem
      subst hmem
      rcases hbad with h | ⟨base, stepStr, hp, _⟩
      · simp at h
      · have : '/' ∈ ['*'] := by rw [hp]; simp
        simp at this
    have hrej := fun fuel vals => parsePart_malformed_step fuel part lo hi vals hbad
    have key : ∀ fuel,
        (∀ vals, parseParts fuel lo hi (pre ++ part :: post) [] ≠ some (.ok vals)) ∧
        (parseParts fuel lo hi pre [] ≠ none →
          ∃ err, parseParts fuel lo hi (pre ++ part :: post) [] = some (.error err)) :=
      fun fuel => parseParts_rejected_term fuel lo hi pre post part (hrej fuel)
    have herr : ∀ fuel, parseParts fuel lo hi pre [] ≠ none →
        ∃ err, parseField fuel s lo hi = some (fieldSet.zero, some err) := by
      intro fuel hpre
      obtain ⟨err, he⟩ := (key fuel).2 hpre
      refine ⟨err, ?_⟩
      unfold parseField
      rw [if_neg hne, hsplit, he]
    refine ⟨?_, herr, ?_⟩
    · intro fuel f hf
      unfold parseField at hf
      rw [if_neg hne, hsplit] at hf
      rcases hp : parseParts fuel lo hi (pre ++ part :: post) [] with _ | (err | vals1)
      · rw [hp] at hf; simp at hf
      · rw [hp] at hf; simp at hf
      · exact (key fuel).1 vals1 hp
    · intro hpre fuel
      subst hpre
      exact herr fuel (by simp [parseParts])
  · intro fuel
    have m : ∀ (s : List Char) (r : fieldSet × Option ParseError),
        parseField 0 s 0 59 = some r → parseField fuel s 0 59 = some r := by
      intro s r h
      have := parseField_mono 0 s 0 59 r fuel h
      rwa [Nat.zero_add] at this
    exact ⟨m _ _ (by decide), m _ _ (by decide), m _ _ (by decide), m _ _ (by decide),
      m _ _ (by decide), m _ _ (by decide)⟩

/-- Witness of the amended C7: in `5,1-3/0` the malformed term `1-3/0` comes after
the accepted term `5`, and the field is rejected. -/
theorem malformed_step_rejected_witness :
    (∀ fuel f, parseField fuel "5,1-3/0".toList 0 59 ≠ some (f, none)) ∧
    (∀ fuel, parseParts fuel 0 59 ["5".toList] [] ≠ none →
      ∃ err, parseField fuel "5,1-3/0".toList 0 59 = some (fieldSet.zero, some err)) ∧
    (["5".toList] = [] →
      ∀ fuel, ∃ err, parseField fuel "5,1-3/0".toList 0 59 = some (fieldSet.zero, some err)) :=
  malformed_step_rejected.1 "5,1-3/0".toList 0 59 ["5".toList] [] "1-3/0".toList (by decide)
    (Or.inr ⟨"1-3".toList, "0".toList, by decide, by decide, by decide, by decide⟩)

/-- C8 fails on the code: the plain-value path and the step path test the error
of `strconv.Atoi` (`a` and `*/a` are rejected), but the range path and the base
of a step discard it, so a text that is no integer counts as 0 there: `a-b` is
accepted as the set holding 0, `1-z` as the empty set, and `x/2` as the even
numbers from 0 to 58. -/
theorem unparseable_bounds_accepted :
    (∀ fuel : Nat, parseField fuel "a".toList 0 59
      = some (fieldSet.zero, some (.invalidNumber "a".toList))) ∧
    (∀ fuel : Nat, parseField fuel "*/a".toList 0 59
      = some (fieldSet.zero, some (.badStep "a".toList))) ∧
    (∀ k : Nat, parseField (1 + k) "a-b".toList 0 59 = some (⟨false, some [0]⟩, none)) ∧
    (∀ fuel : Nat, parseField fuel "1-z".toList 0 59 = some (⟨false, some []⟩, none)) ∧
    (∀ k : Nat, parseField (30 + k) "x/2".toList 0 59
      = some (⟨false, some [58, 56, 54, 52, 50, 48, 46, 44, 42, 40, 38, 36, 34, 32, 30, 28,
          26, 24, 22, 20, 18, 16, 14, 12, 10, 8, 6, 4, 2, 0]⟩, none)) ∧
    isDecimalInt "a".toList = false ∧ isDecimalInt "b".toList = false ∧
    isDecimalInt "z".toList = false ∧ isDecimalInt "x".toList = false :=
  ⟨fun fuel => parseField_of_zero fuel _ 0 59 _ (by decide),
    fun fuel => parseField_of_zero fuel _ 0 59 _ (by decide),
    fun k => parseField_mono 1 _ 0 59 _ k (by decide),
    fun fuel => parseField_of_zero fuel _ 0 59 _ (by decide),
    fun k => parseField_mono 30 _ 0 59 _ k (by decide),
    by decide, by decide, by decide, by decide⟩

/-- Counterexample to C9: the field text `-0` is a single decimal integer, 0, and
0 lies within 0..59, but `parseField` rejects it as a bad range, and so `Parse`
rejects `-0 * * * *`; likewise `-5` over -10..10. A text with a `-` in it is read
as a range term before it is read as a number. -/
theorem signed_number_read_as_range :
    isDecimalInt "-0".toList = true ∧ decimalVal "-0".toList = 0 ∧
    (0 : Int) ≤ decimalVal "-0".toList ∧ decimalVal "-0".toList ≤ 59 ∧
    parseField 0 "-0".toList 0 59 = some (fieldSet.zero, some (.badRange "-0".toList)) ∧
    Parse 0 "-0 * * * *".toList
      = some (Expression.zero, some (.inField "minute" (.badRange "-0".toList))) ∧
    isDecimalInt "-5".toList = true ∧ decimalVal "-5".toList = -5 ∧
    parseField 0 "-5".toList (-10) 10
      = some (fieldSet.zero, some (.badRange "-5".toList)) := by
  decide

/-- C9, amended: a field text that is a single decimal integer `N` written
without a `-` (digits, or `+` and digits) is accepted if and only if
`lo ≤ N ≤ hi`; when accepted the predicate accepts exactly `N`, and otherwise
`parseField` returns an error. A decimal integer written with a `-` is rejected
as a bad range whatever `lo` and `hi` are. Hence `Parse` rejects `100 * * * *`
(minute out of 0..59) and `* * * * 8` (weekday out of 0..6). -/
theorem plain_number_term :
    (∀ (s : List Char) (lo hi : Int) (fuel : Nat), isDecimalInt s = true → '-' ∉ s →
      hi ≤ strconv.maxInt →
      ((∃ f, parseField fuel s lo hi = some (f, none)) ↔
        (lo ≤ decimalVal s ∧ decimalVal s ≤ hi)) ∧
      (∀ f, parseField fuel s lo hi = some (f, none) →
        ∀ v, f.has v = true ↔ v = decimalVal s) ∧
      (¬ (lo ≤ decimalVal s ∧ decimalVal s ≤ hi) →
        ∃ err, parseField fuel s lo hi = some (fieldSet.zero, some err))) ∧
    (∀ (s : List Char) (lo hi : Int) (fuel : Nat), isDecimalInt s = true → '-' ∈ s →
      parseField fuel s lo hi = some (fieldSet.zero, some (.badRange s))) ∧
    (∀ s : List Char, isDecimalInt s = true →
      ('-' ∈ s ↔ ∃ cs, s = '-' :: cs ∧ isNumeral cs = true)) ∧
    (∀ s : List Char, isNumeral s = true →
      isDecimalInt s = true ∧ '-' ∉ s ∧ decimalVal s = (numeralVal s : Int) ∧
      isDecimalInt ('+' :: s) = true ∧ '-' ∉ '+' :: s ∧
      decimalVal ('+' :: s) = (numeralVal s : Int) ∧
      isDecimalInt ('-' :: s) = true ∧ decimalVal ('-' :: s) = -(numeralVal s : Int)) ∧
    (∀ fuel : Nat, Parse fuel "100 * * * *".toList
      = some (Expression.zero, some (.inField "minute" (.outOfRange 100 0 59)))) ∧
    (∀ fuel : Nat, Parse fuel "* * * * 8".toList
      = some (⟨.star, .star, .star, .star, fieldSet.zero⟩,
          some (.inField "weekday" (.outOfRange 8 0 6)))) := by
  refine ⟨?_, ?_, ?_, ?_, fun fuel => Parse_of_zero fuel _ _ (by decide),
    fun fuel => Parse_of_zero fuel _ _ (by decide)⟩
  · intro s lo hi fuel hs hm hhi
    have hstar : s ≠ ['*'] := by
      intro e
      have := decimal_not_mem hs '*' (by decide) (by decide) (by decide)
      rw [e] at this
      simp at this
    have hf := parseField_single fuel s lo hi hstar
      (decimal_not_mem hs ',' (by decide) (by decide) (by decide))
    rw [parsePart_decimal fuel s lo hi [] hs hm] at hf
    by_cases hin : lo ≤ decimalVal s ∧ decimalVal s ≤ hi
    · have h1 : ¬ strconv.maxInt < decimalVal s := by omega
      have h2 : ¬ (decimalVal s < lo ∨ hi < decimalVal s) := by omega
      rw [if_neg h1, if_neg h2] at hf
      simp only [] at hf
      refine ⟨⟨fun _ => hin, fun _ => ⟨_, hf⟩⟩, ?_, fun h => absurd hin h⟩
      intro f hfe v
      rw [hf] at hfe
      simp only [Option.some.injEq, Prod.mk.injEq, and_true] at hfe
      subst hfe
      rw [has_explicit]
      simp
    · have herr : ∃ err, parseField fuel s lo hi = some (fieldSet.zero, some err) := by
        by_cases h1 : strconv.maxInt < decimalVal s
        · rw [if_pos h1] at hf
          exact ⟨_, hf⟩
        · have h2 : decimalVal s < lo ∨ hi < decimalVal s := by omega
          rw [if_neg h1, if_pos h2] at hf
          exact ⟨_, hf⟩
      obtain ⟨err, he⟩ := herr
      refine ⟨⟨?_, fun h => absurd h hin⟩, ?_, fun _ => ⟨err, he⟩⟩
      · rintro ⟨f, hfe⟩
        rw [he] at hfe
        simp at hfe
      · intro f hfe
        rw [he] at hfe
        simp at hfe
  · intro s lo hi fuel hs hm
    have hstar : s ≠ ['*'] := by
      intro e
      have := decimal_not_mem hs '*' (by decide) (by decide) (by decide)
      rw [e] at this
      simp at this
    rw [parseField_single fuel s lo hi hstar
      (decimal_not_mem hs ',' (by decide) (by decide) (by decide)),
      parsePart_negative fuel s lo hi [] hs hm]
  · intro s hs
    refine ⟨fun hm => decimal_minus hs hm, ?_⟩
    rintro ⟨cs, e, _⟩
    rw [e]
    exact List.mem_cons_self _ _
  · intro s hs
    have hd := strconv.numeral_decimal hs
    have hnm : '-' ∉ s := numeral_not_mem hs '-' (by decide)
    refine ⟨hd.1, hnm, hd.2, by simpa [isDecimalInt] using hs, ?_, by simp [decimalVal],
      by simpa [isDecimalInt] using hs, by simp [decimalVal]⟩
    intro hmem
    rcases List.mem_cons.mp hmem with e | e
    · exact absurd e (by decide)
    · exact hnm e

/-- Witness of the amended C9 at the decimal integer `+30` over 0..59, which is
accepted with the single member 30. -/
theorem plain_number_term_witness :
    ((∃ f, parseField 0 "+30".toList 0 59 = some (f, none)) ↔
      ((0 : Int) ≤ decimalVal "+30".toList ∧ decimalVal "+30".toList ≤ 59)) ∧
    (∀ f, parseField 0 "+30".toList 0 59 = some (f, none) →
      ∀ v, f.has v = true ↔ v = decimalVal "+30".toList) ∧
    (¬ ((0 : Int) ≤ decimalVal "+30".toList ∧ decimalVal "+30".toList ≤ 59) →
      ∃ err, parseField 0 "+30".toList 0 59 = some (fieldSet.zero, some err)) :=
  plain_number_term.1 "+30".toList 0 59 0 (by decide) (by decide) (by decide)

/-- Counterexample to C10: both bounds of `0-9223372036854775807` are numerals,
but `parseField` does not succeed on it: the upper bound is the largest `int`, the
test `i <= end` of the loop always holds, and the loop never exits. -/
theorem range_to_largest_int_never_returns :
    isNumeral "0".toList = true ∧ isNumeral "9223372036854775807".toList = true ∧
    ∀ fuel : Nat, parseField fuel "0-9223372036854775807".toList 0 59 = none := by
  refine ⟨by decide, by decide, fun fuel => ?_⟩
  have hp : parsePart fuel "0-9223372036854775807".toList 0 59 [] = none := by
    have := parsePart_range fuel "0".toList "9223372036854775807".toList 0 59 []
      (by decide) (by decide)
    have e1 : strconv.Atoi "9223372036854775807".toList = (strconv.maxInt, none) := by decide
    have e0 : strconv.Atoi "0".toList = (0, none) := by decide
    rw [e1, e0] at this
    simp only [] at this
    rw [stepLoop_never_exits 1 fuel 0 [] (by decide)] at this
    exact this
  rw [parseField_single fuel _ 0 59 (by decide) (by decide), hp]

/-- C10, amended: a range term `A-B` with numerals on both sides, `B` below the
largest `int`, is accepted once the fuel covers the loop, and the predicate
accepts exactly the `v` with `A ≤ v ≤ B`, whatever `lo` and `hi` are (the range may
extend outside `lo .. hi`); a term with a `-` and no `/` that does not split
around `-` into two non-empty pieces is rejected as a bad range, as are `5-`, `-5`
and `1--3`. -/
theorem range_term_semantics :
    (∀ (a b : List Char) (lo hi : Int) (fuel : Nat), isNumeral a = true →
      isNumeral b = true → (numeralVal b : Int) < strconv.maxInt →
      ((numeralVal b : Int) - (numeralVal a : Int) + 1).toNat ≤ fuel →
      ∃ f, parseField fuel (a ++ '-' :: b) lo hi = some (f, none) ∧
        ∀ v, f.has v = true ↔ ((numeralVal a : Int) ≤ v ∧ v ≤ (numeralVal b : Int))) ∧
    (∀ (part : List Char) (lo hi : Int) (fuel : Nat), '/' ∉ part → ',' ∉ part →
      '-' ∈ part → (∀ r0 r1, strings.Split part '-' = [r0, r1] → r0 = [] ∨ r1 = []) →
      parseField fuel part lo hi = some (fieldSet.zero, some (.badRange part))) ∧
    (∀ fuel : Nat,
      parseField fuel "5-".toList 0 59 = some (fieldSet.zero, some (.badRange "5-".toList)) ∧
      parseField fuel "-5".toList 0 59 = some (fieldSet.zero, some (.badRange "-5".toList)) ∧
      parseField fuel "1--3".toList 0 59
        = some (fieldSet.zero, some (.badRange "1--3".toList))) := by
  refine ⟨?_, ?_, fun fuel => ⟨parseField_of_zero fuel _ 0 59 _ (by decide),
    parseField_of_zero fuel _ 0 59 _ (by decide), parseField_of_zero fuel _ 0 59 _ (by decide)⟩⟩
  · intro a b lo hi fuel ha hb hlt hf
    have hva := strconv.Atoi_numeral_val ha
    have hvb := strconv.Atoi_numeral hb (show (numeralVal b : Int) ≤ strconv.maxInt by omega)
    have hmin : strconv.minInt ≤ (strconv.Atoi a).1 := by
      rw [hva]
      unfold strconv.minInt strconv.maxInt
      omega
    have hne : a ++ '-' :: b ≠ ['*'] := by
      intro he
      have : '-' ∈ a ++ '-' :: b := by simp
      rw [he] at this
      simp at this
    have hcomma : ',' ∉ a ++ '-' :: b := by
      simp only [List.mem_append, List.mem_cons, not_or]
      exact ⟨numeral_not_mem ha ',' (by decide), by decide, numeral_not_mem hb ',' (by decide)⟩
    obtain ⟨vals1, h1, h2⟩ := stepLoop_spec (numeralVal b : Int) 1 (by norm_num) (by omega) fuel
      (strconv.Atoi a).1 [] hmin (by rw [hva]; omega)
    refine ⟨⟨false, some vals1⟩, ?_, fun v => ?_⟩
    · rw [parseField_single fuel _ lo hi hne hcomma, parsePart_range fuel a b lo hi [] ha hb,
        hvb]
      simp only []
      rw [h1]
      rfl
    · rw [has_explicit, h2, hva]
      simp only [List.not_mem_nil, false_or, Int.emod_one, and_true]
      by_cases hbig : (numeralVal a : Int) ≤ strconv.maxInt
      · rw [min_eq_left hbig]
      · rw [min_eq_right (by omega)]
        constructor
        · intro h; omega
        · intro h; omega
  · intro part lo hi fuel h1 h2 h3 h4
    have hne : part ≠ ['*'] := by
      intro he
      rw [he] at h3
      simp at h3
    rw [parseField_single fuel part lo hi hne h2, parsePart_bad_range fuel part lo hi [] h1 h3 h4]

/-- Witness of the amended C10: `9-17` over 0..23, and the missing bound of `5-`. -/
theorem range_term_semantics_witness :
    (∃ f, parseField 9 "9-17".toList 0 23 = some (f, none) ∧
      ∀ v, f.has v = true ↔
        ((numeralVal "9".toList : Int) ≤ v ∧ v ≤ (numeralVal "17".toList : Int))) ∧
    parseField 0 "5-".toList 0 59 = some (fieldSet.zero, some (.badRange "5-".toList)) :=
  ⟨range_term_semantics.1 "9".toList "17".toList 0 23 9 (by decide) (by decide) (by decide)
      (by decide),
    range_term_semantics.2.1 "5-".toList 0 59 0 (by decide) (by decide) (by decide)
      (by
        intro r0 r1 h
        have e : strings.Split "5-".toList '-' = ["5".toList, []] := by decide
        rw [e] at h
        simp only [List.cons.injEq, and_true] at h
        exact Or.inr h.2.symm)⟩

/-! ## Termination of the search -/

/-- From a whole-minute candidate at or before a whole minute `m` that the
schedule matches, the loop returns within one pass per minute up to `m`. -/
theorem nextLoop_terminates (e : Expression) (fuel : Nat) :
    ∀ t m : Int, t % time.Minute = 0 → m % time.Minute = 0 → t ≤ m →
      e.matchesAt m = true → ((m - t) / time.Minute).toNat ≤ fuel →
      ∃ r, e.nextLoop fuel t = some r ∧ r ≤ m := by
  induction fuel with
  | zero =>
    intro t m ht hm hle hmatch hf
    have htm : t = m := by
      unfold time.Minute at ht hm hf
      omega
    subst htm
    have ha := (advance_eq_none e t).mpr hmatch
    exact ⟨t, by simp [Expression.nextLoop, ha], le_refl _⟩
  | succ n ih =>
    intro t m ht hm hle hmatch hf
    cases ha : e.advance t with
    | none => exact ⟨t, by simp [Expression.nextLoop, ha], hle⟩
    | some t1 =>
      obtain ⟨b1, b2, b3⟩ := advance_some e t t1 ht ha
      have h1 : t1 ≤ m := by
        by_contra hc
        have := b3 m hle (by omega)
        rw [hmatch] at this
        exact Bool.noConfusion this
      have hf1 : ((m - t1) / time.Minute).toNat ≤ n := by
        unfold time.Minute at ht hm hf b2 ⊢
        omega
      obtain ⟨r, hr, hrm⟩ := ih t1 m b2 hm h1 hmatch hf1
      exact ⟨r, by simp [Expression.nextLoop, ha, hr], hrm⟩

/-- When a whole minute `m` after `after` is matched, `Next` returns within
one pass of the loop per minute from `after` to `m`. -/
theorem Next_terminates (e : Expression) (after m : Int) (h1 : after < m)
    (h2 : m % time.Minute = 0) (h3 : e.matchesAt m = true) (fuel : Nat)
    (hf : ((m - after) / time.Minute).toNat ≤ fuel) :
    ∃ r, e.Next fuel after = some r ∧ r ≤ m := by
  unfold Expression.Next
  apply nextLoop_terminates e fuel _ m _ h2 _ h3
  · unfold Time.Add Time.Truncate time.Minute at *
    omega
  · unfold Time.Add Time.Truncate time.Minute
    omega
  · unfold Time.Add Time.Truncate time.Minute at *
    omega

/-- When the schedule matches no instant the loop never returns. -/
theorem nextLoop_never_returns (e : Expression) (h : ∀ u, e.matchesAt u = false)
    (fuel : Nat) : ∀ t : Int, e.nextLoop fuel t = none := by
  have hadv : ∀ t, ∃ t1, e.advance t = some t1 := by
    intro t
    cases ha : e.advance t with
    | none =>
      have := (advance_eq_none e t).mp ha
      rw [h t] at this
      exact Bool.noConfusion this
    | some t1 => exact ⟨t1, rfl⟩
  induction fuel with
  | zero =>
    intro t
    obtain ⟨t1, h1⟩ := hadv t
    simp [Expression.nextLoop, h1]
  | succ n ih =>
    intro t
    obtain ⟨t1, h1⟩ := hadv t
    simp [Expression.nextLoop, h1, ih t1]

/-- An explicit predicate without keys accepts nothing. -/
theorem has_empty (v : Int) : (fieldSet.ofList []).has v = false := by
  simp [fieldSet.has, fieldSet.ofList]

/-! ## The calendar: from a date to its instant and back -/

namespace Time

/-- The fields of the instant `time.Date` builds from a date of the calendar and
a time of day are that date and that time of day. -/
theorem civil_of_Date (y mo d h mi : Int) (hm1 : 1 ≤ mo) (hm2 : mo ≤ 12) (hd1 : 1 ≤ d)
    (hd2 : d ≤ time.monthOffset (time.isLeap y) (mo + 1) - time.monthOffset (time.isLeap y) mo)
    (hh1 : 0 ≤ h) (hh2 : h < 24) (hi1 : 0 ≤ mi) (hi2 : mi < 60) :
    Year (time.Date y mo d h mi) = y ∧ Month (time.Date y mo d h mi) = mo ∧
      Day (time.Date y mo d h mi) = d ∧ Hour (time.Date y mo d h mi) = h ∧
      Minute (time.Date y mo d h mi) = mi := by
  have hdate := time.Date_eq y mo d h mi
  have e1 : (mo - 1) / 12 = 0 := by omega
  have e2 : (mo - 1) % 12 + 1 = mo := by omega
  rw [e1, e2, add_zero] at hdate
  obtain ⟨D, hD⟩ :
      ∃ D, D = time.daysSinceEpoch y + time.monthOffset (time.isLeap y) mo + d - 1 := ⟨_, rfl⟩
  rw [← hD] at hdate
  have habs : absDays (time.Date y mo d h mi) = D := by
    rw [hdate]
    unfold absDays time.nsPerDay time.Hour time.Minute
    omega
  have hoff0 : 0 ≤ time.monthOffset (time.isLeap y) mo := by
    have := time.monthOffset_mono (time.isLeap y) (le_refl 1) hm1 (by omega)
    rw [time.monthOffset_one] at this
    exact this
  have hoff13 := time.monthOffset_mono (time.isLeap y) (show 1 ≤ mo + 1 by omega)
    (show mo + 1 ≤ 13 by omega) (le_refl _)
  rw [time.monthOffset_thirteen] at hoff13
  have hsucc := time.daysSinceEpoch_succ y
  have hyear : Year (time.Date y mo d h mi) = y := by
    unfold Year
    rw [habs]
    exact yearDay_unique D y (by omega) (by omega)
  obtain ⟨c1, c2, c3, c4, c5⟩ := civil_spec (time.Date y mo d h mi)
  unfold nextMonthDay at c5
  rw [hyear, habs] at c4 c5
  have hmonth : Month (time.Date y mo d h mi) = mo := by
    rcases lt_trichotomy (Month (time.Date y mo d h mi)) mo with hlt | heq | hgt
    · have := time.monthOffset_mono (time.isLeap y)
        (show 1 ≤ Month (time.Date y mo d h mi) + 1 by omega)
        (show Month (time.Date y mo d h mi) + 1 ≤ mo by omega) (by omega)
      omega
    · exact heq
    · have := time.monthOffset_mono (time.isLeap y) (show 1 ≤ mo + 1 by omega)
        (show mo + 1 ≤ Month (time.Date y mo d h mi) by omega) (by omega)
      omega
  rw [hmonth] at c4
  refine ⟨hyear, hmonth, by omega, ?_, ?_⟩
  · rw [hdate]
    unfold Hour time.nsPerDay time.Hour time.Minute
    omega
  · rw [hdate]
    unfold Minute time.nsPerDay time.Hour time.Minute
    omega

/-- February has at most 29 days: no instant lies on a 30th or 31st of
February. -/
theorem february_day_le (u : Int) (h : Month u = 2) : Day u ≤ 29 := by
  obtain ⟨c1, c2, c3, c4, c5⟩ := civil_spec u
  unfold nextMonthDay at c5
  rw [h] at c4 c5
  have h2 : time.monthOffset (time.isLeap (Year u)) 2 = 31 := by
    cases time.isLeap (Year u) <;> rfl
  have h3 : time.monthOffset (time.isLeap (Year u)) (2 + 1) ≤ 60 := by
    cases time.isLeap (Year u) <;> decide
  omega

/-- After every instant there is a first of February at midnight: the one of
the next year. -/
theorem february_after (t : Int) :
    t < time.Date (Year t + 1) 2 1 0 0 ∧ time.Date (Year t + 1) 2 1 0 0 % time.Minute = 0 ∧
      Month (time.Date (Year t + 1) 2 1 0 0) = 2 ∧ Day (time.Date (Year t + 1) 2 1 0 0) = 1 ∧
      Hour (time.Date (Year t + 1) 2 1 0 0) = 0 ∧
      Minute (time.Date (Year t + 1) 2 1 0 0) = 0 := by
  have hd2 : (1 : Int) ≤ time.monthOffset (time.isLeap (Year t + 1)) (2 + 1)
      - time.monthOffset (time.isLeap (Year t + 1)) 2 := by
    cases time.isLeap (Year t + 1) <;> decide
  obtain ⟨_, r2, r3, r4, r5⟩ := civil_of_Date (Year t + 1) 2 1 0 0 (by norm_num) (by norm_num)
    (le_refl _) hd2 (le_refl _) (by norm_num) (le_refl _) (by norm_num)
  refine ⟨?_, ?_, r2, r3, r4, r5⟩
  · have hdate := time.Date_eq (Year t + 1) 2 1 0 0
    obtain ⟨c1, c2, c3, c4, c5⟩ := civil_spec t
    have hle := nextMonthDay_le t
    have hoff :
        time.monthOffset (time.isLeap (Year t + 1 + (2 - 1) / 12)) ((2 - 1) % 12 + 1) = 31 := by
      cases time.isLeap (Year t + 1 + (2 - 1) / 12) <;> rfl
    have e1 : Year t + 1 + (2 - 1) / 12 = Year t + 1 := by norm_num
    rw [hoff, e1] at hdate
    rw [hdate]
    unfold absDays time.nsPerDay at c5
    unfold time.nsPerDay time.Hour time.Minute
    omega
  · rw [time.Date_eq]
    unfold time.nsPerDay time.Hour time.Minute
    omega

end Time

/-! ## Claims about membership, termination and monotonicity -/

/-- C12: for every `lo`, `hi`, `parseField` of `*` succeeds with the universal
marker and no explicit set, and `has` on it is true for every integer, whatever
`lo` and `hi` are; for a predicate that is not universal `has v` is true if and
only if `v` is in the explicit set. -/
theorem universal_marker_and_membership :
    (∀ (lo hi : Int) (fuel : Nat),
      parseField fuel "*".toList lo hi = some (⟨true, none⟩, none)) ∧
    (∀ v : Int, (fieldSet.mk true none).has v = true) ∧
    (∀ (f : fieldSet) (v : Int), f.all = true → f.has v = true) ∧
    (∀ (f : fieldSet) (v : Int), f.all = false →
      (f.has v = true ↔ ∃ m, f.vals = some m ∧ v ∈ m)) := by
  refine ⟨fun lo hi fuel => by simp [parseField], fun v => by simp [fieldSet.has],
    fun f v h => by simp [fieldSet.has, h], ?_⟩
  intro f v h
  rcases f with ⟨a, _ | m⟩
  · simp only at h
    subst h
    simp [fieldSet.has]
  · simp only at h
    subst h
    simp [fieldSet.has]

/-- Witness of C12: the test predicate with keys 1 and 5 has 1 and not 2, and
the universal predicate has 42. -/
theorem universal_marker_and_membership_witness :
    ((fieldSet.mk false (some [1, 5])).has 1 = true ↔
      ∃ m, (fieldSet.mk false (some [1, 5])).vals = some m ∧ (1 : Int) ∈ m) ∧
    ((fieldSet.mk false (some [1, 5])).has 2 = true ↔
      ∃ m, (fieldSet.mk false (some [1, 5])).vals = some m ∧ (2 : Int) ∈ m) ∧
    (fieldSet.mk true none).has 42 = true :=
  ⟨universal_marker_and_membership.2.2.2 ⟨false, some [1, 5]⟩ 1 rfl,
    universal_marker_and_membership.2.2.2 ⟨false, some [1, 5]⟩ 2 rfl,
    universal_marker_and_membership.2.2.1 ⟨true, none⟩ 42 rfl⟩

/-- C15: if some whole-minute instant `m` later than `t` matches the schedule
(month, hour and minute predicates hold, and day-of-month or day-of-week holds),
the search loop of `Next` at `t` returns after at most one pass per minute
between `t` and `m`, with a result no later than `m`. This holds for every
`Expression`, in particular for those `Parse` returns. -/
theorem Next_returns_when_satisfiable (e : Expression) (t m : Int) (h1 : t < m)
    (h2 : m % time.Minute = 0) (h3 : e.matchesAt m = true) :
    ∀ fuel : Nat, ((m - t) / time.Minute).toNat ≤ fuel →
      ∃ r, e.Next fuel t = some r ∧ t < r ∧ r ≤ m := by
  intro fuel hf
  obtain ⟨r, hr, hle⟩ := Next_terminates e t m h1 h2 h3 fuel hf
  exact ⟨r, hr, (Next_spec e fuel t r hr).1, hle⟩

/-- Witness of C15: `0 0 * * 1` matches Monday 2025-11-03T00:00Z, a week and a
day (11520 minutes) after 2025-10-26T00:00Z. -/
theorem Next_returns_when_satisfiable_witness :
    ∃ r, mondayMidnight.Next 11520 (time.Date 2025 10 26 0 0) = some r ∧
      time.Date 2025 10 26 0 0 < r ∧ r ≤ time.Date 2025 11 3 0 0 :=
  Next_returns_when_satisfiable mondayMidnight (time.Date 2025 10 26 0 0)
    (time.Date 2025 11 3 0 0) (by decide) (by decide) (by decide) 11520 (by decide)

/-- C19: `Next` is monotone in its reference time: for `a ≤ b` on which both calls
return, the result for `a` is no later than the result for `b`; and when
`a ≤ b` and `b` is before the result `ra` for `a`, `Next` at `b` returns `ra` too,
within one pass per minute between `b` and `ra`. -/
theorem Next_monotone (e : Expression) (a b : Int) (hab : a ≤ b) :
    (∀ (fa fb : Nat) (ra rb : Int), e.Next fa a = some ra → e.Next fb b = some rb →
      ra ≤ rb) ∧
    (∀ (fa : Nat) (ra : Int), e.Next fa a = some ra → b < ra →
      ∀ fuel : Nat, ((ra - b) / time.Minute).toNat ≤ fuel → e.Next fuel b = some ra) := by
  constructor
  · intro fa fb ra rb ha hb
    obtain ⟨_, _, _, a4⟩ := Next_spec e fa a ra ha
    obtain ⟨b1, b2, b3, _⟩ := Next_spec e fb b rb hb
    by_contra hc
    have := a4 rb (by omega) (by omega) b2
    rw [b3] at this
    exact Bool.noConfusion this
  · intro fa ra ha hlt fuel hf
    obtain ⟨_, a2, a3, a4⟩ := Next_spec e fa a ra ha
    obtain ⟨r, hr, hle⟩ := Next_terminates e b ra hlt a2 a3 fuel hf
    obtain ⟨b1, b2, b3, _⟩ := Next_spec e fuel b r hr
    have : r = ra := by
      by_contra hne
      have := a4 r (by omega) (by omega) b2
      rw [b3] at this
      exact Bool.noConfusion this
    rw [hr, this]

/-- Witness of C19 at `*/5 * * * *`, 10:07 and 10:08 on 2025-10-26: both give
10:10. -/
theorem Next_monotone_witness :
    (∀ (fa fb : Nat) (ra rb : Int),
      everyFiveMinutes.Next fa (time.Date 2025 10 26 10 7) = some ra →
      everyFiveMinutes.Next fb (time.Date 2025 10 26 10 8) = some rb → ra ≤ rb) ∧
    everyFiveMinutes.Next 2 (time.Date 2025 10 26 10 8)
      = some (time.Date 2025 10 26 10 10) :=
  have h := Next_monotone everyFiveMinutes (time.Date 2025 10 26 10 7)
    (time.Date 2025 10 26 10 8) (by decide)
  ⟨h.1, h.2 3 (time.Date 2025 10 26 10 10) (by decide) (by decide) 2 (by decide)⟩

/-- C20: `Parse` accepts schedules whose minute predicate is empty: `5-3 * * * *`
(a descending range) and `70/5 * * * *` (a step whose base exceeds 59) are parsed,
the minute predicate accepts no integer, and for the resulting expression `Next`
returns for no reference time, whatever the fuel. -/
theorem empty_minute_predicate_never_returns :
    (∀ fuel : Nat, Parse fuel "5-3 * * * *".toList = some (neverMinute, none)) ∧
    (∀ fuel : Nat, Parse fuel "70/5 * * * *".toList = some (neverMinute, none)) ∧
    (∀ v : Int, neverMinute.minutes.has v = false) ∧
    (∀ (fuel : Nat) (t : Int), neverMinute.Next fuel t = none) := by
  refine ⟨fun fuel => Parse_of_zero fuel _ _ (by decide),
    fun fuel => Parse_of_zero fuel _ _ (by decide), fun v => has_empty v, ?_⟩
  intro fuel t
  unfold Expression.Next
  apply nextLoop_never_returns
  intro u
  apply matchesAt_false_of_minute
  exact has_empty _

/-! ## The bare term `*` and the errors of `Parse` -/

/-- The bare term `*` inside the loop over the terms is read as a number and
rejected. -/
theorem parsePart_star (fuel : Nat) (lo hi : Int) (vals : List Int) :
    parsePart fuel ['*'] lo hi vals = some (.error (.invalidNumber ['*'])) := by
  have c1 : strings.Contains ['*'] '/' = false := by decide
  have c2 : strings.Contains ['*'] '-' = false := by decide
  have c3 : strconv.Atoi ['*'] = (0, some .ErrSyntax) := by decide
  unfold parsePart
  simp [c1, c2, c3]

/-- What `parseField` returns does not depend on the fuel, once it returns. -/
theorem parseField_fuel_irrelevant (f1 f2 : Nat) (s : List Char) (lo hi : Int)
    (r1 r2 : fieldSet × Option ParseError) (h1 : parseField f1 s lo hi = some r1)
    (h2 : parseField f2 s lo hi = some r2) : r1 = r2 := by
  rcases Nat.le_total f1 f2 with h | h
  · obtain ⟨k, hk⟩ := Nat.exists_eq_add_of_le h
    have := parseField_mono f1 s lo hi r1 k h1
    rw [← hk, h2] at this
    exact (Option.some.inj this).symm
  · obtain ⟨k, hk⟩ := Nat.exists_eq_add_of_le h
    have := parseField_mono f2 s lo hi r2 k h2
    rw [← hk, h1] at this
    exact Option.some.inj this

/-! ## Claims about errors and special terms -/

/-- C13 fails on the code: when a field after the first is rejected, `Parse`
returns the error together with the expression filled so far, not the empty
expression. For `5 x * * *` the hour is rejected and the expression returned
holds the minute predicate with key 5. The path for a wrong field count returns
the empty expression, and `parseField` returns the empty predicate with every
error. -/
theorem Parse_error_returns_partial_expression :
    (∀ fuel : Nat, Parse fuel "5 x * * *".toList
      = some (⟨.ofList [5], fieldSet.zero, fieldSet.zero, fieldSet.zero, fieldSet.zero⟩,
          some (.inField "hour" (.invalidNumber "x".toList)))) ∧
    (⟨.ofList [5], fieldSet.zero, fieldSet.zero, fieldSet.zero, fieldSet.zero⟩ : Expression)
      ≠ Expression.zero ∧
    (⟨.ofList [5], fieldSet.zero, fieldSet.zero, fieldSet.zero,
      fieldSet.zero⟩ : Expression).minutes.has 5 = true ∧
    (∀ fuel : Nat, Parse fuel "* * * *".toList
      = some (Expression.zero, some (.fieldCount 4))) ∧
    (∀ fuel : Nat, parseField fuel "5,x".toList 0 59
      = some (fieldSet.zero, some (.invalidNumber "x".toList))) :=
  ⟨fun fuel => Parse_of_zero fuel _ _ (by decide), by decide, by decide,
    fun fuel => Parse_of_zero fuel _ _ (by decide),
    fun fuel => parseField_of_zero fuel _ 0 59 _ (by decide)⟩

/-- Counterexample to C14: in `0-9223372036854775807 x * * *` the hour field `x`
is rejected by `parseField` and no field to its left is, yet `Parse` returns no
error naming the hour: the minute field, a range up to the largest `int`, keeps
`parseField` in its loop, and `Parse` never returns. -/
theorem Parse_does_not_reach_rejected_field :
    strings.Fields "0-9223372036854775807 x * * *".toList
      = ["0-9223372036854775807".toList, "x".toList, "*".toList, "*".toList, "*".toList] ∧
    (∀ fuel : Nat, parseField fuel "x".toList 0 23
      = some (fieldSet.zero, some (.invalidNumber "x".toList))) ∧
    (∀ fuel : Nat, parseField fuel "0-9223372036854775807".toList 0 59 = none) ∧
    (∀ fuel : Nat, Parse fuel "0-9223372036854775807 x * * *".toList = none) := by
  have hp : ∀ fuel : Nat, parseField fuel "0-9223372036854775807".toList 0 59 = none := by
    intro fuel
    have hpart : parsePart fuel "0-9223372036854775807".toList 0 59 [] = none := by
      have := parsePart_range fuel "0".toList "9223372036854775807".toList 0 59 []
        (by decide) (by decide)
      have e1 : strconv.Atoi "9223372036854775807".toList = (strconv.maxInt, none) := by
        decide
      have e0 : strconv.Atoi "0".toList = (0, none) := by decide
      rw [e1, e0] at this
      simp only [] at this
      rw [stepLoop_never_exits 1 fuel 0 [] (by decide)] at this
      exact this
    rw [parseField_single fuel _ 0 59 (by decide) (by decide), hpart]
  refine ⟨by decide, fun fuel => parseField_of_zero fuel _ 0 23 _ (by decide), hp, ?_⟩
  intro fuel
  have hf : strings.Fields "0-9223372036854775807 x * * *".toList
      = ["0-9223372036854775807".toList, "x".toList, "*".toList, "*".toList, "*".toList] := by
    decide
  unfold Parse
  rw [hf]
  simp only [hp fuel]

/-- C14, amended: in a five-field text, when `parseField` rejects a field and
accepts every field to its left, the error of `Parse` names that field: it is
the field's name (minute, hour, day, month or weekday), then `": "`, then the
message of the error `parseField` returned for the field, whatever the fields to
its right are. For `100 x * * *` the error names the minute although the hour is
invalid too. -/
theorem Parse_error_names_leftmost_rejected (fuel : Nat) (s p0 p1 p2 p3 p4 : List Char)
    (hf : strings.Fields s = [p0, p1, p2, p3, p4]) :
    (∀ f err, parseField fuel p0 0 59 = some (f, some err) →
      Parse fuel s = some (⟨f, fieldSet.zero, fieldSet.zero, fieldSet.zero, fieldSet.zero⟩,
        some (.inField "minute" err))) ∧
    (∀ f0 f err, parseField fuel p0 0 59 = some (f0, none) →
      parseField fuel p1 0 23 = some (f, some err) →
      Parse fuel s = some (⟨f0, f, fieldSet.zero, fieldSet.zero, fieldSet.zero⟩,
        some (.inField "hour" err))) ∧
    (∀ f0 f1 f err, parseField fuel p0 0 59 = some (f0, none) →
      parseField fuel p1 0 23 = some (f1, none) →
      parseField fuel p2 1 31 = some (f, some err) →
      Parse fuel s = some (⟨f0, f1, f, fieldSet.zero, fieldSet.zero⟩,
        some (.inField "day" err))) ∧
    (∀ f0 f1 f2 f err, parseField fuel p0 0 59 = some (f0, none) →
      parseField fuel p1 0 23 = some (f1, none) →
      parseField fuel p2 1 31 = some (f2, none) →
      parseField fuel p3 1 12 = some (f, some err) →
      Parse fuel s = some (⟨f0, f1, f2, f, fieldSet.zero⟩, some (.inField "month" err))) ∧
    (∀ f0 f1 f2 f3 f err, parseField fuel p0 0 59 = some (f0, none) →
      parseField fuel p1 0 23 = some (f1, none) →
      parseField fuel p2 1 31 = some (f2, none) →
      parseField fuel p3 1 12 = some (f3, none) →
      parseField fuel p4 0 6 = some (f, some err) →
      Parse fuel s = some (⟨f0, f1, f2, f3, f⟩, some (.inField "weekday" err))) ∧
    (∀ (quote : List Char → String) (name : String) (err : ParseError),
      (ParseError.inField name err).message quote = name ++ ": " ++ err.message quote) ∧
    (∀ fuel1 : Nat, Parse fuel1 "100 x * * *".toList
      = some (Expression.zero, some (.inField "minute" (.outOfRange 100 0 59)))) := by
  refine ⟨?_, ?_, ?_, ?_, ?_, fun quote name err => rfl,
    fun fuel1 => Parse_of_zero fuel1 _ _ (by decide)⟩
  · intro f err h0
    unfold Parse
    rw [hf]
    simp only [h0]
    rfl
  · intro f0 f err h0 h1
    unfold Parse
    rw [hf]
    simp only [h0, h1]
    rfl
  · intro f0 f1 f err h0 h1 h2
    unfold Parse
    rw [hf]
    simp only [h0, h1, h2]
    rfl
  · intro f0 f1 f2 f err h0 h1 h2 h3
    unfold Parse
    rw [hf]
    simp only [h0, h1, h2, h3]
    rfl
  · intro f0 f1 f2 f3 f err h0 h1 h2 h3 h4
    unfold Parse
    rw [hf]
    simp only [h0, h1, h2, h3, h4]

/-- Witness of the amended C14: in `5 x * * 9` the hour is the leftmost rejected
field, and the error names it although the weekday is out of range too. -/
theorem Parse_error_names_leftmost_rejected_witness :
    Parse 0 "5 x * * 9".toList
      = some (⟨.ofList [5], fieldSet.zero, fieldSet.zero, fieldSet.zero, fieldSet.zero⟩,
          some (.inField "hour" (.invalidNumber "x".toList))) :=
  (Parse_error_names_leftmost_rejected 0 "5 x * * 9".toList "5".toList "x".toList
    "*".toList "*".toList "9".toList (by decide)).2.1 (.ofList [5]) fieldSet.zero
    (.invalidNumber "x".toList) (by decide) (by decide)

/-- Counterexample to C16: for `0 0 31 2 *` the search returns. The day-of-week
field is universal, so every day passes the day check, and `Next` at
2025-01-31T00:00Z returns 2025-02-01T00:00Z, as the test expects. -/
theorem february_31_schedule_returns :
    Parse 0 "0 0 31 2 *".toList = some (thirtyFirstOfFebruary, none) ∧
    thirtyFirstOfFebruary.Next 1 (time.Date 2025 1 31 0 0)
      = some (time.Date 2025 2 1 0 0) := by
  decide

/-- C16, amended: for `0 0 31 2 *` the day-of-week field is universal, so the
day-of-month 31 restricts nothing and `Next` returns for every reference time
`t`, given enough fuel: its result is the first midnight of a day of February
after `t`, on a whole minute, never a 31st of February; at 2025-01-31T00:00Z it is
2025-02-01T00:00Z. -/
theorem february_31_schedule :
    (∀ fuel : Nat, Parse fuel "0 0 31 2 *".toList = some (thirtyFirstOfFebruary, none)) ∧
    (∀ t : Int, ∃ r : Int,
      (∃ fuel0 : Nat, ∀ k : Nat, thirtyFirstOfFebruary.Next (fuel0 + k) t = some r) ∧
      t < r ∧ r % time.Minute = 0 ∧ Time.Month r = 2 ∧ Time.Day r ≤ 29 ∧
      Time.Hour r = 0 ∧ Time.Minute r = 0 ∧
      ∀ m : Int, t < m → m < r → m % time.Minute = 0 →
        ¬ (Time.Month m = 2 ∧ Time.Hour m = 0 ∧ Time.Minute m = 0)) ∧
    (∀ k : Nat, thirtyFirstOfFebruary.Next (1 + k) (time.Date 2025 1 31 0 0)
      = some (time.Date 2025 2 1 0 0)) := by
  have hmatch : ∀ u : Int, thirtyFirstOfFebruary.matchesAt u = true ↔
      (Time.Month u = 2 ∧ Time.Hour u = 0 ∧ Time.Minute u = 0) := by
    intro u
    simp [Expression.matchesAt, thirtyFirstOfFebruary, fieldSet.has, fieldSet.ofList,
      fieldSet.star]
    tauto
  refine ⟨fun fuel => Parse_of_zero fuel _ _ (by decide), ?_,
    fun k => nextLoop_mono _ 1 _ _ k (by decide)⟩
  intro t
  obtain ⟨g1, g2, g3, g4, g5, g6⟩ := Time.february_after t
  have hm := (hmatch (time.Date (Time.Year t + 1) 2 1 0 0)).mpr ⟨g3, g5, g6⟩
  obtain ⟨r, hr, _⟩ := Next_terminates thirtyFirstOfFebruary t _ g1 g2 hm _ (le_refl _)
  obtain ⟨s1, s2, s3, s4⟩ := Next_spec _ _ t r hr
  have hfields := (hmatch r).mp s3
  refine ⟨r, ⟨_, fun k => nextLoop_mono _ _ _ _ k hr⟩, s1, s2, hfields.1,
    Time.february_day_le r hfields.1, hfields.2.1, hfields.2.2, ?_⟩
  intro m a1 a2 a3 hc
  have := s4 m a1 a2 a3
  rw [(hmatch m).mpr hc] at this
  exact Bool.noConfusion this

/-- Witness of the amended C16 at the reference time of the test,
2025-01-31T00:00Z: the search returns a midnight of February after it. -/
theorem february_31_schedule_witness :
    ∃ r : Int,
      (∃ fuel0 : Nat, ∀ k : Nat,
        thirtyFirstOfFebruary.Next (fuel0 + k) (time.Date 2025 1 31 0 0) = some r) ∧
      time.Date 2025 1 31 0 0 < r ∧ r % time.Minute = 0 ∧ Time.Month r = 2 ∧
      Time.Day r ≤ 29 ∧ Time.Hour r = 0 ∧ Time.Minute r = 0 ∧
      ∀ m : Int, time.Date 2025 1 31 0 0 < m → m < r → m % time.Minute = 0 →
        ¬ (Time.Month m = 2 ∧ Time.Hour m = 0 ∧ Time.Minute m = 0) :=
  february_31_schedule.2.1 (time.Date 2025 1 31 0 0)

/-- Counterexample to C18: the field text `*,5` lists the term `*` with the valid
term `5`, and `parseField` rejects it: inside the list `*` is read as a number. -/
theorem star_in_list_rejected :
    parseField 0 "*,5".toList 0 59
      = some (fieldSet.zero, some (.invalidNumber "*".toList)) ∧
    (∀ fuel : Nat, parseField fuel "*,5".toList 0 59
      = some (fieldSet.zero, some (.invalidNumber "*".toList))) ∧
    parseField 0 "5".toList 0 59 = some (⟨false, some [5]⟩, none) :=
  ⟨by decide, fun fuel => parseField_of_zero fuel _ 0 59 _ (by decide), by decide⟩

/-- C18, amended: the term `*` is accepted only as the whole field text, where it
gives the universal marker, and as the base of a step term; a comma-separated
list of two or more terms one of which is the bare `*` is never accepted, and
`parseField` returns an error for it whenever the terms before the `*` are
processed to completion, the error `invalid number "*"` when they are accepted
(so when `*` comes first). -/
theorem star_only_as_whole_field :
    (∀ (s : List Char) (lo hi : Int) (pre post : List (List Char)),
      strings.Split s ',' = pre ++ ['*'] :: post → (pre ≠ [] ∨ post ≠ []) →
      (∀ fuel f, parseField fuel s lo hi ≠ some (f, none)) ∧
      (∀ fuel, parseParts fuel lo hi pre [] ≠ none →
        ∃ err, parseField fuel s lo hi = some (fieldSet.zero, some err)) ∧
      (∀ fuel vals, parseParts fuel lo hi pre [] = some (.ok vals) →
        parseField fuel s lo hi = some (fieldSet.zero, some (.invalidNumber ['*'])))) ∧
    (∀ (lo hi : Int) (fuel : Nat),
      parseField fuel "*".toList lo hi = some (⟨true, none⟩, none)) ∧
    (∀ k : Nat, parseField (3 + k) "*/20,5".toList 0 59
      = some (⟨false, some [5, 40, 20, 0]⟩, none)) := by
  refine ⟨?_, fun lo hi fuel => by simp [parseField],
    fun k => parseField_mono 3 _ 0 59 _ k (by decide)⟩
  intro s lo hi pre post hsplit hne
  have hs : s ≠ ['*'] := by
    intro he
    subst he
    have h1 : strings.Split ['*'] ',' = [['*']] := by decide
    rw [h1] at hsplit
    have hlen := congrArg List.length hsplit
    simp only [List.length_cons, List.length_nil, List.length_append] at hlen
    rcases hne with h | h
    · cases pre with
      | nil => exact h rfl
      | cons a as => simp only [List.length_cons] at hlen; omega
    · cases post with
      | nil => exact h rfl
      | cons a as => simp only [List.length_cons] at hlen; omega
  have hrej : ∀ fuel vals, ∃ err, parsePart fuel ['*'] lo hi vals = some (.error err) :=
    fun fuel vals => ⟨_, parsePart_star fuel lo hi vals⟩
  have key := fun fuel => parseParts_rejected_term fuel lo hi pre post ['*'] (hrej fuel)
  refine ⟨?_, ?_, ?_⟩
  · intro fuel f hf
    unfold parseField at hf
    rw [if_neg hs, hsplit] at hf
    rcases hp : parseParts fuel lo hi (pre ++ ['*'] :: post) [] with _ | (err | vals1)
    · rw [hp] at hf; simp at hf
    · rw [hp] at hf; simp at hf
    · exact (key fuel).1 vals1 hp
  · intro fuel hpre
    obtain ⟨err, he⟩ := (key fuel).2 hpre
    refine ⟨err, ?_⟩
    unfold parseField
    rw [if_neg hs, hsplit, he]
  · intro fuel vals hpre
    unfold parseField
    rw [if_neg hs, hsplit, parseParts_append, hpre]
    simp only [parseParts, parsePart_star]

/-- Witness of the amended C18: in `5,*` the bare `*` comes after the accepted
term `5`, and the field is rejected with the error about the number `*`. -/
theorem star_only_as_whole_field_witness :
    (∀ fuel f, parseField fuel "5,*".toList 0 59 ≠ some (f, none)) ∧
    (∀ fuel, parseParts fuel 0 59 ["5".toList] [] ≠ none →
      ∃ err, parseField fuel "5,*".toList 0 59 = some (fieldSet.zero, some err)) ∧
    (∀ fuel vals, parseParts fuel 0 59 ["5".toList] [] = some (.ok vals) →
      parseField fuel "5,*".toList 0 59
        = some (fieldSet.zero, some (.invalidNumber ['*']))) :=
  star_only_as_whole_field.1 "5,*".toList 0 59 ["5".toList] [] (by decide)
    (Or.inl (by decide))

/-! ## Members and bounds -/

/-- When the counter cannot overflow, what the loop adds lies between the start
and the upper bound. -/
theorem stepLoop_members (stop step : Int) (hs : 0 < step)
    (hov : stop + step ≤ strconv.maxInt) (fuel : Nat) :
    ∀ (i : Int) (vals r : List Int), strconv.minInt ≤ i →
      stepLoop stop step fuel i vals = some r →
      ∀ v ∈ r, v ∈ vals ∨ (i ≤ v ∧ v ≤ stop) := by
  induction fuel with
  | zero =>
    intro i vals r hi h v hv
    by_cases hle : i ≤ stop
    · simp [stepLoop, hle] at h
    · simp only [stepLoop, hle, if_false, Option.some.injEq] at h
      subst h
      exact Or.inl hv
  | succ n ih =>
    intro i vals r hi h v hv
    by_cases hle : i ≤ stop
    · have hw : wrap64 (i + step) = i + step := wrap64_of_fits _ (by omega) (by omega)
      simp only [stepLoop, hle, if_true, hw] at h
      rcases ih (i + step) (vals.insert i) r (by omega) h v hv with h1 | h1
      · rw [List.mem_insert_iff] at h1
        rcases h1 with h2 | h2
        · exact Or.inr ⟨by omega, by omega⟩
        · exact Or.inl h2
      · exact Or.inr ⟨by omega, h1.2⟩
    · simp only [stepLoop, hle, if_false, Option.some.injEq] at h
      subst h
      exact Or.inl hv

/-- A term whose bounds lie within `lo .. hi` adds only members of `lo .. hi`. -/
theorem parsePart_members (fuel : Nat) (part : List Char) (lo hi : Int) (vals r : List Int)
    (hlo : strconv.minInt ≤ lo) (hhi : hi < strconv.maxInt)
    (hw : termWithin lo hi part = true)
    (h : parsePart fuel part lo hi vals = some (.ok r)) :
    ∀ v ∈ r, v ∈ vals ∨ (lo ≤ v ∧ v ≤ hi) := by
  unfold parsePart at h
  unfold termWithin at hw
  split_ifs at h hw with c1 c2
  · split at h
    · rename_i base stepStr heq
      rw [heq] at hw
      simp only [] at h hw
      split_ifs at h with c3
      · simp at h
      · simp only [ne_eq, Bool.or_eq_true, decide_eq_true_eq, not_or, not_le] at c3
        split at h
        · simp at h
        · rename_i start stop hb
          rw [hb] at hw
          simp only [Bool.and_eq_true, decide_eq_true_eq] at hw
          simp only [Option.map_eq_some', Except.ok.injEq] at h
          obtain ⟨a, ha, hr⟩ := h
          subst hr
          intro v hv
          rcases stepLoop_members stop _ c3.2 hw.2 fuel start vals a (by omega) ha v hv
            with h1 | h1
          · exact Or.inl h1
          · exact Or.inr ⟨by omega, by omega⟩
    · simp at h
  · split at h
    · rename_i r0 r1 heq
      rw [heq] at hw
      simp only [Bool.and_eq_true, decide_eq_true_eq] at hw
      split_ifs at h with c3
      · simp at h
      · simp only [Option.map_eq_some', Except.ok.injEq] at h
        obtain ⟨a, ha, hr⟩ := h
        subst hr
        intro v hv
        rcases stepLoop_members _ 1 (by norm_num) (by omega) fuel _ vals a (by omega) ha v hv
          with h1 | h1
        · exact Or.inl h1
        · exact Or.inr ⟨by omega, by omega⟩
    · simp at h
  · simp only [] at h
    split_ifs at h with c3 c4
    · simp at h
    · simp at h
    · simp only [Bool.or_eq_true, decide_eq_true_eq, not_or, not_lt] at c4
      simp only [Option.some.injEq, Except.ok.injEq] at h
      subst h
      intro v hv
      rw [List.mem_insert_iff] at hv
      rcases hv with h1 | h1
      · exact Or.inr ⟨by omega, by omega⟩
      · exact Or.inl h1

/-- Terms whose bounds lie within `lo .. hi` add only members of `lo .. hi`. -/
theorem parseParts_members (fuel : Nat) (lo hi : Int) (hlo : strconv.minInt ≤ lo)
    (hhi : hi < strconv.maxInt) (parts : List (List Char)) :
    ∀ (vals r : List Int), (∀ part ∈ parts, termWithin lo hi part = true) →
      parseParts fuel lo hi parts vals = some (.ok r) →
      ∀ v ∈ r, v ∈ vals ∨ (lo ≤ v ∧ v ≤ hi) := by
  induction parts with
  | nil =>
    intro vals r _ h v hv
    simp only [parseParts, Option.some.injEq, Except.ok.injEq] at h
    subst h
    exact Or.inl hv
  | cons p ps ih =>
    intro vals r hw h v hv
    unfold parseParts at h
    rcases hp : parsePart fuel p lo hi vals with _ | (err | vals1)
    · rw [hp] at h; simp at h
    · rw [hp] at h; simp at h
    · rw [hp] at h
      simp only [] at h
      rcases ih vals1 r (fun q hq => hw q (List.mem_cons_of_mem _ hq)) h v hv with h1 | h1
      · exact parsePart_members fuel p lo hi vals vals1 hlo hhi (hw p (List.mem_cons_self _ _))
          hp v h1
      · exact Or.inr h1

/-- A field text all of whose terms have bounds within `lo .. hi`: every member
of the explicit set it is parsed to lies in `lo .. hi`. -/
theorem parseField_members (fuel : Nat) (s : List Char) (lo hi : Int) (f : fieldSet)
    (hlo : strconv.minInt ≤ lo) (hhi : hi < strconv.maxInt)
    (hw : ∀ part ∈ strings.Split s ',', termWithin lo hi part = true)
    (h : parseField fuel s lo hi = some (f, none)) (hall : f.all = false) :
    ∀ v, f.has v = true → lo ≤ v ∧ v ≤ hi := by
  unfold parseField at h
  split_ifs at h with hs
  · simp only [Option.some.injEq, Prod.mk.injEq, and_true] at h
    subst h
    simp at hall
  · rcases hp : parseParts fuel lo hi (strings.Split s ',') [] with _ | (err | vals1)
    · rw [hp] at h; simp at h
    · rw [hp] at h; simp at h
    · rw [hp] at h
      simp only [Option.some.injEq, Prod.mk.injEq, and_true] at h
      subst h
      intro v hv
      rw [has_explicit] at hv
      rcases parseParts_members fuel lo hi hlo hhi _ [] vals1 hw hp v hv with h1 | h1
      · simp at h1
      · exact h1

/-! ## Claims about the members of a predicate -/

/-- Counterexample to C11: the bounds of a range and the base of a step are not
checked against `lo .. hi`. The range `58-61` is accepted for the minutes (0..59)
with the members 60 and 61, and the step `0/10` is accepted for the days of the
month (1..31) with the member 0; `Parse` accepts both as fields. -/
theorem range_members_outside_bounds :
    parseField 4 "58-61".toList 0 59 = some (⟨false, some [61, 60, 59, 58]⟩, none) ∧
    (fieldSet.mk false (some [61, 60, 59, 58])).has 61 = true ∧ ¬ ((61 : Int) ≤ 59) ∧
    parseField 4 "0/10".toList 1 31 = some (⟨false, some [30, 20, 10, 0]⟩, none) ∧
    (fieldSet.mk false (some [30, 20, 10, 0])).has 0 = true ∧ ¬ ((1 : Int) ≤ 0) ∧
    Parse 4 "58-61 * 0/10 * *".toList
      = some (⟨.ofList [61, 60, 59, 58], .star, .ofList [30, 20, 10, 0], .star, .star⟩,
          none) := by
  decide

/-- C11, amended: if `parseField` succeeds on `s` over `lo .. hi` (64-bit bounds,
`hi` below the largest `int`) with an explicit set, and the bounds every range or
step term of `s` resolves to lie within `lo .. hi` with no overflow of the loop
counter, then every member `v` of the set satisfies `lo ≤ v ≤ hi`; plain values
are always checked. Consequently every explicit member of a field of a parsed
expression lies in the range of the field when the terms of that field have
their bounds within it. -/
theorem explicit_members_within_bounds :
    (∀ (s : List Char) (lo hi : Int) (fuel : Nat) (f : fieldSet),
      strconv.minInt ≤ lo → hi < strconv.maxInt →
      (∀ part ∈ strings.Split s ',', termWithin lo hi part = true) →
      parseField fuel s lo hi = some (f, none) → f.all = false →
      ∀ v, f.has v = true → lo ≤ v ∧ v ≤ hi) ∧
    (∀ (s p0 p1 p2 p3 p4 : List Char) (fuel : Nat) (e : Expression),
      strings.Fields s = [p0, p1, p2, p3, p4] → Parse fuel s = some (e, none) →
      ((∀ part ∈ strings.Split p0 ',', termWithin 0 59 part = true) →
        e.minutes.all = false → ∀ v, e.minutes.has v = true → 0 ≤ v ∧ v ≤ 59) ∧
      ((∀ part ∈ strings.Split p1 ',', termWithin 0 23 part = true) →
        e.hours.all = false → ∀ v, e.hours.has v = true → 0 ≤ v ∧ v ≤ 23) ∧
      ((∀ part ∈ strings.Split p2 ',', termWithin 1 31 part = true) →
        e.days.all = false → ∀ v, e.days.has v = true → 1 ≤ v ∧ v ≤ 31) ∧
      ((∀ part ∈ strings.Split p3 ',', termWithin 1 12 part = true) →
        e.months.all = false → ∀ v, e.months.has v = true → 1 ≤ v ∧ v ≤ 12) ∧
      ((∀ part ∈ strings.Split p4 ',', termWithin 0 6 part = true) →
        e.weekdays.all = false → ∀ v, e.weekdays.has v = true → 0 ≤ v ∧ v ≤ 6)) := by
  refine ⟨fun s lo hi fuel f hlo hhi hw h hall =>
    parseField_members fuel s lo hi f hlo hhi hw h hall, ?_⟩
  intro s p0 p1 p2 p3 p4 fuel e hf hp
  obtain ⟨q0, q1, q2, q3, q4, hq, h0, h1, h2, h3, h4⟩ := fields_of_Parse fuel s e hp
  rw [hf] at hq
  simp only [List.cons.injEq, and_true] at hq
  obtain ⟨e0, e1, e2, e3, e4⟩ := hq
  subst e0 e1 e2 e3 e4
  exact ⟨fun hw hall => parseField_members fuel _ 0 59 _ (by decide) (by decide) hw h0 hall,
    fun hw hall => parseField_members fuel _ 0 23 _ (by decide) (by decide) hw h1 hall,
    fun hw hall => parseField_members fuel _ 1 31 _ (by decide) (by decide) hw h2 hall,
    fun hw hall => parseField_members fuel _ 1 12 _ (by decide) (by decide) hw h3 hall,
    fun hw hall => parseField_members fuel _ 0 6 _ (by decide) (by decide) hw h4 hall⟩

/-- Witness of the amended C11 at `*/15,20-25,7,40/9` over 0..59: the member 58 of
the last term is within the bounds. -/
theorem explicit_members_within_bounds_witness :
    parseField 6 "*/15,20-25,7,40/9".toList 0 59
      = some (⟨false, some [58, 49, 40, 7, 25, 24, 23, 22, 21, 20, 45, 30, 15, 0]⟩, none) ∧
    (fieldSet.mk false (some [58, 49, 40, 7, 25, 24, 23, 22, 21, 20, 45, 30, 15, 0])).has 58
      = true ∧
    ((0 : Int) ≤ 58 ∧ (58 : Int) ≤ 59) :=
  ⟨by decide, by decide,
    explicit_members_within_bounds.1 "*/15,20-25,7,40/9".toList 0 59 6
      ⟨false, some [58, 49, 40, 7, 25, 24, 23, 22, 21, 20, 45, 30, 15, 0]⟩ (by decide)
      (by decide) (by decide) (by decide) rfl 58 (by decide)⟩

/-! ## Comma-separated lists of terms -/

/-- Splitting the text that lists comma-free terms gives the terms back. -/
theorem Split_joinComma (terms : List (List Char)) (hne : terms ≠ [])
    (hc : ∀ t ∈ terms, ',' ∉ t) : strings.Split (joinComma terms) ',' = terms := by
  induction terms with
  | nil => exact absurd rfl hne
  | cons t rest ih =>
    cases rest with
    | nil =>
      simp only [joinComma]
      exact strings.Split_of_not_mem t ',' (hc t (List.mem_cons_self _ _))
    | cons t2 rest2 =>
      simp only [joinComma]
      rw [strings.Split_append t _ ',' (hc t (List.mem_cons_self _ _))]
      have := ih (by simp) (fun q hq => hc q (List.mem_cons_of_mem _ hq))
      simp only [joinComma] at this
      rw [this]

/-- Whether and with what error the loop exits does not depend on the map it
started from, and what it adds to the map does not either. -/
theorem stepLoop_uniform (stop step : Int) (fuel : Nat) :
    ∀ i : Int, (∀ vals, stepLoop stop step fuel i vals = none) ∨
      ∃ added : List Int, ∀ vals, ∃ r, stepLoop stop step fuel i vals = some r ∧
        ∀ v, v ∈ r ↔ (v ∈ vals ∨ v ∈ added) := by
  induction fuel with
  | zero =>
    intro i
    by_cases hle : i ≤ stop
    · exact Or.inl (fun vals => by simp [stepLoop, hle])
    · exact Or.inr ⟨[], fun vals => ⟨vals, by simp [stepLoop, hle], fun v => by simp⟩⟩
  | succ n ih =>
    intro i
    by_cases hle : i ≤ stop
    · rcases ih (wrap64 (i + step)) with h | ⟨added, h⟩
      · exact Or.inl (fun vals => by simp [stepLoop, hle, h])
      · refine Or.inr ⟨i :: added, fun vals => ?_⟩
        obtain ⟨r, hr, hm⟩ := h (vals.insert i)
        refine ⟨r, by simp [stepLoop, hle, hr], fun v => ?_⟩
        rw [hm, List.mem_insert_iff, List.mem_cons]
        tauto
    · exact Or.inr ⟨[], fun vals => ⟨vals, by simp [stepLoop, hle], fun v => by simp⟩⟩

/-- One term: whether it is accepted, rejected (and with what error) or never
finishes does not depend on the map built so far, and neither does what it
adds. -/
theorem parsePart_uniform (fuel : Nat) (part : List Char) (lo hi : Int) :
    (∀ vals, parsePart fuel part lo hi vals = none) ∨
    (∃ err, ∀ vals, parsePart fuel part lo hi vals = some (.error err)) ∨
    (∃ added : List Int, ∀ vals, ∃ r, parsePart fuel part lo hi vals = some (.ok r) ∧
      ∀ v, v ∈ r ↔ (v ∈ vals ∨ v ∈ added)) := by
  have loopCase : ∀ (stop step start : Int),
      (∀ vals, (stepLoop stop step fuel start vals).map (Except.ok (ε := ParseError)) = none) ∨
      (∃ added : List Int, ∀ vals, ∃ r,
        (stepLoop stop step fuel start vals).map (Except.ok (ε := ParseError)) = some (.ok r) ∧
        ∀ v, v ∈ r ↔ (v ∈ vals ∨ v ∈ added)) := by
    intro stop step start
    rcases stepLoop_uniform stop step fuel start with h | ⟨added, h⟩
    · exact Or.inl (fun vals => by rw [h vals]; rfl)
    · refine Or.inr ⟨added, fun vals => ?_⟩
      obtain ⟨r, hr, hm⟩ := h vals
      exact ⟨r, by rw [hr]; rfl, hm⟩
  unfold parsePart
  split_ifs with c1 c2
  · split
    · rename_i base stepStr heq
      simp only []
      split_ifs with c3
      · exact Or.inr (Or.inl ⟨_, fun _ => rfl⟩)
      · split
        · exact Or.inr (Or.inl ⟨_, fun _ => rfl⟩)
        · rename_i start stop hb
          rcases loopCase stop (strconv.Atoi stepStr).1 start with h | h
          · exact Or.inl h
          · exact Or.inr (Or.inr h)
    · exact Or.inr (Or.inl ⟨_, fun _ => rfl⟩)
  · split
    · rename_i r0 r1 heq
      split_ifs with c3
      · exact Or.inr (Or.inl ⟨_, fun _ => rfl⟩)
      · rcases loopCase (strconv.Atoi r1).1 1 (strconv.Atoi r0).1 with h | h
        · exact Or.inl h
        · exact Or.inr (Or.inr h)
    · exact Or.inr (Or.inl ⟨_, fun _ => rfl⟩)
  · simp only []
    split_ifs with c3 c4
    · exact Or.inr (Or.inl ⟨_, fun _ => rfl⟩)
    · exact Or.inr (Or.inl ⟨_, fun _ => rfl⟩)
    · refine Or.inr (Or.inr ⟨[(strconv.Atoi part).1], fun vals => ⟨_, rfl, fun v => ?_⟩⟩)
      rw [List.mem_insert_iff, List.mem_singleton]
      tauto

/-- The terms of a list are all accepted exactly when each is accepted on its
own, and the map then holds what was there and what each term adds on its own. -/
theorem parseParts_union (fuel : Nat) (lo hi : Int) (parts : List (List Char)) :
    ∀ vals : List Int,
      ((∃ r, parseParts fuel lo hi parts vals = some (.ok r)) ↔
        ∀ p ∈ parts, ∃ w, parsePart fuel p lo hi [] = some (.ok w)) ∧
      (∀ r, parseParts fuel lo hi parts vals = some (.ok r) →
        ∀ v, v ∈ r ↔ (v ∈ vals ∨
          ∃ p ∈ parts, ∃ w, parsePart fuel p lo hi [] = some (.ok w) ∧ v ∈ w)) := by
  induction parts with
  | nil =>
    intro vals
    simp [parseParts]
  | cons p ps ih =>
    intro vals
    rcases parsePart_uniform fuel p lo hi with h | ⟨err, h⟩ | ⟨added, h⟩
    · have hn : ¬ ∃ w, parsePart fuel p lo hi [] = some (.ok w) := by
        rintro ⟨w, hw⟩
        rw [h []] at hw
        exact Option.noConfusion hw
      constructor
      · constructor
        · rintro ⟨r, hr⟩
          simp [parseParts, h vals] at hr
        · intro hall
          exact absurd (hall p (List.mem_cons_self _ _)) hn
      · intro r hr
        simp [parseParts, h vals] at hr
    · have hn : ¬ ∃ w, parsePart fuel p lo hi [] = some (.ok w) := by
        rintro ⟨w, hw⟩
        rw [h []] at hw
        simp at hw
      constructor
      · constructor
        · rintro ⟨r, hr⟩
          simp [parseParts, h vals] at hr
        · intro hall
          exact absurd (hall p (List.mem_cons_self _ _)) hn
      · intro r hr
        simp [parseParts, h vals] at hr
    · obtain ⟨vals1, h1, hm1⟩ := h vals
      obtain ⟨w0, hw0, hmw0⟩ := h []
      have hstep : parseParts fuel lo hi (p :: ps) vals = parseParts fuel lo hi ps vals1 := by
        rw [parseParts, h1]
      obtain ⟨ih1, ih2⟩ := ih vals1
      constructor
      · rw [hstep, ih1]
        constructor
        · intro hall q hq
          rcases List.mem_cons.mp hq with heq | hmem
          · subst heq
            exact ⟨w0, hw0⟩
          · exact hall q hmem
        · intro hall q hq
          exact hall q (List.mem_cons_of_mem _ hq)
      · intro r hr v
        rw [hstep] at hr
        rw [ih2 r hr v, hm1 v]
        have hadd : v ∈ added ↔ v ∈ w0 := by
          rw [hmw0 v]
          simp
        constructor
        · rintro ((hv | hv) | ⟨q, hq, w, hw, hvw⟩)
          · exact Or.inl hv
          · exact Or.inr ⟨p, List.mem_cons_self _ _, w0, hw0, hadd.mp hv⟩
          · exact Or.inr ⟨q, List.mem_cons_of_mem _ hq, w, hw, hvw⟩
        · rintro (hv | ⟨q, hq, w, hw, hvw⟩)
          · exact Or.inl (Or.inl hv)
          · rcases List.mem_cons.mp hq with heq | hmem
            · subst heq
              rw [hw0] at hw
              simp only [Option.some.injEq, Except.ok.injEq] at hw
              subst hw
              exact Or.inl (Or.inr (hadd.mpr hvw))
            · exact Or.inr ⟨q, hmem, w, hw, hvw⟩

/-- A term on its own, other than `*`: accepted by `parseField` exactly when the
loop body accepts it from the empty map, with the same members. -/
theorem parseField_term (fuel : Nat) (t : List Char) (lo hi : Int) (h1 : t ≠ ['*'])
    (h2 : ',' ∉ t) :
    ((∃ ft, parseField fuel t lo hi = some (ft, none)) ↔
      ∃ w, parsePart fuel t lo hi [] = some (.ok w)) ∧
    (∀ ft, parseField fuel t lo hi = some (ft, none) →
      ∃ w, parsePart fuel t lo hi [] = some (.ok w) ∧ ∀ v, ft.has v = true ↔ v ∈ w) := by
  rw [parseField_single fuel t lo hi h1 h2]
  rcases parsePart fuel t lo hi [] with _ | (err | w)
  · simp
  · simp
  · constructor
    · simp
    · intro ft hft
      simp only [Option.some.injEq, Prod.mk.injEq, and_true] at hft
      subst hft
      exact ⟨w, rfl, fun v => has_explicit w v⟩

/-- The field text that lists terms, none of them the bare `*`, is parsed by the
loop over those terms. -/
theorem parseField_joinComma (fuel : Nat) (terms : List (List Char)) (lo hi : Int)
    (hne : terms ≠ []) (hc : ∀ t ∈ terms, ',' ∉ t) (hstar : ∀ t ∈ terms, t ≠ ['*']) :
    parseField fuel (joinComma terms) lo hi =
      match parseParts fuel lo hi terms [] with
      | none => none
      | some (.error err) => some (fieldSet.zero, some err)
      | some (.ok vals) => some (⟨false, some vals⟩, none) := by
  have hsplit := Split_joinComma terms hne hc
  have hs : joinComma terms ≠ ['*'] := by
    intro he
    rw [he] at hsplit
    have h1 : strings.Split ['*'] ',' = [['*']] := by decide
    rw [h1] at hsplit
    exact hstar ['*'] (by rw [← hsplit]; simp) rfl
  unfold parseField
  rw [if_neg hs, hsplit]

/-- The list is accepted exactly when each term is accepted on its own, and its
members are then the members of the terms. -/
theorem parseField_list_union (fuel : Nat) (terms : List (List Char)) (lo hi : Int)
    (hne : terms ≠ []) (hc : ∀ t ∈ terms, ',' ∉ t) (hstar : ∀ t ∈ terms, t ≠ ['*']) :
    ((∃ f, parseField fuel (joinComma terms) lo hi = some (f, none)) ↔
      ∀ t ∈ terms, ∃ ft, parseField fuel t lo hi = some (ft, none)) ∧
    (∀ f, parseField fuel (joinComma terms) lo hi = some (f, none) →
      ∀ v, f.has v = true ↔
        ∃ t ∈ terms, ∃ ft,
          parseField fuel t lo hi = some (ft, none) ∧ ft.has v = true) := by
  rw [parseField_joinComma fuel terms lo hi hne hc hstar]
  obtain ⟨u1, u2⟩ := parseParts_union fuel lo hi terms []
  have hterm : ∀ t ∈ terms, ((∃ ft, parseField fuel t lo hi = some (ft, none)) ↔
      ∃ w, parsePart fuel t lo hi [] = some (.ok w)) :=
    fun t ht => (parseField_term fuel t lo hi (hstar t ht) (hc t ht)).1
  constructor
  · constructor
    · rintro ⟨f, hf⟩
      rcases hp : parseParts fuel lo hi terms [] with _ | (err | vals)
      · rw [hp] at hf; simp at hf
      · rw [hp] at hf; simp at hf
      · intro t ht
        exact (hterm t ht).mpr (u1.mp ⟨vals, hp⟩ t ht)
    · intro hall
      obtain ⟨r, hr⟩ := u1.mpr (fun t ht => (hterm t ht).mp (hall t ht))
      exact ⟨⟨false, some r⟩, by rw [hr]⟩
  · intro f hf v
    rcases hp : parseParts fuel lo hi terms [] with _ | (err | vals)
    · rw [hp] at hf; simp at hf
    · rw [hp] at hf; simp at hf
    · rw [hp] at hf
      simp only [Option.some.injEq, Prod.mk.injEq, and_true] at hf
      subst hf
      rw [has_explicit, u2 vals hp v]
      simp only [List.not_mem_nil, false_or]
      constructor
      · rintro ⟨t, ht, w, hw, hvw⟩
        obtain ⟨ft, hft⟩ := (hterm t ht).mpr ⟨w, hw⟩
        obtain ⟨w1, hw1, hm⟩ := (parseField_term fuel t lo hi (hstar t ht) (hc t ht)).2 ft hft
        rw [hw] at hw1
        simp only [Option.some.injEq, Except.ok.injEq] at hw1
        subst hw1
        exact ⟨t, ht, ft, hft, (hm v).mpr hvw⟩
      · rintro ⟨t, ht, ft, hft, hv⟩
        obtain ⟨w1, hw1, hm⟩ := (parseField_term fuel t lo hi (hstar t ht) (hc t ht)).2 ft hft
        exact ⟨t, ht, w1, hw1, (hm v).mp hv⟩

/-- Terms each accepted with some fuel are all accepted with a common fuel. -/
theorem common_fuel (lo hi : Int) (terms : List (List Char))
    (h : ∀ t ∈ terms, ∃ fuel ft, parseField fuel t lo hi = some (ft, none)) :
    ∃ fuel, ∀ t ∈ terms, ∃ ft, parseField fuel t lo hi = some (ft, none) := by
  induction terms with
  | nil => exact ⟨0, fun t ht => by simp at ht⟩
  | cons a as ih =>
    obtain ⟨n1, fa, ha⟩ := h a (List.mem_cons_self _ _)
    obtain ⟨n2, h2⟩ := ih (fun t ht => h t (List.mem_cons_of_mem _ ht))
    refine ⟨n1 + n2, fun t ht => ?_⟩
    rcases List.mem_cons.mp ht with heq | hmem
    · subst heq
      exact ⟨fa, parseField_mono n1 _ lo hi _ n2 ha⟩
    · obtain ⟨ft, hft⟩ := h2 t hmem
      have := parseField_mono n2 t lo hi _ n1 hft
      rw [Nat.add_comm] at this
      exact ⟨ft, this⟩

/-- C17: a comma-separated field denotes the union of its terms. For every `lo`,
`hi` and every non-empty list of terms (texts without a comma), none of them the
bare `*`, `parseField` accepts the list joined by commas if and only if it accepts
each term on its own (with the same fuel, hence also with enough fuel for each),
and then `has v` on the result is true if and only if it is true for the result
of at least one term. Hence two lists with the same terms, in
any order and with any repetition, are accepted together and have the same
members, as `1,3,5` and `5,3,1,1`. -/
theorem comma_list_is_union :
    (∀ (terms : List (List Char)) (lo hi : Int) (fuel : Nat), terms ≠ [] →
      (∀ t ∈ terms, ',' ∉ t) → (∀ t ∈ terms, t ≠ ['*']) →
      ((∃ f, parseField fuel (joinComma terms) lo hi = some (f, none)) ↔
        ∀ t ∈ terms, ∃ ft, parseField fuel t lo hi = some (ft, none)) ∧
      (∀ f, parseField fuel (joinComma terms) lo hi = some (f, none) →
        ∀ v, f.has v = true ↔
          ∃ t ∈ terms, ∃ ft,
            parseField fuel t lo hi = some (ft, none) ∧ ft.has v = true)) ∧
    (∀ (terms : List (List Char)) (lo hi : Int), terms ≠ [] →
      (∀ t ∈ terms, ',' ∉ t) → (∀ t ∈ terms, t ≠ ['*']) →
      ((∃ fuel f, parseField fuel (joinComma terms) lo hi = some (f, none)) ↔
        ∀ t ∈ terms, ∃ fuel ft, parseField fuel t lo hi = some (ft, none))) ∧
    (∀ (terms1 terms2 : List (List Char)) (lo hi : Int) (fuel : Nat), terms1 ≠ [] →
      (∀ t ∈ terms1, ',' ∉ t) → (∀ t ∈ terms1, t ≠ ['*']) →
      (∀ t, t ∈ terms1 ↔ t ∈ terms2) →
      ((∃ f, parseField fuel (joinComma terms1) lo hi = some (f, none)) ↔
        (∃ f, parseField fuel (joinComma terms2) lo hi = some (f, none))) ∧
      (∀ f1 f2, parseField fuel (joinComma terms1) lo hi = some (f1, none) →
        parseField fuel (joinComma terms2) lo hi = some (f2, none) →
        ∀ v, f1.has v = f2.has v)) ∧
    (joinComma ["1".toList, "3".toList, "5".toList] = "1,3,5".toList ∧
      joinComma ["5".toList, "3".toList, "1".toList, "1".toList] = "5,3,1,1".toList ∧
      ∀ fuel : Nat,
        parseField fuel "1,3,5".toList 0 5 = some (⟨false, some [5, 3, 1]⟩, none) ∧
        parseField fuel "5,3,1,1".toList 0 5 = some (⟨false, some [1, 3, 5]⟩, none) ∧
        ∀ v, (fieldSet.mk false (some [5, 3, 1])).has v
          = (fieldSet.mk false (some [1, 3, 5])).has v) := by
  refine ⟨fun terms lo hi fuel hne hc hstar =>
    parseField_list_union fuel terms lo hi hne hc hstar, ?_, ?_, by decide, by decide, ?_⟩
  · intro terms lo hi hne hc hstar
    constructor
    · rintro ⟨fuel, hf⟩ t ht
      exact ⟨fuel, (parseField_list_union fuel terms lo hi hne hc hstar).1.mp hf t ht⟩
    · intro hall
      obtain ⟨fuel, hfuel⟩ := common_fuel lo hi terms hall
      exact ⟨fuel, (parseField_list_union fuel terms lo hi hne hc hstar).1.mpr hfuel⟩
  · intro terms1 terms2 lo hi fuel hne hc hstar hsame
    have hne2 : terms2 ≠ [] := by
      intro he
      cases terms1 with
      | nil => exact hne rfl
      | cons a as =>
        have := (hsame a).mp (List.mem_cons_self _ _)
        rw [he] at this
        simp at this
    have hc2 : ∀ t ∈ terms2, ',' ∉ t := fun t ht => hc t ((hsame t).mpr ht)
    have hstar2 : ∀ t ∈ terms2, t ≠ ['*'] := fun t ht => hstar t ((hsame t).mpr ht)
    obtain ⟨a1, a2⟩ := parseField_list_union fuel terms1 lo hi hne hc hstar
    obtain ⟨b1, b2⟩ := parseField_list_union fuel terms2 lo hi hne2 hc2 hstar2
    constructor
    · rw [a1, b1]
      exact ⟨fun h t ht => h t ((hsame t).mpr ht), fun h t ht => h t ((hsame t).mp ht)⟩
    · intro f1 f2 h1 h2 v
      have e1 := a2 f1 h1 v
      have e2 := b2 f2 h2 v
      have : f1.has v = true ↔ f2.has v = true := by
        rw [e1, e2]
        constructor
        · rintro ⟨t, ht, r⟩
          exact ⟨t, (hsame t).mp ht, r⟩
        · rintro ⟨t, ht, r⟩
          exact ⟨t, (hsame t).mpr ht, r⟩
      cases h3 : f1.has v <;> cases h4 : f2.has v <;> simp_all
  · intro fuel
    refine ⟨parseField_of_zero fuel _ 0 5 _ (by decide),
      parseField_of_zero fuel _ 0 5 _ (by decide), fun v => ?_⟩
    have h1 := has_explicit [5, 3, 1] v
    have h2 := has_explicit [1, 3, 5] v
    have : (fieldSet.mk false (some [5, 3, 1])).has v = true ↔
        (fieldSet.mk false (some [1, 3, 5])).has v = true := by
      rw [h1, h2]
      simp only [List.mem_cons, List.mem_singleton, List.not_mem_nil, or_false]
      tauto
    cases h3 : (fieldSet.mk false (some [5, 3, 1])).has v <;>
      cases h4 : (fieldSet.mk false (some [1, 3, 5])).has v <;> simp_all

/-- Witness of C17 at the list `1-3`, `*/20`, `7` over 0..59, and at the lists
`1,3,5` and `5,3,1,1` over 0..5. -/
theorem comma_list_is_union_witness :
    (((∃ f, parseField 3 (joinComma ["1-3".toList, "*/20".toList, "7".toList]) 0 59
        = some (f, none)) ↔
      ∀ t ∈ ["1-3".toList, "*/20".toList, "7".toList],
        ∃ ft, parseField 3 t 0 59 = some (ft, none)) ∧
    (∀ f, parseField 3 (joinComma ["1-3".toList, "*/20".toList, "7".toList]) 0 59
        = some (f, none) →
      ∀ v, f.has v = true ↔
        ∃ t ∈ ["1-3".toList, "*/20".toList, "7".toList],
          ∃ ft, parseField 3 t 0 59 = some (ft, none) ∧ ft.has v = true)) ∧
    (((∃ f, parseField 0 (joinComma ["1".toList, "3".toList, "5".toList]) 0 5
        = some (f, none)) ↔
      (∃ f, parseField 0 (joinComma ["5".toList, "3".toList, "1".toList, "1".toList]) 0 5
        = some (f, none))) ∧
    (∀ f1 f2, parseField 0 (joinComma ["1".toList, "3".toList, "5".toList]) 0 5
        = some (f1, none) →
      parseField 0 (joinComma ["5".toList, "3".toList, "1".toList, "1".toList]) 0 5
        = some (f2, none) →
      ∀ v, f1.has v = f2.has v)) :=
  ⟨comma_list_is_union.1 ["1-3".toList, "*/20".toList, "7".toList] 0 59 3 (by decide)
      (by decide) (by decide),
    comma_list_is_union.2.2.1 ["1".toList, "3".toList, "5".toList]
      ["5".toList, "3".toList, "1".toList, "1".toList] 0 5 0 (by decide) (by decide)
      (by decide) (by
        intro t
        simp only [List.mem_cons, List.mem_singleton, List.not_mem_nil, or_false]
        tauto)⟩

end Cronkit
